import Mathlib

/-!
# orbs-sync: dependency resolver and retrying bulk importer

A shallow embedding of `dependency-resolver/dependency-resolver.go` and
`bulk-importer/bulk-importer.go`.

* Go strings are lists of characters (`Str`).
* A Go `map[string]T` is an association list with at most one entry per key
  (`GoMap`): `GoMap.get?` is `m[k]`, `GoMap.set` is `m[k] = v`, `GoMap.delete`
  is `delete(m, k)`.  The inner maps `map[string]string` of the resolver always
  store a key as its own value, so they are sets of strings (`StrSet`).
* The package-level variables of the resolver are the fields of `Graph`, passed
  explicitly from one function to the next.
* Go leaves the iteration order of a map unspecified.  The order in which
  `listOrbsWithoutDependencies` lists the ready refs decides the order of the
  result; it is the parameter `order`, a function that rearranges the listed
  keys.  The other iterations fill or empty maps, where the order has no
  effect, or build the lists of the unresolved map, of which only the members
  are specified.
* A loop whose number of rounds is not fixed in advance is a recursion on a
  number of rounds allowed (`fuel`); for each one a lemma shows that the fuel
  given is enough (`procQueueLoop_drains`, `truncationLoop_fuel`,
  `resolveLoop_fuel`).
* `yaml.Unmarshal` and the registry client are external libraries: the first is
  the parameter `unmarshal`, the second the record `Registry`.
-/

namespace OrbsSync

/-- A Go string. -/
abbrev Str := List Char

/-- The type `types.VersionedOrb`, with the four fields the code reads. -/
structure VersionedOrb where
  Ref : Str
  Name : Str
  Version : Str
  Source : Str
deriving DecidableEq, Repr

/-! ## Go maps -/

/-- A `map[string]β`. -/
abbrev GoMap (β : Type) := List (Str × β)

/-- The lookup `m[k]`; `none` when the key is absent. -/
def GoMap.get? {β : Type} : GoMap β → Str → Option β
  | [], _ => none
  | (k', v) :: rest, k => if k' = k then some v else GoMap.get? rest k

/-- The assignment `m[k] = v`. -/
def GoMap.set {β : Type} : GoMap β → Str → β → GoMap β
  | [], k, v => [(k, v)]
  | (k', v') :: rest, k, v =>
    if k' = k then (k, v) :: rest else (k', v') :: GoMap.set rest k v

/-- The statement `delete(m, k)`. -/
def GoMap.delete {β : Type} (m : GoMap β) (k : Str) : GoMap β :=
  m.filter (fun e => !decide (e.1 = k))

/-- An update in place of the value stored under `k`; nothing happens when the
key is absent (as for `delete(m[k], x)` on the nil map `m[k]`). -/
def GoMap.modify {β : Type} : GoMap β → Str → (β → β) → GoMap β
  | [], _, _ => []
  | (k', v') :: rest, k, f =>
    if k' = k then (k', f v') :: rest else (k', v') :: GoMap.modify rest k f

/-- The keys of a map. -/
def GoMap.keys {β : Type} (m : GoMap β) : List Str := m.map Prod.fst

/-- A `map[string]string` whose values equal their keys. -/
abbrev StrSet := List Str

/-- The assignment `s[x] = x`. -/
def StrSet.insert (s : StrSet) (x : Str) : StrSet :=
  if x ∈ s then s else s ++ [x]

/-- The statement `delete(s, x)`. -/
def StrSet.delete (s : StrSet) (x : Str) : StrSet :=
  s.filter (fun y => !decide (y = x))

/-! ## Decoded manifests -/

/-- A value of type `interface{}` as `yaml.Unmarshal` stores it in a
`map[string]interface{}`: a string, a nested `map[string]interface{}`, or
anything else (numbers, lists, null, ...). -/
inductive YamlValue where
  | str : Str → YamlValue
  | map : List (Str × YamlValue) → YamlValue
  | other : YamlValue

/-- A `map[string]interface{}`. -/
abbrev YamlMap := List (Str × YamlValue)

mutual
/-- Number of nodes of a decoded value. -/
def YamlValue.weight : YamlValue → Nat
  | .str _ => 1
  | .map m => 1 + entriesWeight m
  | .other => 1
/-- Number of nodes below the entries of a decoded map. -/
def entriesWeight : List (Str × YamlValue) → Nat
  | [] => 0
  | (_, v) :: rest => v.weight + entriesWeight rest
end

/-- Number of nodes of a queue of decoded maps: it bounds the number of
rounds of the traversal loop of `initMaps`. -/
def queueWeight : List YamlMap → Nat
  | [] => 0
  | m :: rest => (1 + entriesWeight m) + queueWeight rest

/-- The lookup `value["orbs"]` in a decoded map. -/
def YamlMap.orbs : YamlMap → Option YamlValue
  | [] => none
  | (k, v) :: rest => if k = "orbs".toList then some v else YamlMap.orbs rest

/-! ## The resolver (`dependency-resolver.go`) -/

namespace DepResolver

/-- The package-level variables `orbRefMap`, `resolvedOrder`,
`dependenciesMap` and `dependentsMap`.  An element of `resolvedOrder` is a
pointer, `none` being the nil pointer that `orbRefMap[orbRef]` yields for an
absent key. -/
structure Graph where
  orbRefMap : GoMap VersionedOrb
  resolvedOrder : List (Option VersionedOrb)
  dependenciesMap : GoMap StrSet
  dependentsMap : GoMap StrSet

/-- The four variables as `Resolve` sets them before `initMaps`. -/
def Graph.empty : Graph := ⟨[], [], [], []⟩

/-- `getDependents`: the dependents of `orbRef`, created empty when absent. -/
def getDependents (dependentsMap : GoMap StrSet) (orbRef : Str) :
    StrSet × GoMap StrSet :=
  match dependentsMap.get? orbRef with
  | some dependents => (dependents, dependentsMap)
  | none => ([], dependentsMap.set orbRef [])

/-- The variables the traversal of one manifest works on: the queue
`procQueue`, the local map `dependencies` and the global `dependentsMap`. -/
structure Walk where
  procQueue : List YamlMap
  dependencies : StrSet
  dependentsMap : GoMap StrSet

/-- The loop `for _, prop := range procQueue[0]` of `initMaps`, with its type
switch: a string is registered as a dependency of `ref`, a map whose `"orbs"`
entry is a map has that entry queued. -/
def visitProps (ref : Str) : List (Str × YamlValue) → Walk → Walk
  | [], w => w
  | (_, .str value) :: rest, w =>
    let siblingDependents := getDependents w.dependentsMap value
    visitProps ref rest
      { w with
        dependentsMap := siblingDependents.2.set value (siblingDependents.1.insert ref)
        dependencies := w.dependencies.insert value }
  | (_, .map value) :: rest, w =>
    match YamlMap.orbs value with
    | some (.map nestedOrbs) =>
      visitProps ref rest { w with procQueue := w.procQueue ++ [nestedOrbs] }
    | _ => visitProps ref rest w
  | (_, .other) :: rest, w => visitProps ref rest w

/-- The loop `for procQueue := ...; len(procQueue) > 0; procQueue = procQueue[1:]`
of `initMaps`, run for at most `fuel` rounds. -/
def procQueueLoop (ref : Str) : Nat → Walk → Walk
  | 0, w => w
  | fuel + 1, w =>
    match w.procQueue with
    | [] => w
    | head :: _ =>
      let w1 := visitProps ref head w
      procQueueLoop ref fuel { w1 with procQueue := w1.procQueue.tail }

/-- The traversal of the decoded `orbs` block of the manifest of `ref`. -/
def walkOrbs (ref : Str) (orbsBlock : YamlMap) (dependentsMap : GoMap StrSet) : Walk :=
  procQueueLoop ref (queueWeight [orbsBlock]) ⟨[orbsBlock], [], dependentsMap⟩

/-- One round of the loop of `initMaps`.  `unmarshal` is `yaml.Unmarshal` into
`orbImportingOrb`: `none` for an error, else the field `Orbs`. -/
def initOrb (unmarshal : Str → Option YamlMap) (orb : VersionedOrb)
    (acc : Graph × List Str) : Graph × List Str :=
  let g := { acc.1 with orbRefMap := acc.1.orbRefMap.set orb.Ref orb }
  match unmarshal orb.Source with
  | none => (g, acc.2 ++ [orb.Ref])
  | some orbsBlock =>
    let w := walkOrbs orb.Ref orbsBlock g.dependentsMap
    ({ g with
       dependentsMap := w.dependentsMap
       dependenciesMap := g.dependenciesMap.set orb.Ref w.dependencies }, acc.2)

/-- `initMaps`: the graph after all packages are registered, and the list
`illegible`. -/
def initMaps (unmarshal : Str → Option YamlMap) :
    List VersionedOrb → Graph × List Str → Graph × List Str
  | [], acc => acc
  | orb :: rest, acc => initMaps unmarshal rest (initOrb unmarshal orb acc)

/-- `listOrbsWithoutDependencies`: the keys of `dependenciesMap` whose map is
empty, in the order `order` gives them. -/
def listOrbsWithoutDependencies (order : List Str → List Str) (g : Graph) : List Str :=
  order ((g.dependenciesMap.filter (fun e => e.2.length == 0)).map Prod.fst)

/-- `doDeleteReferencesForOrb`. -/
def doDeleteReferencesForOrb (orbRef : Str) (g : Graph) : Graph :=
  let dm := g.dependenciesMap.delete orbRef
  match g.dependentsMap.get? orbRef with
  | some dependents =>
    { g with
      dependenciesMap :=
        dependents.foldl (fun m dependent => m.modify dependent (fun s => s.delete orbRef)) dm }
  | none => { g with dependenciesMap := dm }

/-- The character class `\d` of Go's regexp: an ASCII digit. -/
def isDigit (c : Char) : Bool := decide ('0' ≤ c) && decide (c ≤ '9')

/-- The test `regexp.MustCompile("\d+$").MatchString(s)`: `s` ends in a digit. -/
def endsInDigits (s : Str) : Bool :=
  match s.reverse with
  | [] => false
  | c :: _ => isDigit c

/-- `trimMostInsignificantSemver`: `ReplaceAllString(orbRef, "")` for the
pattern `\.?\d+$`.  The only match is the maximal run of digits that ends the
string, with the dot before it if there is one; without a final digit nothing
matches. -/
def trimMostInsignificantSemver (orbRef : Str) : Str :=
  match orbRef.reverse with
  | [] => orbRef
  | c :: _ =>
    if isDigit c then
      match orbRef.reverse.dropWhile isDigit with
      | '.' :: rest => rest.reverse
      | rest => rest.reverse
    else orbRef

/-- The call `ReplaceAllString(orbRef, "@volatile")` for the pattern `@[^@]*$`:
the text from the last `@` on is replaced; without an `@` nothing matches. -/
def replaceVersionByVolatile (orbRef : Str) : Str :=
  if '@' ∈ orbRef then
    ((orbRef.reverse.dropWhile (fun c => decide (c ≠ '@'))).drop 1).reverse ++ "@volatile".toList
  else orbRef

/-- The loop of `deleteReferencesForOrb` over the truncated refs, started at
`p` and run for at most `fuel` rounds. -/
def truncationLoop : Nat → Str → Graph → Graph
  | 0, _, g => g
  | fuel + 1, p, g =>
    if endsInDigits p then
      truncationLoop fuel (trimMostInsignificantSemver p) (doDeleteReferencesForOrb p g)
    else g

/-- `deleteReferencesForOrb`. -/
def deleteReferencesForOrb (orbRef : Str) (g : Graph) : Graph :=
  let g1 := doDeleteReferencesForOrb orbRef g
  let g2 := truncationLoop orbRef.length (trimMostInsignificantSemver orbRef) g1
  doDeleteReferencesForOrb (replaceVersionByVolatile orbRef) g2

/-- `reduceDependenciesMap`. -/
def reduceDependenciesMap (g : Graph) : GoMap (List Str) :=
  g.dependenciesMap.foldl
    (fun ret e => ret.set e.1 (e.2.foldl (fun dependencies dependingOrb =>
      dependencies ++ [dependingOrb]) []))
    []

/-- The loop `for _, orbRef := range orbsWithoutDependencies` of `Resolve`. -/
def processFrontier : List Str → Graph → Graph
  | [], g => g
  | orbRef :: rest, g =>
    processFrontier rest
      (deleteReferencesForOrb orbRef
        { g with resolvedOrder := g.resolvedOrder ++ [g.orbRefMap.get? orbRef] })

/-- The main loop of `Resolve`, run for at most `fuel` passes. -/
def resolveLoop (order : List Str → List Str) : Nat → Graph → Graph
  | 0, g => g
  | fuel + 1, g =>
    let orbsWithoutDependencies := listOrbsWithoutDependencies order g
    if orbsWithoutDependencies.length = 0 then g
    else resolveLoop order fuel (processFrontier orbsWithoutDependencies g)

/-- What `Resolve` returns; its error is always nil. -/
structure Resolution where
  resolvedOrder : List (Option VersionedOrb)
  illegible : List Str
  unresolved : GoMap (List Str)
  err : Option Str

/-- `Resolve`.  A pass with a non-empty frontier removes an entry of
`dependenciesMap`, so one pass more than it has entries is enough
(`resolveLoop_fuel`). -/
def Resolve (order : List Str → List Str) (unmarshal : Str → Option YamlMap)
    (orbs : List VersionedOrb) : Resolution :=
  let init := initMaps unmarshal orbs (Graph.empty, [])
  let g := resolveLoop order (init.1.dependenciesMap.length + 1) init.1
  ⟨g.resolvedOrder, init.2, reduceDependenciesMap g, none⟩

/-- The arguments of the calls of `doDeleteReferencesForOrb` that the loop of
`deleteReferencesForOrb` makes, in order. -/
def truncations : Nat → Str → List Str
  | 0, _ => []
  | fuel + 1, p =>
    if endsInDigits p then p :: truncations fuel (trimMostInsignificantSemver p) else []

/-- The arguments of the calls of `doDeleteReferencesForOrb` that
`deleteReferencesForOrb orbRef` makes after the first: the truncations of the
ref that end in a digit, then its `@volatile` alias. -/
def aliasForms (orbRef : Str) : List Str :=
  truncations orbRef.length (trimMostInsignificantSemver orbRef)
    ++ [replaceVersionByVolatile orbRef]

/-- The arguments of all calls of `doDeleteReferencesForOrb` that
`deleteReferencesForOrb orbRef` makes: the ref, its truncations, its
`@volatile` alias. -/
def clearingForms (orbRef : Str) : List Str :=
  orbRef :: aliasForms orbRef

/-- The identifiers the manifest of `orb` declares: the map `dependencies`
that `initMaps` builds for it (empty when the source does not parse). -/
def declaredIds (unmarshal : Str → Option YamlMap) (orb : VersionedOrb) : StrSet :=
  match unmarshal orb.Source with
  | none => []
  | some orbsBlock => (walkOrbs orb.Ref orbsBlock []).dependencies

/-- The iteration order of a Go map visits every key once: `order` rearranges
the list it is given. -/
def IsVisitOrder (order : List Str → List Str) : Prop :=
  ∀ l : List Str, (order l).Perm l

end DepResolver

namespace DepResolver

/-- The reverse index is complete: a package that still lists `x` as unmet is
among the dependents recorded for `x`. -/
def RevIndexed (g : Graph) : Prop :=
  ∀ P s x, g.dependenciesMap.get? P = some s → x ∈ s →
    ∃ ds, g.dependentsMap.get? x = some ds ∧ P ∈ ds

/-- The graph `g2` is `g1` with the identifiers of `L` cleared: the entries of
`dependenciesMap` whose key is in `L` are gone, the other entries have lost
the members of `L`, and the other variables are as before. -/
def Cleared (L : List Str) (g1 g2 : Graph) : Prop :=
  g2.orbRefMap = g1.orbRefMap ∧ g2.resolvedOrder = g1.resolvedOrder ∧
  g2.dependentsMap = g1.dependentsMap ∧
  g2.dependenciesMap.keys = g1.dependenciesMap.keys.filter (fun k => !decide (k ∈ L)) ∧
  ∀ P, g2.dependenciesMap.get? P =
    if P ∈ L then none
    else (g1.dependenciesMap.get? P).map (fun s => s.filter (fun x => !decide (x ∈ L)))

/-- The clearing forms of all refs of a list. -/
def clearingFormsOf (refs : List Str) : List Str := refs.flatMap clearingForms

end DepResolver

namespace DepResolver

/-- What the traversal of the manifest of `ref` keeps true of `dependentsMap`,
started from `dm0`: `ref` is recorded under every identifier collected so far,
and nothing recorded in `dm0` is lost. -/
def WalkInv (ref : Str) (dm0 : GoMap StrSet) (w : Walk) : Prop :=
  (∀ x ∈ w.dependencies, ∃ ds, w.dependentsMap.get? x = some ds ∧ ref ∈ ds) ∧
  (∀ y ds, dm0.get? y = some ds →
    ∃ ds', w.dependentsMap.get? y = some ds' ∧ ∀ p ∈ ds, p ∈ ds') ∧
  w.dependencies.Nodup

end DepResolver

namespace DepResolver

/-- What `initMaps` has established once the packages `done` are registered. -/
structure Registered (unmarshal : Str → Option YamlMap) (done : List VersionedOrb)
    (acc : Graph × List Str) : Prop where
  resolvedOrder : acc.1.resolvedOrder = []
  orbRef : ∀ orb ∈ done, acc.1.orbRefMap.get? orb.Ref = some orb
  parsed : ∀ orb ∈ done, unmarshal orb.Source ≠ none →
    acc.1.dependenciesMap.get? orb.Ref = some (declaredIds unmarshal orb)
  keysFrom : ∀ k ∈ acc.1.dependenciesMap.keys,
    ∃ orb ∈ done, orb.Ref = k ∧ unmarshal orb.Source ≠ none
  keysNodup : acc.1.dependenciesMap.keys.Nodup
  keysEq : acc.1.dependenciesMap.keys =
    (done.filter (fun orb => (unmarshal orb.Source).isSome)).map VersionedOrb.Ref
  revIndexed : RevIndexed acc.1
  illegible : acc.2 =
    (done.filter (fun orb => (unmarshal orb.Source).isNone)).map VersionedOrb.Ref

end DepResolver

namespace DepResolver

/-- The state of the main loop of `Resolve` after the refs `refs` were
appended, in this order, starting from the graph `g0` of `initMaps`: the graph
is `g0` cleared of the clearing forms of `refs`, with their packages appended;
each appended ref had all its identifiers cleared by refs appended before it;
no ref was appended twice. -/
structure Reached (g0 : Graph) (refs : List Str) (g : Graph) : Prop where
  cleared : Cleared (clearingFormsOf refs)
    { g0 with resolvedOrder := g0.resolvedOrder ++ refs.map g0.orbRefMap.get? } g
  ready : ∀ pre R post, refs = pre ++ R :: post →
    ∃ s, g0.dependenciesMap.get? R = some s ∧ ∀ x ∈ s, x ∈ clearingFormsOf pre
  nodup : refs.Nodup

end DepResolver

namespace DepResolver

/-- What a call of `Resolve` on packages with distinct refs returns, `done`
being the packages of the ordered sequence. -/
structure Outcome (unmarshal : Str → Option YamlMap) (orbs : List VersionedOrb)
    (r : Resolution) (done : List VersionedOrb) : Prop where
  ordered : r.resolvedOrder = done.map some
  doneFrom : ∀ Q ∈ done, Q ∈ orbs ∧ unmarshal Q.Source ≠ none
  doneNodup : (done.map VersionedOrb.Ref).Nodup
  ready : ∀ pre P post, done = pre ++ P :: post →
    ∀ x ∈ declaredIds unmarshal P, ∃ Q ∈ pre, x ∈ clearingForms Q.Ref
  illegible : r.illegible =
    (orbs.filter (fun orb => (unmarshal orb.Source).isNone)).map VersionedOrb.Ref
  unresolvedKeys : r.unresolved.keys =
    ((orbs.filter (fun orb => (unmarshal orb.Source).isSome)).map VersionedOrb.Ref).filter
      (fun k => !decide (k ∈ clearingFormsOf (done.map VersionedOrb.Ref)))
  unresolvedNodup : r.unresolved.keys.Nodup
  unresolvedNone : ∀ P ∈ orbs,
    unmarshal P.Source = none ∨ P.Ref ∈ clearingFormsOf (done.map VersionedOrb.Ref) →
    r.unresolved.get? P.Ref = none
  unresolvedSome : ∀ P ∈ orbs, unmarshal P.Source ≠ none →
    P.Ref ∉ clearingFormsOf (done.map VersionedOrb.Ref) →
    r.unresolved.get? P.Ref = some ((declaredIds unmarshal P).filter
      (fun x => !decide (x ∈ clearingFormsOf (done.map VersionedOrb.Ref))))
  unresolvedFrom : ∀ k l, r.unresolved.get? k = some l → (∃ P ∈ orbs, P.Ref = k) ∧ l ≠ []
  err : r.err = none

end DepResolver

/-! ## Example inputs -/

namespace Examples

/-- A manifest decoder for the examples: the source `!` does not parse; any
other source is an `orbs` block with one string entry per non-empty piece
between commas. -/
def unmarshal (s : Str) : Option YamlMap :=
  if s = "!".toList then none
  else some (((s.splitOn ',').filter (fun d => decide (d ≠ []))).map
    (fun d => (d, YamlValue.str d)))

/-- The package `ref` with the manifest `src`. -/
def orb (ref src : String) : VersionedOrb :=
  ⟨ref.toList, (ref.toList.takeWhile (fun c => decide (c ≠ '@'))),
    ((ref.toList.dropWhile (fun c => decide (c ≠ '@'))).drop 1), src.toList⟩

/-- Three packages in a chain, declared through a `@volatile` alias and
through truncated versions. -/
def chain : List VersionedOrb :=
  [orb "ns/a@1.2.3" "ns/b@volatile,ns/c@1", orb "ns/b@1.0.0" "ns/c@1.0", orb "ns/c@1.0.7" ""]

/-- A package whose ref is a truncation of the ref of another package, and
which needs a third one. -/
def shadowed : List VersionedOrb :=
  [orb "ns/c@1" "", orb "ns/a@1.2" "", orb "ns/a@1" "ns/c@1"]

/-- A package that declares the ref of a package whose source does not parse,
that ref being a truncation of the ref of a third package. -/
def aliasOfIllegible : List VersionedOrb :=
  [orb "ns/a@1" "!", orb "ns/a@1.2" "", orb "ns/p@1" "ns/a@1"]

/-- A package that needs a package whose source does not parse. -/
def blocked : List VersionedOrb :=
  [orb "ns/a@1.0.0" "!", orb "ns/p@1.0.0" "ns/a@1.0.0", orb "ns/q@1.0.0" ""]

/-- Two packages that need each other. -/
def mutualPair : List VersionedOrb :=
  [orb "ns/a@1.0.0" "ns/b@1.0.0", orb "ns/b@1.0.0" "ns/a@1.0.0"]

/-- The graph that `initMaps` builds for `chain`. -/
def chainGraph : DepResolver.Graph :=
  (DepResolver.initMaps unmarshal chain (DepResolver.Graph.empty, [])).1

end Examples

namespace DepResolver

/-- A non-empty group of digits. -/
def IsDigitGroup (d : Str) : Prop := d ≠ [] ∧ ∀ c ∈ d, isDigit c = true

instance (d : Str) : Decidable (IsDigitGroup d) :=
  inferInstanceAs (Decidable (d ≠ [] ∧ ∀ c ∈ d, isDigit c = true))

/-- The version text `d1.d2...dk`, `first` being `d1` and `more` the list of
`d2`, ..., `dk`. -/
def versionText (first : Str) (more : List Str) : Str :=
  more.foldl (fun acc d => acc ++ '.' :: d) first

/-- The ref `name@d1.d2...dk`. -/
def semverRef (name first : Str) (more : List Str) : Str :=
  name ++ '@' :: versionText first more

end DepResolver

/-! ## The importer (`bulk-importer.go`) -/

namespace BulkImporter

/-- The variable `maxImportRetries`. -/
def maxImportRetries : Nat := 3

/-- What `circleapi.OrbInfo` reports: the version is there (nil error), the
error `*circleapi.ErrOrbVersionNotExists`, or another error. -/
inductive InfoReply where
  | found : InfoReply
  | versionNotExists : InfoReply
  | failed : Str → InfoReply
deriving DecidableEq, Repr

/-- The registry client, an external library: each call gives a reply and the
next state of the remote side, so that a record is one way for the registry
to respond to a run.  An error is its message. -/
structure Registry (σ : Type) where
  namespaceExists : Str → σ → Except Str Bool × σ
  createImportedNamespace : Str → σ → Except Str Unit × σ
  /-- The request `cl.Run` of `OrbIDUnsafe`, giving `response.Orb.ID`. -/
  runOrbIdQuery : Str → σ → Except Str Str × σ
  /-- The call `CreateImportedOrb`, giving `resp.ImportOrb.Orb.ID`. -/
  createImportedOrb : Str → Str → σ → Except Str Str × σ
  orbInfo : Str → σ → InfoReply × σ
  orbImportVersion : Str → Str → Str → σ → Except Str Unit × σ

/-- A call of the registry client, as the log of a run records it. -/
inductive Call where
  | namespaceExists : Str → Call
  | createImportedNamespace : Str → Call
  | orbId : Str → Call
  | createImportedOrb : Str → Str → Call
  | orbInfo : Str → Call
  | orbImportVersion : Str → Str → Str → Call
deriving DecidableEq, Repr

/-- The values of `lastErr`, one per `errors.Wrap` of the loop, each with the
message of the error it wraps. -/
inductive ImportError where
  | queryingNamespace : Str → Str → ImportError
  | creatingNamespace : Str → Str → ImportError
  | queryingOrb : Str → Str → ImportError
  | registeringOrb : Str → Str → ImportError
  | queryingOrbInfo : Str → Str → ImportError
  /-- The publish error of a ref; the flag says that the hint on unsupported
  syntax was added to the message. -/
  | publishing : Str → Bool → Str → ImportError
deriving DecidableEq, Repr

/-- The error `ImportOrbsWithRetries` returns: the ref, the number of attempts
and the last error. -/
structure ImportFailure where
  ref : Str
  attempts : Nat
  lastErr : ImportError
deriving DecidableEq, Repr

/-- The variables of `ImportOrbsWithRetries`, with the state of the remote
side and the log of the calls made so far (the log is not a variable of the
code; it records what the code does to the registry). -/
structure Session (σ : Type) where
  availableOrbRefs : List Str
  droppedOrbRefs : List Str
  nsExists : GoMap Bool
  orbIDs : GoMap Str
  remote : σ
  calls : List Call

/-- The variables before the first package. -/
def Session.start {σ : Type} (remote : σ) : Session σ := ⟨[], [], [], [], remote, []⟩

/-- `OrbIDUnsafe`: the id of the orb, empty when there is none, or the wrapped
error of the request. -/
def OrbIDUnsafe {σ : Type} (reg : Registry σ) (orbName : Str) (remote : σ) :
    Except Str Str × σ :=
  match reg.runOrbIdQuery orbName remote with
  | (.error err, remote1) => (.error ("GraphQL query failed: ".toList ++ err), remote1)
  | (.ok id, remote1) => (.ok id, remote1)

/-- How one attempt ends: with `lastErr` set and `continue`, on a failure
before the publish call; with the publish call failing; with the version
published; or with the version found to exist. -/
inductive Ended where
  | failed : ImportError → Ended
  | publishFailed : ImportError → Ended
  | published : Ended
  | alreadyThere : Ended
deriving DecidableEq, Repr

/-- The step "ensure that the namespace exists" of an attempt: `some` error
when the attempt ends there. -/
def ensureNamespace {σ : Type} (reg : Registry σ) (ns : Str) (s : Session σ) :
    Option ImportError × Session σ :=
  match s.nsExists.get? ns with
  | some _ => (none, s)
  | none =>
    match reg.namespaceExists ns s.remote with
    | (.error err, remote1) =>
      (some (.queryingNamespace ns err),
        { s with remote := remote1, calls := s.calls ++ [Call.namespaceExists ns] })
    | (.ok doesExist, remote1) =>
      let s1 := { s with remote := remote1, calls := s.calls ++ [Call.namespaceExists ns] }
      if doesExist then (none, { s1 with nsExists := s1.nsExists.set ns true })
      else
        match reg.createImportedNamespace ns s1.remote with
        | (.error err, remote2) =>
          (some (.creatingNamespace ns err),
            { s1 with remote := remote2, calls := s1.calls ++ [Call.createImportedNamespace ns] })
        | (.ok _, remote2) =>
          (none,
            { s1 with
              remote := remote2
              calls := s1.calls ++ [Call.createImportedNamespace ns]
              nsExists := s1.nsExists.set ns true })

/-- The step "ensure that the orb family is registered" of an attempt: the
error with which the attempt ends there, or the id of the family. -/
def ensureFamily {σ : Type} (reg : Registry σ) (orb : VersionedOrb) (ns shortname : Str)
    (s : Session σ) : Except ImportError Str × Session σ :=
  match s.orbIDs.get? orb.Name with
  | some orbID => (.ok orbID, s)
  | none =>
    match OrbIDUnsafe reg orb.Name s.remote with
    | (.error err, remote1) =>
      (.error (.queryingOrb ns err),
        { s with remote := remote1, calls := s.calls ++ [Call.orbId orb.Name] })
    | (.ok orbID, remote1) =>
      let s1 := { s with remote := remote1, calls := s.calls ++ [Call.orbId orb.Name] }
      if orbID = [] then
        match reg.createImportedOrb ns shortname s1.remote with
        | (.error err, remote2) =>
          (.error (.registeringOrb orb.Name err),
            { s1 with remote := remote2, calls := s1.calls ++ [Call.createImportedOrb ns shortname] })
        | (.ok newID, remote2) =>
          (.ok newID,
            { s1 with
              remote := remote2
              calls := s1.calls ++ [Call.createImportedOrb ns shortname]
              orbIDs := s1.orbIDs.set orb.Name newID })
      else (.ok orbID, { s1 with orbIDs := s1.orbIDs.set orb.Name orbID })

/-- The body of the loop over `iter`, up to the point where it appends to a
list, continues or breaks. -/
def attempt {σ : Type} (reg : Registry σ) (orb : VersionedOrb) (s : Session σ) :
    Ended × Session σ :=
  let orbNameParts := orb.Name.splitOn '/'
  let ns := orbNameParts.headD []
  let shortname := List.intercalate ['/'] orbNameParts.tail
  match ensureNamespace reg ns s with
  | (some lastErr, s1) => (.failed lastErr, s1)
  | (none, s1) =>
    match ensureFamily reg orb ns shortname s1 with
    | (.error lastErr, s2) => (.failed lastErr, s2)
    | (.ok orbID, s2) =>
      match reg.orbInfo orb.Ref s2.remote with
      | (.versionNotExists, remote3) =>
        let s3 := { s2 with remote := remote3, calls := s2.calls ++ [Call.orbInfo orb.Ref] }
        match reg.orbImportVersion orb.Source orbID orb.Version s3.remote with
        | (.error err, remote4) =>
          (.publishFailed
              (.publishing orb.Ref ("ERROR IN CONFIG FILE".toList.isPrefixOf err) err),
            { s3 with
              remote := remote4
              calls := s3.calls ++ [Call.orbImportVersion orb.Source orbID orb.Version] })
        | (.ok _, remote4) =>
          (.published,
            { s3 with
              remote := remote4
              calls := s3.calls ++ [Call.orbImportVersion orb.Source orbID orb.Version] })
      | (.failed err, remote3) =>
        (.failed (.queryingOrbInfo orb.Ref err),
          { s2 with remote := remote3, calls := s2.calls ++ [Call.orbInfo orb.Ref] })
      | (.found, remote3) =>
        (.alreadyThere, { s2 with remote := remote3, calls := s2.calls ++ [Call.orbInfo orb.Ref] })

/-- The loop `for iter := 0; iter < maxImportRetries; iter += 1` for one
package, from the value `iter` on, `left` being `maxImportRetries - iter`:
the value of `lastErr` and the variables after the loop. -/
def retryLoop {σ : Type} (reg : Registry σ) (orb : VersionedOrb) :
    Nat → Nat → Option ImportError → Session σ → Option ImportError × Session σ
  | 0, _, lastErr, s => (lastErr, s)
  | left + 1, iter, _, s =>
    match attempt reg orb s with
    | (.failed lastErr, s1) => retryLoop reg orb left (iter + 1) (some lastErr) s1
    | (.publishFailed lastErr, s1) =>
      if iter + 1 = maxImportRetries then
        (none, { s1 with droppedOrbRefs := s1.droppedOrbRefs ++ [orb.Ref] })
      else retryLoop reg orb left (iter + 1) (some lastErr) s1
    | (.published, s1) =>
      (none, { s1 with availableOrbRefs := s1.availableOrbRefs ++ [orb.Ref] })
    | (.alreadyThere, s1) =>
      (none, { s1 with availableOrbRefs := s1.availableOrbRefs ++ [orb.Ref] })

/-- The loop `for _, orb := range orbs`: the error with which it returns, if
any, and the variables at that point. -/
def importLoop {σ : Type} (reg : Registry σ) :
    List VersionedOrb → Session σ → Option ImportFailure × Session σ
  | [], s => (none, s)
  | orb :: rest, s =>
    match retryLoop reg orb maxImportRetries 0 none s with
    | (some lastErr, s1) => (some ⟨orb.Ref, maxImportRetries, lastErr⟩, s1)
    | (none, s1) => importLoop reg rest s1

/-- What `ImportOrbsWithRetries` returns, `none` being a nil slice or a nil
error, together with the variables at the return. -/
structure ImportResult (σ : Type) where
  availableOrbRefs : Option (List Str)
  droppedOrbRefs : Option (List Str)
  err : Option ImportFailure
  final : Session σ

/-- `ImportOrbsWithRetries`, run against a registry in the state `remote`. -/
def ImportOrbsWithRetries {σ : Type} (reg : Registry σ) (remote : σ)
    (orbs : List VersionedOrb) : ImportResult σ :=
  match importLoop reg orbs (Session.start remote) with
  | (some err, s) => ⟨none, none, some err, s⟩
  | (none, s) => ⟨some s.availableOrbRefs, some s.droppedOrbRefs, none, s⟩

/-- The call is a publish call. -/
def Call.isPublish : Call → Bool
  | .orbImportVersion _ _ _ => true
  | _ => false

end BulkImporter

namespace Examples

/-- A registry that knows every namespace and family, holds no version, and
refuses to publish the source `bad`. -/
def pickyRegistry : BulkImporter.Registry Unit where
  namespaceExists := fun _ u => (.ok true, u)
  createImportedNamespace := fun _ u => (.ok (), u)
  runOrbIdQuery := fun _ u => (.ok "id".toList, u)
  createImportedOrb := fun _ _ u => (.ok "id".toList, u)
  orbInfo := fun _ u => (.versionNotExists, u)
  orbImportVersion := fun source _ _ u =>
    if source = "bad".toList then (.error "ERROR IN CONFIG FILE: bad".toList, u) else (.ok (), u)

/-- Three packages for the importer, the second with the source `bad`. -/
def cargo : List VersionedOrb :=
  [orb "ns/a@1.0.0" "", orb "ns/b@1.0.0" "bad", orb "ns/c@1.0.0" ""]

end Examples

namespace BulkImporter

/-- The session `s2` continues `s1`: the two lists are those of `s1`, and the
log is the log of `s1` followed by `added`. -/
def Continues {σ : Type} (s1 s2 : Session σ) (added : List Call) : Prop :=
  s2.availableOrbRefs = s1.availableOrbRefs ∧ s2.droppedOrbRefs = s1.droppedOrbRefs ∧
  s2.calls = s1.calls ++ added

end BulkImporter

namespace DepResolver

/-- The two facts about a graph on which the clearing of edges relies: no
key of `dependenciesMap` occurs twice, and the reverse index is complete.
They hold after `initMaps`, for every input, and in every later state. -/
structure GraphOk (g : Graph) : Prop where
  keysNodup : g.dependenciesMap.keys.Nodup
  revIndexed : RevIndexed g

/-- One pass of the main loop of `Resolve`: nothing when the frontier is
empty (the loop then ends), else the loop over the frontier. -/
def resolvePass (order : List Str → List Str) (g : Graph) : Graph :=
  if (listOrbsWithoutDependencies order g).length = 0 then g
  else processFrontier (listOrbsWithoutDependencies order g) g

/-- Two graphs that differ at most in the order of `resolvedOrder`. -/
def SameUpToOrder (g1 g2 : Graph) : Prop :=
  g1.orbRefMap = g2.orbRefMap ∧ g1.dependenciesMap = g2.dependenciesMap ∧
  g1.dependentsMap = g2.dependentsMap ∧ g1.resolvedOrder.Perm g2.resolvedOrder

end DepResolver

namespace Examples

/-- The graph that `initMaps` builds for `shadowed`. -/
def shadowedGraph : DepResolver.Graph :=
  (DepResolver.initMaps unmarshal shadowed (DepResolver.Graph.empty, [])).1

end Examples

namespace DepResolver

/-- The frame of a clearing of the identifiers `L`: from `g1` to `g2` only
`dependenciesMap` changes; its keys are those of `g1` that are not in `L`; and
an entry under another key keeps every member that is not in `L` and gains
none. -/
def Framed (L : List Str) (g1 g2 : Graph) : Prop :=
  g2.orbRefMap = g1.orbRefMap ∧ g2.resolvedOrder = g1.resolvedOrder ∧
  g2.dependentsMap = g1.dependentsMap ∧
  g2.dependenciesMap.keys = g1.dependenciesMap.keys.filter (fun k => !decide (k ∈ L)) ∧
  ∀ P s, g1.dependenciesMap.get? P = some s → P ∉ L →
    ∃ s', g2.dependenciesMap.get? P = some s' ∧ (∀ x, x ∈ s' → x ∈ s) ∧
      (∀ x, x ∈ s → x ∉ L → x ∈ s')

end DepResolver

namespace BulkImporter

/-- The value `ns` of an attempt for `orb`: the part of the name before the
first `/`. -/
def namespaceOf (orb : VersionedOrb) : Str := (orb.Name.splitOn '/').headD []

/-- The value `shortname` of an attempt for `orb`: the part of the name after
the first `/`. -/
def shortnameOf (orb : VersionedOrb) : Str :=
  List.intercalate ['/'] (orb.Name.splitOn '/').tail

/-- The ending of an attempt is a failure: the version was neither published
nor found to exist. -/
def Ended.isFailure : Ended → Bool
  | .failed _ => true
  | .publishFailed _ => true
  | .published => false
  | .alreadyThere => false

end BulkImporter

namespace Examples

/-- A registry that holds every version: every namespace and family is
known, and every existence check finds the version. -/
def fullRegistry : BulkImporter.Registry Unit where
  namespaceExists := fun _ u => (.ok true, u)
  createImportedNamespace := fun _ u => (.ok (), u)
  runOrbIdQuery := fun _ u => (.ok "id".toList, u)
  createImportedOrb := fun _ _ u => (.ok "id".toList, u)
  orbInfo := fun _ u => (.found, u)
  orbImportVersion := fun _ _ _ u => (.ok (), u)

/-- A registry whose namespace query always fails. -/
def downRegistry : BulkImporter.Registry Unit where
  namespaceExists := fun _ u => (.error "down".toList, u)
  createImportedNamespace := fun _ u => (.ok (), u)
  runOrbIdQuery := fun _ u => (.ok "id".toList, u)
  createImportedOrb := fun _ _ u => (.ok "id".toList, u)
  orbInfo := fun _ u => (.found, u)
  orbImportVersion := fun _ _ _ u => (.ok (), u)

/-- A registry that counts its existence checks: the first two report that
the version does not exist, the later ones fail; no publish call succeeds. -/
def flakyInfoRegistry : BulkImporter.Registry Nat where
  namespaceExists := fun _ n => (.ok true, n)
  createImportedNamespace := fun _ n => (.ok (), n)
  runOrbIdQuery := fun _ n => (.ok "id".toList, n)
  createImportedOrb := fun _ _ n => (.ok "id".toList, n)
  orbInfo := fun _ n => (if n < 2 then .versionNotExists else .failed "down".toList, n + 1)
  orbImportVersion := fun _ _ _ n => (.error "refused".toList, n)

/-- A registry that counts its namespace queries: the first two fail, the
later ones succeed; no version exists and no publish call succeeds. -/
def flakyNamespaceRegistry : BulkImporter.Registry Nat where
  namespaceExists := fun _ n => (if n < 2 then .error "down".toList else .ok true, n + 1)
  createImportedNamespace := fun _ n => (.ok (), n)
  runOrbIdQuery := fun _ n => (.ok "id".toList, n)
  createImportedOrb := fun _ _ n => (.ok "id".toList, n)
  orbInfo := fun _ n => (.versionNotExists, n)
  orbImportVersion := fun _ _ _ n => (.error "refused".toList, n)

/-- A registry that knows no namespace and counts its namespace creations:
the first fails, the later ones succeed. -/
def slowCreateRegistry : BulkImporter.Registry Nat where
  namespaceExists := fun _ n => (.ok false, n)
  createImportedNamespace := fun _ n => (if n < 1 then .error "busy".toList else .ok (), n + 1)
  runOrbIdQuery := fun _ n => (.ok "id".toList, n)
  createImportedOrb := fun _ _ n => (.ok "id".toList, n)
  orbInfo := fun _ n => (.found, n)
  orbImportVersion := fun _ _ _ n => (.ok (), n)

end Examples

namespace BulkImporter

/-- The call is a namespace-existence query or a namespace creation. -/
def Call.isNamespace : Call → Bool
  | .namespaceExists _ => true
  | .createImportedNamespace _ => true
  | _ => false

/-- The call is a family-id query or a family creation. -/
def Call.isFamily : Call → Bool
  | .orbId _ => true
  | .createImportedOrb _ _ => true
  | _ => false

/-- The points of a run that starts with the variables `s0`: `Run reg s0 hist s`
says that the variables are `s` after the attempts of `hist`, each entry of
which is the package of an attempt with the variables at its start, in the
order of the run.  Between two attempts the code changes only the two lists of
refs, so any two lists are allowed there. -/
inductive Run {σ : Type} (reg : Registry σ) (s0 : Session σ) :
    List (VersionedOrb × Session σ) → Session σ → Prop where
  | start : Run reg s0 [] s0
  | next {hist : List (VersionedOrb × Session σ)} {s : Session σ} (orb : VersionedOrb)
      (a d : List Str) : Run reg s0 hist s →
      Run reg s0 (hist ++ [(orb, s)])
        { (attempt reg orb s).2 with availableOrbRefs := a, droppedOrbRefs := d }

/-- The ensure step of the namespace `ns` has completed without error in one
of the attempts of `hist`. -/
def NamespaceEnsured {σ : Type} (reg : Registry σ) (ns : Str)
    (hist : List (VersionedOrb × Session σ)) : Prop :=
  ∃ p ∈ hist, namespaceOf p.1 = ns ∧ (ensureNamespace reg ns p.2).1 = none

/-- The ensure step of the family `name` has completed without error in one of
the attempts of `hist`: the namespace step of that attempt has completed, and
the family step after it has given an id. -/
def FamilyEnsured {σ : Type} (reg : Registry σ) (name : Str)
    (hist : List (VersionedOrb × Session σ)) : Prop :=
  ∃ p ∈ hist, p.1.Name = name ∧ ∃ s1 id s2,
    ensureNamespace reg (namespaceOf p.1) p.2 = (none, s1) ∧
    ensureFamily reg p.1 (namespaceOf p.1) (shortnameOf p.1) s1 = (.ok id, s2)

end BulkImporter

/-! ## The file of the resolved order (`cmd/resolve-dependencies.go`, `cmd/common.go`) -/

namespace Cmd

/-- The library function `unicode.IsSpace`: the white space of Latin-1 and the
code points of the property `White_Space` above it. -/
def isSpace (c : Char) : Bool :=
  let r := c.toNat
  r == 0x09 || r == 0x0A || r == 0x0B || r == 0x0C || r == 0x0D || r == 0x20 ||
  r == 0x85 || r == 0xA0 || r == 0x1680 || (0x2000 ≤ r && r ≤ 0x200A) ||
  r == 0x2028 || r == 0x2029 || r == 0x202F || r == 0x205F || r == 0x3000

/-- The library function `strings.TrimSpace`: the string without its leading
and trailing white space. -/
def trimSpace (s : Str) : Str :=
  ((s.dropWhile isSpace).reverse.dropWhile isSpace).reverse

/-- The text that `dumpResolvedOrbs` writes: the refs joined by a newline. -/
def dumpResolvedOrbs (resolvedOrder : List VersionedOrb) : Str :=
  List.intercalate ['\n'] (resolvedOrder.map VersionedOrb.Ref)

/-- The value `orderedList` of `loadListedOrbs` for the text of the file: the
trimmed text split at the newlines (`strings.Split` gives one empty piece for
the empty text). -/
def orderedList (orderedListStr : Str) : List Str :=
  (trimSpace orderedListStr).splitOn '\n'

end Cmd

namespace Examples

/-- A package that declares a truncated version of another package together
with the two identifiers that have no numeric version left. -/
def prefixed : List VersionedOrb :=
  [orb "ns/p@1.0.0" "ns/b@1.2,ns/b@,ns/b", orb "ns/b@1.2.7" ""]

/-- The graph that `initMaps` builds for `prefixed`. -/
def prefixedGraph : DepResolver.Graph :=
  (DepResolver.initMaps unmarshal prefixed (DepResolver.Graph.empty, [])).1

end Examples

/-! # Theorems

All definitions stand above this line. -/

/-! ## Lemmas on Go maps -/

theorem GoMap.get?_set {β : Type} (m : GoMap β) (k k' : Str) (v : β) :
    (m.set k v).get? k' = if k = k' then some v else m.get? k' := by
  induction m with
  | nil => simp [GoMap.set, GoMap.get?]
  | cons e rest ih =>
    obtain ⟨a, b⟩ := e
    by_cases h : a = k
    · subst h
      by_cases h2 : a = k' <;> simp [GoMap.set, GoMap.get?, h2]
    · by_cases h2 : a = k'
      · subst h2
        have h3 : ¬ k = a := fun e => h e.symm
        simp [GoMap.set, GoMap.get?, h, h3]
      · simp [GoMap.set, GoMap.get?, h, h2, ih]

theorem GoMap.get?_delete {β : Type} (m : GoMap β) (k k' : Str) :
    (m.delete k).get? k' = if k' = k then none else m.get? k' := by
  induction m with
  | nil => simp [GoMap.delete, GoMap.get?]
  | cons e rest ih =>
    obtain ⟨a, b⟩ := e
    simp only [GoMap.delete] at ih
    by_cases h : a = k
    · subst h
      by_cases h2 : k' = a
      · subst h2; simpa [GoMap.delete, GoMap.get?] using ih
      · have h3 : ¬ a = k' := fun e => h2 e.symm
        simpa [GoMap.delete, GoMap.get?, h2, h3] using ih
    · by_cases h2 : a = k'
      · subst h2; simp [GoMap.delete, GoMap.get?, h]
      · simpa [GoMap.delete, GoMap.get?, h, h2] using ih

theorem GoMap.get?_modify {β : Type} (m : GoMap β) (k k' : Str) (f : β → β) :
    (m.modify k f).get? k' = if k' = k then (m.get? k').map f else m.get? k' := by
  induction m with
  | nil => simp [GoMap.modify, GoMap.get?]
  | cons e rest ih =>
    obtain ⟨a, b⟩ := e
    by_cases h : a = k
    · subst h
      by_cases h2 : a = k'
      · subst h2; simp [GoMap.modify, GoMap.get?]
      · have h3 : ¬ k' = a := fun e => h2 e.symm
        simp [GoMap.modify, GoMap.get?, h2, h3]
    · by_cases h2 : a = k'
      · subst h2; simp [GoMap.modify, GoMap.get?, h]
      · simp [GoMap.modify, GoMap.get?, h, h2, ih]

theorem GoMap.keys_modify {β : Type} (m : GoMap β) (k : Str) (f : β → β) :
    (m.modify k f).keys = m.keys := by
  induction m with
  | nil => rfl
  | cons e rest ih =>
    obtain ⟨a, b⟩ := e
    simp only [GoMap.keys] at ih
    by_cases h : a = k <;> simp [GoMap.modify, GoMap.keys, h, ih]

theorem GoMap.keys_delete {β : Type} (m : GoMap β) (k : Str) :
    (m.delete k).keys = m.keys.filter (fun a => !decide (a = k)) := by
  induction m with
  | nil => rfl
  | cons e rest ih =>
    obtain ⟨a, b⟩ := e
    simp only [GoMap.keys, GoMap.delete] at ih
    by_cases h : a = k <;> simp [GoMap.delete, GoMap.keys, List.filter_cons, h, ih]

theorem GoMap.keys_set {β : Type} (m : GoMap β) (k : Str) (v : β) :
    (m.set k v).keys = if k ∈ m.keys then m.keys else m.keys ++ [k] := by
  induction m with
  | nil =>
    show [k] = if k ∈ ([] : List Str) then _ else _
    rw [if_neg (List.not_mem_nil k)]; rfl
  | cons e rest ih =>
    obtain ⟨a, b⟩ := e
    by_cases h : a = k
    · subst h
      have hm : a ∈ GoMap.keys ((a, b) :: rest) := List.mem_cons_self _ _
      rw [if_pos hm]
      simp only [GoMap.set, if_true, GoMap.keys, List.map_cons]
    · have h3 : ¬ k = a := fun e => h e.symm
      have hs : (GoMap.set ((a, b) :: rest) k v).keys = a :: (GoMap.set rest k v).keys := by
        simp only [GoMap.set, h, if_false, GoMap.keys, List.map_cons]
      rw [hs, ih]
      by_cases h2 : k ∈ GoMap.keys rest
      · have hm : k ∈ GoMap.keys ((a, b) :: rest) := List.mem_cons_of_mem _ h2
        rw [if_pos h2, if_pos hm]; rfl
      · have hm : k ∉ GoMap.keys ((a, b) :: rest) := by
          intro hc
          rcases List.mem_cons.1 hc with hc | hc
          · exact h3 hc
          · exact h2 hc
        rw [if_neg h2, if_neg hm]; rfl

theorem GoMap.get?_eq_none_iff {β : Type} (m : GoMap β) (k : Str) :
    m.get? k = none ↔ k ∉ m.keys := by
  induction m with
  | nil => exact ⟨fun _ h => (List.not_mem_nil k h).elim, fun _ => rfl⟩
  | cons e rest ih =>
    obtain ⟨a, b⟩ := e
    by_cases h : a = k
    · subst h
      constructor
      · intro hc; simp only [GoMap.get?, if_true] at hc; cases hc
      · intro hc; exact absurd (List.mem_cons_self _ _) hc
    · have h3 : ¬ k = a := fun e => h e.symm
      simp only [GoMap.get?, h, if_false]
      rw [ih]
      constructor
      · intro hc hm
        rcases List.mem_cons.1 hm with hm | hm
        · exact h3 hm
        · exact hc hm
      · intro hc hm
        exact hc (List.mem_cons_of_mem _ hm)

theorem GoMap.mem_of_get? {β : Type} (m : GoMap β) (k : Str) (v : β)
    (h : m.get? k = some v) : (k, v) ∈ m := by
  induction m with
  | nil => cases h
  | cons e rest ih =>
    obtain ⟨a, b⟩ := e
    by_cases h1 : a = k
    · subst h1
      simp only [GoMap.get?, if_true, Option.some.injEq] at h
      subst h
      exact List.mem_cons_self _ _
    · simp only [GoMap.get?, h1, if_false] at h
      exact List.mem_cons_of_mem _ (ih h)

theorem GoMap.get?_of_mem {β : Type} (m : GoMap β) (k : Str) (v : β)
    (hn : m.keys.Nodup) (h : (k, v) ∈ m) : m.get? k = some v := by
  induction m with
  | nil => cases h
  | cons e rest ih =>
    obtain ⟨a, b⟩ := e
    simp only [GoMap.keys, List.map_cons, List.nodup_cons] at hn
    rcases List.mem_cons.1 h with h1 | h1
    · injection h1 with h2 h3
      subst h2; subst h3
      simp [GoMap.get?]
    · have hk : k ∈ rest.map Prod.fst := List.mem_map.2 ⟨(k, v), h1, rfl⟩
      have hne : ¬ a = k := fun e => hn.1 (e ▸ hk)
      simp only [GoMap.get?, hne, if_false]
      exact ih hn.2 h1

theorem GoMap.get?_isSome_of_mem_keys {β : Type} (m : GoMap β) (k : Str)
    (h : k ∈ m.keys) : ∃ v, m.get? k = some v := by
  cases hg : m.get? k with
  | none => exact absurd h ((GoMap.get?_eq_none_iff m k).1 hg)
  | some v => exact ⟨v, rfl⟩

theorem GoMap.mem_keys_of_get? {β : Type} (m : GoMap β) (k : Str) (v : β)
    (h : m.get? k = some v) : k ∈ m.keys := by
  by_contra hc
  rw [(GoMap.get?_eq_none_iff m k).2 hc] at h
  cases h


namespace DepResolver

/-! ## Clearing edges -/

theorem foldl_modify_keys (f : StrSet → StrSet) (ds : List Str) (m : GoMap StrSet) :
    (ds.foldl (fun m d => m.modify d f) m).keys = m.keys := by
  induction ds generalizing m with
  | nil => rfl
  | cons d rest ih => rw [List.foldl_cons, ih, GoMap.keys_modify]

theorem foldl_modify_get? (f : StrSet → StrSet) (hf : ∀ s, f (f s) = f s)
    (ds : List Str) (m : GoMap StrSet) (P : Str) :
    (ds.foldl (fun m d => m.modify d f) m).get? P =
      if P ∈ ds then (m.get? P).map f else m.get? P := by
  induction ds generalizing m with
  | nil => simp
  | cons d rest ih =>
    rw [List.foldl_cons, ih, GoMap.get?_modify]
    by_cases h1 : P = d
    · subst h1
      by_cases h2 : P ∈ rest
      · cases hg : m.get? P <;> simp [h2, hg, hf]
      · simp [h2]
    · by_cases h2 : P ∈ rest
      · simp [h1, h2]
      · simp [h1, h2]

theorem strSet_delete_idem (x : Str) (s : StrSet) :
    (s.delete x).delete x = s.delete x := by
  simp [StrSet.delete, List.filter_filter]

theorem filter_not_mem_singleton (x : Str) (s : List Str) :
    s.filter (fun y => !decide (y ∈ [x])) = s.filter (fun y => !decide (y = x)) := by
  apply List.filter_congr
  intro y _
  simp

theorem Cleared.refl (g : Graph) : Cleared [] g g := by
  refine ⟨rfl, rfl, rfl, ?_, ?_⟩
  · simp
  · intro P
    cases h : g.dependenciesMap.get? P <;> simp

theorem Cleared.append {L1 L2 : List Str} {g1 g2 g3 : Graph}
    (h1 : Cleared L1 g1 g2) (h2 : Cleared L2 g2 g3) : Cleared (L1 ++ L2) g1 g3 := by
  obtain ⟨a1, b1, c1, d1, e1⟩ := h1
  obtain ⟨a2, b2, c2, d2, e2⟩ := h2
  refine ⟨a2.trans a1, b2.trans b1, c2.trans c1, ?_, ?_⟩
  · rw [d2, d1, List.filter_filter]
    apply List.filter_congr
    intro k _
    by_cases h1 : k ∈ L1 <;> by_cases h2 : k ∈ L2 <;> simp [h1, h2]
  · intro P
    rw [e2, e1]
    by_cases hp2 : P ∈ L2
    · simp [hp2]
    · by_cases hp1 : P ∈ L1
      · simp [hp1, hp2]
      · cases hg : g1.dependenciesMap.get? P with
        | none => simp [hp1, hp2]
        | some s =>
          simp only [hp1, hp2, if_false, Option.map_some', List.mem_append, or_self,
            List.filter_filter]
          congr 1
          apply List.filter_congr
          intro x _
          by_cases h1 : x ∈ L1 <;> by_cases h2 : x ∈ L2 <;> simp [h1, h2]

theorem Cleared.keepsRevIndexed {L : List Str} {g1 g2 : Graph}
    (h : Cleared L g1 g2) (hr : RevIndexed g1) : RevIndexed g2 := by
  obtain ⟨_, _, c, _, e⟩ := h
  intro P s x hs hx
  rw [e] at hs
  by_cases hp : P ∈ L
  · simp [hp] at hs
  · cases hg : g1.dependenciesMap.get? P with
    | none => simp [hp, hg] at hs
    | some s1 =>
      simp only [hp, hg, if_false, Option.map_some', Option.some.injEq] at hs
      subst hs
      rw [c]
      exact hr P s1 x hg (List.mem_filter.1 hx).1

theorem doDelete_cleared (X : Str) (g : Graph) (hr : RevIndexed g) :
    Cleared [X] g (doDeleteReferencesForOrb X g) := by
  have key : ∀ ds : List Str, (∀ P s, g.dependenciesMap.get? P = some s → X ∈ s → P ∈ ds) →
      ∀ P, (ds.foldl (fun m d => m.modify d (fun s => s.delete X))
          (g.dependenciesMap.delete X)).get? P =
        if P ∈ [X] then none
        else (g.dependenciesMap.get? P).map (fun s => s.filter (fun x => !decide (x ∈ [X]))) := by
    intro ds hds P
    rw [foldl_modify_get? _ (strSet_delete_idem X), GoMap.get?_delete]
    by_cases hp : P = X
    · simp [hp]
    · cases hg : g.dependenciesMap.get? P with
      | none => simp [hp]
      | some s =>
        by_cases hd : P ∈ ds
        · simp [hp, hd, StrSet.delete]
        · have hx : X ∉ s := fun hx => hd (hds P s hg hx)
          have hf : s.filter (fun y => !decide (y = X)) = s := by
            apply List.filter_eq_self.2
            intro a ha
            have : a ≠ X := fun e => hx (e ▸ ha)
            simp [this]
          simp [hp, hd, hf]
  have keys : ∀ ds : List Str, (ds.foldl (fun m d => m.modify d (fun s => s.delete X))
      (g.dependenciesMap.delete X)).keys =
      g.dependenciesMap.keys.filter (fun k => !decide (k ∈ [X])) := by
    intro ds
    rw [foldl_modify_keys, GoMap.keys_delete]
    apply List.filter_congr
    intro k _
    simp
  unfold doDeleteReferencesForOrb
  cases hd : g.dependentsMap.get? X with
  | some dependents =>
    refine ⟨rfl, rfl, rfl, keys dependents, key dependents ?_⟩
    intro P s hs hx
    obtain ⟨ds, h1, h2⟩ := hr P s X hs hx
    rw [hd] at h1
    cases h1
    exact h2
  | none =>
    refine ⟨rfl, rfl, rfl, keys [], key [] ?_⟩
    intro P s hs hx
    obtain ⟨ds, h1, _⟩ := hr P s X hs hx
    rw [hd] at h1
    cases h1

theorem truncationLoop_cleared (fuel : Nat) (p : Str) (g : Graph) (hr : RevIndexed g) :
    Cleared (truncations fuel p) g (truncationLoop fuel p g) := by
  induction fuel generalizing p g with
  | zero => exact Cleared.refl g
  | succ n ih =>
    unfold truncations truncationLoop
    by_cases h : endsInDigits p = true
    · simp only [h, if_true]
      have h1 := doDelete_cleared p g hr
      have h2 := ih (trimMostInsignificantSemver p) _ (h1.keepsRevIndexed hr)
      exact Cleared.append h1 h2
    · simp only [h]
      exact Cleared.refl g

theorem deleteReferencesForOrb_cleared (R : Str) (g : Graph) (hr : RevIndexed g) :
    Cleared (clearingForms R) g (deleteReferencesForOrb R g) := by
  unfold deleteReferencesForOrb clearingForms aliasForms
  have h1 := doDelete_cleared R g hr
  have h2 := truncationLoop_cleared R.length (trimMostInsignificantSemver R) _ (h1.keepsRevIndexed hr)
  have h3 := doDelete_cleared (replaceVersionByVolatile R) _ (h2.keepsRevIndexed (h1.keepsRevIndexed hr))
  exact Cleared.append h1 (Cleared.append h2 h3)

theorem processFrontier_cleared (F : List Str) (g : Graph) (hr : RevIndexed g) :
    Cleared (clearingFormsOf F)
      { g with resolvedOrder := g.resolvedOrder ++ F.map g.orbRefMap.get? }
      (processFrontier F g) := by
  induction F generalizing g with
  | nil =>
    have : ({ g with resolvedOrder := g.resolvedOrder ++ ([] : List Str).map g.orbRefMap.get? } : Graph) = g := by
      simp
    rw [this]
    exact Cleared.refl g
  | cons R rest ih =>
    unfold processFrontier
    have hr1 : RevIndexed { g with resolvedOrder := g.resolvedOrder ++ [g.orbRefMap.get? R] } := hr
    have h1 := deleteReferencesForOrb_cleared R _ hr1
    have h2 := ih _ (h1.keepsRevIndexed hr1)
    obtain ⟨a1, b1, c1, d1, e1⟩ := h1
    obtain ⟨a2, b2, c2, d2, e2⟩ := h2
    have h1' : Cleared (clearingForms R)
        { g with resolvedOrder := g.resolvedOrder ++ (R :: rest).map g.orbRefMap.get? }
        { deleteReferencesForOrb R
            { g with resolvedOrder := g.resolvedOrder ++ [g.orbRefMap.get? R] } with
          resolvedOrder := g.resolvedOrder ++ (R :: rest).map g.orbRefMap.get? } :=
      ⟨a1, rfl, c1, d1, e1⟩
    have h2' : Cleared (clearingFormsOf rest)
        { deleteReferencesForOrb R
            { g with resolvedOrder := g.resolvedOrder ++ [g.orbRefMap.get? R] } with
          resolvedOrder := g.resolvedOrder ++ (R :: rest).map g.orbRefMap.get? }
        (processFrontier rest (deleteReferencesForOrb R
            { g with resolvedOrder := g.resolvedOrder ++ [g.orbRefMap.get? R] })) := by
      refine ⟨a2, ?_, c2, d2, e2⟩
      rw [b2, b1, a1]
      simp
    have := Cleared.append h1' h2'
    simpa [clearingFormsOf] using this

end DepResolver

namespace DepResolver

/-! ## The traversal of a manifest -/

theorem strSet_mem_insert (s : StrSet) (x y : Str) :
    y ∈ s.insert x ↔ y ∈ s ∨ y = x := by
  unfold StrSet.insert
  by_cases h : x ∈ s
  · rw [if_pos h]
    constructor
    · intro hy; exact Or.inl hy
    · rintro (hy | hy)
      · exact hy
      · exact hy ▸ h
  · rw [if_neg h]
    simp

theorem strSet_nodup_insert (s : StrSet) (x : Str) (h : s.Nodup) : (s.insert x).Nodup := by
  unfold StrSet.insert
  by_cases hx : x ∈ s
  · rw [if_pos hx]; exact h
  · rw [if_neg hx]
    rw [List.nodup_append]
    refine ⟨h, List.nodup_singleton x, ?_⟩
    intro a ha hb
    rw [List.mem_singleton] at hb
    exact hx (hb ▸ ha)

theorem getDependents_set_get? (dm : GoMap StrSet) (value ref y : Str) :
    (((getDependents dm value).2.set value ((getDependents dm value).1.insert ref)).get? y) =
      if value = y then some (((dm.get? value).getD []).insert ref) else dm.get? y := by
  unfold getDependents
  cases h : dm.get? value with
  | some ds => simp [GoMap.get?_set]
  | none =>
    by_cases hy : value = y
    · simp [GoMap.get?_set, hy]
    · simp [GoMap.get?_set, hy]

theorem visitProps_indep (ref : Str) (props : List (Str × YamlValue)) (w w' : Walk)
    (h1 : w.dependencies = w'.dependencies) (h2 : w.procQueue = w'.procQueue) :
    (visitProps ref props w).dependencies = (visitProps ref props w').dependencies ∧
    (visitProps ref props w).procQueue = (visitProps ref props w').procQueue := by
  induction props generalizing w w' with
  | nil => exact ⟨h1, h2⟩
  | cons e rest ih =>
    obtain ⟨k, v⟩ := e
    cases v with
    | str value =>
      simp only [visitProps]
      exact ih _ _ (by simp [h1]) h2
    | map value =>
      simp only [visitProps]
      cases ho : YamlMap.orbs value with
      | none => exact ih _ _ h1 h2
      | some nested =>
        cases nested with
        | str _ => exact ih _ _ h1 h2
        | map nestedOrbs => exact ih _ _ h1 (by simp [h2])
        | other => exact ih _ _ h1 h2
    | other =>
      simp only [visitProps]
      exact ih _ _ h1 h2

theorem procQueueLoop_indep (ref : Str) (fuel : Nat) (w w' : Walk)
    (h1 : w.dependencies = w'.dependencies) (h2 : w.procQueue = w'.procQueue) :
    (procQueueLoop ref fuel w).dependencies = (procQueueLoop ref fuel w').dependencies := by
  induction fuel generalizing w w' with
  | zero => exact h1
  | succ n ih =>
    unfold procQueueLoop
    rw [← h2]
    cases hq : w.procQueue with
    | nil => exact h1
    | cons head tl =>
      simp only
      obtain ⟨a, b⟩ := visitProps_indep ref head w w' h1 h2
      exact ih _ _ a (by simp [b])

theorem walkOrbs_dependencies (ref : Str) (orbsBlock : YamlMap) (dm : GoMap StrSet) :
    (walkOrbs ref orbsBlock dm).dependencies = (walkOrbs ref orbsBlock []).dependencies :=
  procQueueLoop_indep ref _ _ _ rfl rfl

theorem visitProps_inv (ref : Str) (dm0 : GoMap StrSet) (props : List (Str × YamlValue))
    (w : Walk) (h : WalkInv ref dm0 w) : WalkInv ref dm0 (visitProps ref props w) := by
  induction props generalizing w with
  | nil => exact h
  | cons e rest ih =>
    obtain ⟨k, v⟩ := e
    cases v with
    | str value =>
      simp only [visitProps]
      apply ih
      obtain ⟨h1, h2, h3⟩ := h
      refine ⟨?_, ?_, strSet_nodup_insert _ _ h3⟩
      · intro x hx
        simp only [getDependents_set_get?]
        by_cases hv : value = x
        · rw [if_pos hv]
          exact ⟨_, rfl, (strSet_mem_insert _ _ _).2 (Or.inr rfl)⟩
        · rw [if_neg hv]
          rcases (strSet_mem_insert _ _ _).1 hx with hx | hx
          · exact h1 x hx
          · exact absurd hx.symm hv
      · intro y ds hy
        simp only [getDependents_set_get?]
        obtain ⟨ds', hd, hsub⟩ := h2 y ds hy
        by_cases hv : value = y
        · rw [if_pos hv]
          refine ⟨_, rfl, ?_⟩
          intro p hp
          rw [hv, hd]
          exact (strSet_mem_insert _ _ _).2 (Or.inl (hsub p hp))
        · rw [if_neg hv]
          exact ⟨ds', hd, hsub⟩
    | map value =>
      simp only [visitProps]
      cases ho : YamlMap.orbs value with
      | none => exact ih _ h
      | some nested =>
        cases nested with
        | str _ => exact ih _ h
        | map nestedOrbs => exact ih _ h
        | other => exact ih _ h
    | other =>
      simp only [visitProps]
      exact ih _ h

theorem procQueueLoop_inv (ref : Str) (dm0 : GoMap StrSet) (fuel : Nat)
    (w : Walk) (h : WalkInv ref dm0 w) : WalkInv ref dm0 (procQueueLoop ref fuel w) := by
  induction fuel generalizing w with
  | zero => exact h
  | succ n ih =>
    unfold procQueueLoop
    cases hq : w.procQueue with
    | nil => exact h
    | cons head tl =>
      simp only
      apply ih
      exact visitProps_inv ref dm0 head w h

theorem walkOrbs_inv (ref : Str) (orbsBlock : YamlMap) (dm0 : GoMap StrSet) :
    WalkInv ref dm0 (walkOrbs ref orbsBlock dm0) := by
  apply procQueueLoop_inv
  refine ⟨?_, ?_, List.nodup_nil⟩
  · intro x hx; cases hx
  · intro y ds hy; exact ⟨ds, hy, fun p hp => hp⟩

end DepResolver

namespace DepResolver

/-! ## The traversal loop ends within its fuel -/

theorem queueWeight_append (q1 q2 : List YamlMap) :
    queueWeight (q1 ++ q2) = queueWeight q1 + queueWeight q2 := by
  induction q1 with
  | nil => simp [queueWeight]
  | cons m rest ih =>
    show (1 + entriesWeight m) + queueWeight (rest ++ q2) =
      (1 + entriesWeight m) + queueWeight rest + queueWeight q2
    rw [ih]; omega

theorem orbs_weight (value : YamlMap) (v : YamlValue) (h : YamlMap.orbs value = some v) :
    v.weight ≤ entriesWeight value := by
  induction value with
  | nil => cases h
  | cons e rest ih =>
    obtain ⟨k, u⟩ := e
    unfold YamlMap.orbs at h
    by_cases hk : k = "orbs".toList
    · rw [if_pos hk] at h
      cases h
      simp only [entriesWeight]; omega
    · rw [if_neg hk] at h
      have := ih h
      simp only [entriesWeight]; omega

theorem visitProps_queue (ref : Str) (props : List (Str × YamlValue)) (w : Walk) :
    ∃ added, (visitProps ref props w).procQueue = w.procQueue ++ added ∧
      queueWeight added ≤ entriesWeight props := by
  induction props generalizing w with
  | nil => exact ⟨[], by simp [visitProps], by simp [queueWeight]⟩
  | cons e rest ih =>
    obtain ⟨k, v⟩ := e
    cases v with
    | str value =>
      simp only [visitProps]
      obtain ⟨added, h1, h2⟩ := ih
        { w with
          dependentsMap := (getDependents w.dependentsMap value).2.set value
            ((getDependents w.dependentsMap value).1.insert ref)
          dependencies := w.dependencies.insert value }
      exact ⟨added, h1, by simp only [entriesWeight]; omega⟩
    | map value =>
      simp only [visitProps]
      cases ho : YamlMap.orbs value with
      | none =>
        obtain ⟨added, h1, h2⟩ := ih w
        exact ⟨added, h1, by simp only [entriesWeight]; omega⟩
      | some nested =>
        cases nested with
        | str _ =>
          obtain ⟨added, h1, h2⟩ := ih w
          exact ⟨added, h1, by simp only [entriesWeight]; omega⟩
        | map nestedOrbs =>
          obtain ⟨added, h1, h2⟩ := ih { w with procQueue := w.procQueue ++ [nestedOrbs] }
          refine ⟨nestedOrbs :: added, by simp [h1], ?_⟩
          have hw := orbs_weight value _ ho
          simp only [YamlValue.weight] at hw
          simp only [entriesWeight, queueWeight, YamlValue.weight]
          omega
        | other =>
          obtain ⟨added, h1, h2⟩ := ih w
          exact ⟨added, h1, by simp only [entriesWeight]; omega⟩
    | other =>
      simp only [visitProps]
      obtain ⟨added, h1, h2⟩ := ih w
      exact ⟨added, h1, by simp only [entriesWeight]; omega⟩

/-- The traversal loop of `initMaps` leaves by its own test `len(procQueue) > 0`:
with the fuel `walkOrbs` gives it, the queue is empty at the end. -/
theorem procQueueLoop_drains (ref : Str) (fuel : Nat) (w : Walk)
    (h : queueWeight w.procQueue ≤ fuel) : (procQueueLoop ref fuel w).procQueue = [] := by
  induction fuel generalizing w with
  | zero =>
    cases hq : w.procQueue with
    | nil => simpa [procQueueLoop] using hq
    | cons head tl =>
      rw [hq] at h
      simp only [queueWeight] at h
      omega
  | succ n ih =>
    unfold procQueueLoop
    cases hq : w.procQueue with
    | nil => simpa using hq
    | cons head tl =>
      simp only
      apply ih
      obtain ⟨added, h1, h2⟩ := visitProps_queue ref head w
      rw [hq] at h h1
      simp only [h1, List.cons_append, List.tail_cons, queueWeight_append]
      simp only [queueWeight] at h
      omega

theorem walkOrbs_drains (ref : Str) (orbsBlock : YamlMap) (dm : GoMap StrSet) :
    (walkOrbs ref orbsBlock dm).procQueue = [] :=
  procQueueLoop_drains ref _ _ (Nat.le_refl _)

end DepResolver

namespace DepResolver

/-! ## The graph after `initMaps` -/

theorem declaredIds_nodup (unmarshal : Str → Option YamlMap) (orb : VersionedOrb) :
    (declaredIds unmarshal orb).Nodup := by
  unfold declaredIds
  cases unmarshal orb.Source with
  | none => exact List.nodup_nil
  | some orbsBlock => exact (walkOrbs_inv orb.Ref orbsBlock []).2.2

theorem Registered.empty (unmarshal : Str → Option YamlMap) :
    Registered unmarshal [] (Graph.empty, []) where
  resolvedOrder := rfl
  orbRef := fun _ h => (List.not_mem_nil _ h).elim
  parsed := fun _ h => (List.not_mem_nil _ h).elim
  keysFrom := fun _ h => (List.not_mem_nil _ h).elim
  keysNodup := List.nodup_nil
  keysEq := rfl
  revIndexed := fun _ _ _ h => by cases h
  illegible := rfl

theorem initOrb_registered (unmarshal : Str → Option YamlMap) (done : List VersionedOrb)
    (acc : Graph × List Str) (orb : VersionedOrb) (h : Registered unmarshal done acc)
    (hnew : ∀ o ∈ done, o.Ref ≠ orb.Ref) :
    Registered unmarshal (done ++ [orb]) (initOrb unmarshal orb acc) := by
  have horb : ∀ o ∈ done ++ [orb],
      (acc.1.orbRefMap.set orb.Ref orb).get? o.Ref = some o := by
    intro o ho
    rw [GoMap.get?_set]
    rcases List.mem_append.1 ho with ho | ho
    · rw [if_neg (fun e => hnew o ho e.symm)]
      exact h.orbRef o ho
    · rw [List.mem_singleton] at ho
      subst ho
      rw [if_pos rfl]
  have hfresh : orb.Ref ∉ acc.1.dependenciesMap.keys := by
    intro hk
    obtain ⟨o, ho, he, _⟩ := h.keysFrom _ hk
    exact hnew o ho he
  unfold initOrb
  cases hu : unmarshal orb.Source with
  | none =>
    refine ⟨h.resolvedOrder, horb, ?_, ?_, h.keysNodup, ?_, h.revIndexed, ?_⟩
    · intro o ho hp
      rcases List.mem_append.1 ho with ho | ho
      · exact h.parsed o ho hp
      · rw [List.mem_singleton] at ho
        subst ho
        exact absurd hu hp
    · intro k hk
      obtain ⟨o, ho, he, hp⟩ := h.keysFrom k hk
      exact ⟨o, List.mem_append_left _ ho, he, hp⟩
    · show acc.1.dependenciesMap.keys = _
      rw [h.keysEq, List.filter_append]
      simp [hu]
    · show acc.2 ++ [orb.Ref] = _
      rw [h.illegible, List.filter_append, List.map_append]
      simp [hu]
  | some orbsBlock =>
    have hdecl : (walkOrbs orb.Ref orbsBlock acc.1.dependentsMap).dependencies =
        declaredIds unmarshal orb := by
      rw [walkOrbs_dependencies]
      unfold declaredIds
      rw [hu]
    have hw := walkOrbs_inv orb.Ref orbsBlock acc.1.dependentsMap
    refine ⟨h.resolvedOrder, horb, ?_, ?_, ?_, ?_, ?_, ?_⟩
    · intro o ho hp
      show (acc.1.dependenciesMap.set orb.Ref _).get? o.Ref = _
      rw [GoMap.get?_set]
      rcases List.mem_append.1 ho with ho | ho
      · rw [if_neg (fun e => hnew o ho e.symm)]
        exact h.parsed o ho hp
      · rw [List.mem_singleton] at ho
        subst ho
        rw [if_pos rfl, hdecl]
    · intro k hk
      have hk' : k ∈ (acc.1.dependenciesMap.set orb.Ref
          (walkOrbs orb.Ref orbsBlock acc.1.dependentsMap).dependencies).keys := hk
      rw [GoMap.keys_set, if_neg hfresh] at hk'
      rcases List.mem_append.1 hk' with hk' | hk'
      · obtain ⟨o, ho, he, hp⟩ := h.keysFrom k hk'
        exact ⟨o, List.mem_append_left _ ho, he, hp⟩
      · rw [List.mem_singleton] at hk'
        refine ⟨orb, List.mem_append_right _ (List.mem_singleton.2 rfl), hk'.symm, ?_⟩
        rw [hu]; exact fun e => by cases e
    · show (acc.1.dependenciesMap.set orb.Ref _).keys.Nodup
      rw [GoMap.keys_set, if_neg hfresh, List.nodup_append]
      refine ⟨h.keysNodup, List.nodup_singleton _, ?_⟩
      intro a ha hb
      rw [List.mem_singleton] at hb
      exact hfresh (hb ▸ ha)
    · show (acc.1.dependenciesMap.set orb.Ref _).keys = _
      rw [GoMap.keys_set, if_neg hfresh, h.keysEq, List.filter_append, List.map_append]
      simp [hu]
    · intro P s x hs hx
      have hs' : (acc.1.dependenciesMap.set orb.Ref
          (walkOrbs orb.Ref orbsBlock acc.1.dependentsMap).dependencies).get? P = some s := hs
      show ∃ ds, (walkOrbs orb.Ref orbsBlock acc.1.dependentsMap).dependentsMap.get? x = some ds
        ∧ P ∈ ds
      rw [GoMap.get?_set] at hs'
      by_cases hP : orb.Ref = P
      · rw [if_pos hP] at hs'
        cases hs'
        subst hP
        exact hw.1 x hx
      · rw [if_neg hP] at hs'
        obtain ⟨ds, hd, hm⟩ := h.revIndexed P s x hs' hx
        obtain ⟨ds', hd', hsub⟩ := hw.2.1 x ds hd
        exact ⟨ds', hd', hsub P hm⟩
    · show acc.2 = _
      rw [h.illegible, List.filter_append, List.map_append]
      simp [hu]

theorem initMaps_registered (unmarshal : Str → Option YamlMap) (rest done : List VersionedOrb)
    (acc : Graph × List Str) (h : Registered unmarshal done acc)
    (hn : ((done ++ rest).map VersionedOrb.Ref).Nodup) :
    Registered unmarshal (done ++ rest) (initMaps unmarshal rest acc) := by
  induction rest generalizing done acc with
  | nil => simpa [initMaps] using h
  | cons orb rest ih =>
    unfold initMaps
    have hn' : (((done ++ [orb]) ++ rest).map VersionedOrb.Ref).Nodup := by
      simpa using hn
    have hnew : ∀ o ∈ done, o.Ref ≠ orb.Ref := by
      intro o ho he
      rw [List.map_append, List.nodup_append] at hn
      exact hn.2.2 (List.mem_map.2 ⟨o, ho, rfl⟩)
        (List.mem_map.2 ⟨orb, List.mem_cons_self _ _, he.symm⟩)
    have := ih (done ++ [orb]) _ (initOrb_registered unmarshal done acc orb h hnew) hn'
    simpa using this

theorem initMaps_spec (unmarshal : Str → Option YamlMap) (orbs : List VersionedOrb)
    (hn : (orbs.map VersionedOrb.Ref).Nodup) :
    Registered unmarshal orbs (initMaps unmarshal orbs (Graph.empty, [])) := by
  have := initMaps_registered unmarshal orbs [] _ (Registered.empty unmarshal) (by simpa using hn)
  simpa using this

end DepResolver

namespace DepResolver

/-! ## The main loop of `Resolve` -/

theorem mem_clearingForms_self (R : Str) : R ∈ clearingForms R :=
  List.mem_cons_self _ _

theorem mem_clearingFormsOf {refs : List Str} {x : Str} :
    x ∈ clearingFormsOf refs ↔ ∃ R ∈ refs, x ∈ clearingForms R :=
  List.mem_flatMap

theorem clearingFormsOf_append (a b : List Str) :
    clearingFormsOf (a ++ b) = clearingFormsOf a ++ clearingFormsOf b :=
  List.flatMap_append a b clearingForms

theorem frontier_mem (order : List Str → List Str) (ho : IsVisitOrder order) (g : Graph)
    (hn : g.dependenciesMap.keys.Nodup) (R : Str) :
    R ∈ listOrbsWithoutDependencies order g ↔ g.dependenciesMap.get? R = some [] := by
  unfold listOrbsWithoutDependencies
  rw [(ho _).mem_iff]
  constructor
  · intro h
    obtain ⟨e, he, hR⟩ := List.mem_map.1 h
    obtain ⟨k, s⟩ := e
    obtain ⟨hm, hs⟩ := List.mem_filter.1 he
    simp only [beq_iff_eq, List.length_eq_zero] at hs
    subst hs
    cases hR
    exact GoMap.get?_of_mem _ _ _ hn hm
  · intro h
    exact List.mem_map.2 ⟨(R, []), List.mem_filter.2 ⟨GoMap.mem_of_get? _ _ _ h, rfl⟩, rfl⟩

theorem frontier_nodup (order : List Str → List Str) (ho : IsVisitOrder order) (g : Graph)
    (hn : g.dependenciesMap.keys.Nodup) : (listOrbsWithoutDependencies order g).Nodup := by
  unfold listOrbsWithoutDependencies
  rw [(ho _).nodup_iff]
  exact hn.sublist (List.Sublist.map _ (List.filter_sublist _))

theorem Reached.start (g0 : Graph) : Reached g0 [] g0 where
  cleared := by
    have : ({ g0 with resolvedOrder := g0.resolvedOrder ++ ([] : List Str).map g0.orbRefMap.get? } : Graph) = g0 := by
      simp
    rw [this]
    exact Cleared.refl g0
  ready := by
    intro pre R post he
    cases pre <;> cases he
  nodup := List.nodup_nil

theorem Reached.keysNodup {g0 g : Graph} {refs : List Str} (h : Reached g0 refs g)
    (h0n : g0.dependenciesMap.keys.Nodup) : g.dependenciesMap.keys.Nodup := by
  rw [h.cleared.2.2.2.1]
  exact h0n.filter _

theorem Reached.graphRevIndexed {g0 g : Graph} {refs : List Str} (h : Reached g0 refs g)
    (h0r : RevIndexed g0) : RevIndexed g :=
  h.cleared.keepsRevIndexed h0r

theorem Reached.get? {g0 g : Graph} {refs : List Str} (h : Reached g0 refs g) (P : Str) :
    g.dependenciesMap.get? P =
      if P ∈ clearingFormsOf refs then none
      else (g0.dependenciesMap.get? P).map
        (fun s => s.filter (fun x => !decide (x ∈ clearingFormsOf refs))) :=
  h.cleared.2.2.2.2 P

/-- A ref of the ready frontier: it is not a clearing form of a ref appended
so far, and all the identifiers `initMaps` recorded for it are. -/
theorem Reached.frontier {g0 g : Graph} {refs : List Str} (h : Reached g0 refs g) (R : Str)
    (hR : g.dependenciesMap.get? R = some []) :
    R ∉ clearingFormsOf refs ∧
    ∃ s, g0.dependenciesMap.get? R = some s ∧ ∀ x ∈ s, x ∈ clearingFormsOf refs := by
  rw [h.get?] at hR
  by_cases hc : R ∈ clearingFormsOf refs
  · rw [if_pos hc] at hR; cases hR
  · rw [if_neg hc] at hR
    refine ⟨hc, ?_⟩
    cases hg : g0.dependenciesMap.get? R with
    | none => rw [hg] at hR; cases hR
    | some s =>
      refine ⟨s, rfl, ?_⟩
      rw [hg] at hR
      simp only [Option.map_some', Option.some.injEq] at hR
      intro x hx
      by_contra hx'
      have : x ∈ s.filter (fun x => !decide (x ∈ clearingFormsOf refs)) :=
        List.mem_filter.2 ⟨hx, by simp [hx']⟩
      rw [hR] at this
      cases this

theorem processFrontier_reached (order : List Str → List Str) (ho : IsVisitOrder order)
    (g0 g : Graph) (refs : List Str) (h0n : g0.dependenciesMap.keys.Nodup)
    (h0r : RevIndexed g0) (h : Reached g0 refs g) :
    Reached g0 (refs ++ listOrbsWithoutDependencies order g)
      (processFrontier (listOrbsWithoutDependencies order g) g) := by
  have hn := h.keysNodup h0n
  have hr := h.graphRevIndexed h0r
  have hF : ∀ R ∈ listOrbsWithoutDependencies order g,
      R ∉ clearingFormsOf refs ∧
      ∃ s, g0.dependenciesMap.get? R = some s ∧ ∀ x ∈ s, x ∈ clearingFormsOf refs :=
    fun R hR => h.frontier R ((frontier_mem order ho g hn R).1 hR)
  have hFn := frontier_nodup order ho g hn
  generalize listOrbsWithoutDependencies order g = F at hF hFn
  refine ⟨?_, ?_, ?_⟩
  · obtain ⟨a1, b1, c1, d1, e1⟩ := h.cleared
    have hc' : Cleared (clearingFormsOf refs)
        { g0 with resolvedOrder := g0.resolvedOrder ++ (refs ++ F).map g0.orbRefMap.get? }
        { g with resolvedOrder := g.resolvedOrder ++ F.map g.orbRefMap.get? } := by
      refine ⟨a1, ?_, c1, d1, e1⟩
      show g.resolvedOrder ++ F.map g.orbRefMap.get? = _
      rw [b1, a1]
      simp
    have := Cleared.append hc' (processFrontier_cleared F g hr)
    rw [clearingFormsOf_append]
    exact this
  · intro pre R post he
    rcases List.append_eq_append_iff.1 he with ⟨a', h1, h2⟩ | ⟨c', h1, h2⟩
    · have hR : R ∈ F := by rw [h2]; simp
      obtain ⟨_, s, hs, hx⟩ := hF R hR
      refine ⟨s, hs, fun x hxs => ?_⟩
      rw [h1, clearingFormsOf_append]
      exact List.mem_append_left _ (hx x hxs)
    · cases c' with
      | nil =>
        simp only [List.nil_append] at h2
        have hR : R ∈ F := by rw [← h2]; simp
        obtain ⟨_, s, hs, hx⟩ := hF R hR
        refine ⟨s, hs, fun x hxs => ?_⟩
        simp only [List.append_nil] at h1
        rw [← h1]
        exact hx x hxs
      | cons c rest =>
        simp only [List.cons_append, List.cons.injEq] at h2
        obtain ⟨hc, _⟩ := h2
        subst hc
        exact h.ready pre R rest h1
  · rw [List.nodup_append]
    refine ⟨h.nodup, hFn, ?_⟩
    intro a ha hb
    exact (hF a hb).1 (mem_clearingFormsOf.2 ⟨a, ha, mem_clearingForms_self a⟩)

theorem processFrontier_length (order : List Str → List Str) (ho : IsVisitOrder order)
    (g : Graph) (hn : g.dependenciesMap.keys.Nodup) (hr : RevIndexed g)
    (hne : listOrbsWithoutDependencies order g ≠ []) :
    (processFrontier (listOrbsWithoutDependencies order g) g).dependenciesMap.length
      < g.dependenciesMap.length := by
  have hF : ∀ R ∈ listOrbsWithoutDependencies order g, R ∈ g.dependenciesMap.keys :=
    fun R hR => GoMap.mem_keys_of_get? _ _ _ ((frontier_mem order ho g hn R).1 hR)
  generalize listOrbsWithoutDependencies order g = F at hF hne
  have hk := (processFrontier_cleared F g hr).2.2.2.1
  have h1 : (processFrontier F g).dependenciesMap.length =
      (processFrontier F g).dependenciesMap.keys.length := by
    simp [GoMap.keys]
  have h2 : g.dependenciesMap.length = g.dependenciesMap.keys.length := by
    simp [GoMap.keys]
  rw [h1, h2, hk]
  cases F with
  | nil => exact absurd rfl hne
  | cons R rest =>
    apply List.length_filter_lt_length_iff_exists.2
    refine ⟨R, hF R (List.mem_cons_self _ _), ?_⟩
    have : R ∈ clearingFormsOf (R :: rest) :=
      mem_clearingFormsOf.2 ⟨R, List.mem_cons_self _ _, mem_clearingForms_self R⟩
    simp [this]

theorem resolveLoop_reached (order : List Str → List Str) (ho : IsVisitOrder order)
    (g0 : Graph) (h0n : g0.dependenciesMap.keys.Nodup) (h0r : RevIndexed g0)
    (fuel : Nat) (g : Graph) (refs : List Str) (h : Reached g0 refs g) :
    ∃ refs', Reached g0 refs' (resolveLoop order fuel g) ∧
      (g.dependenciesMap.length < fuel →
        listOrbsWithoutDependencies order (resolveLoop order fuel g) = []) := by
  induction fuel generalizing g refs with
  | zero => exact ⟨refs, h, fun hl => absurd hl (Nat.not_lt_zero _)⟩
  | succ n ih =>
    unfold resolveLoop
    by_cases hF : (listOrbsWithoutDependencies order g).length = 0
    · simp only [hF, if_true]
      exact ⟨refs, h, fun _ => List.length_eq_zero.1 hF⟩
    · simp only [hF, if_false]
      obtain ⟨refs', h1, h2⟩ := ih _ _ (processFrontier_reached order ho g0 g refs h0n h0r h)
      refine ⟨refs', h1, fun hl => h2 ?_⟩
      have := processFrontier_length order ho g (h.keysNodup h0n) (h.graphRevIndexed h0r)
        (fun e => hF (by rw [e]; rfl))
      omega

end DepResolver

namespace DepResolver

/-! ## What `Resolve` returns -/

theorem foldl_snoc (s acc : List Str) :
    s.foldl (fun dependencies dependingOrb => dependencies ++ [dependingOrb]) acc = acc ++ s := by
  induction s generalizing acc with
  | nil => simp
  | cons x rest ih => rw [List.foldl_cons, ih]; simp

theorem GoMap.set_of_not_mem {β : Type} (m : GoMap β) (k : Str) (v : β) (h : k ∉ m.keys) :
    m.set k v = m ++ [(k, v)] := by
  induction m with
  | nil => rfl
  | cons e rest ih =>
    obtain ⟨a, b⟩ := e
    have ha : ¬ a = k := fun e => h (e ▸ List.mem_cons_self _ _)
    have hr : k ∉ GoMap.keys rest := fun hk => h (List.mem_cons_of_mem _ hk)
    simp only [GoMap.set, ha, if_false, ih hr, List.cons_append]

theorem reduce_foldl (l : GoMap StrSet) (acc : GoMap (List Str))
    (h : (GoMap.keys acc ++ GoMap.keys l).Nodup) :
    l.foldl (fun (ret : GoMap (List Str)) e => ret.set e.1 e.2) acc = acc ++ l := by
  induction l generalizing acc with
  | nil => simp
  | cons e rest ih =>
    obtain ⟨k, s⟩ := e
    rw [List.foldl_cons]
    have hk : k ∉ GoMap.keys acc := by
      intro hk
      rw [List.nodup_append] at h
      exact h.2.2 hk (List.mem_cons_self _ _)
    rw [GoMap.set_of_not_mem acc k s hk, ih]
    · simp
    · have : GoMap.keys (acc ++ [(k, s)]) ++ GoMap.keys rest
          = GoMap.keys acc ++ GoMap.keys ((k, s) :: rest) := by
        simp [GoMap.keys]
      rw [this]; exact h

theorem reduceDependenciesMap_eq (g : Graph) (h : g.dependenciesMap.keys.Nodup) :
    reduceDependenciesMap g = g.dependenciesMap := by
  unfold reduceDependenciesMap
  simp only [foldl_snoc, List.nil_append]
  rw [reduce_foldl g.dependenciesMap [] (by simpa [GoMap.keys] using h)]
  simp

theorem map_lookup_eq (lookup : Str → Option VersionedOrb) (refs : List Str)
    (h : ∀ R ∈ refs, ∃ orb, lookup R = some orb ∧ orb.Ref = R) :
    ∃ done : List VersionedOrb, refs.map lookup = done.map some ∧
      done.map VersionedOrb.Ref = refs ∧ ∀ Q ∈ done, lookup Q.Ref = some Q := by
  induction refs with
  | nil => exact ⟨[], rfl, rfl, fun _ hq => (List.not_mem_nil _ hq).elim⟩
  | cons R rest ih =>
    obtain ⟨done, h1, h2, h3⟩ := ih (fun R' hR' => h R' (List.mem_cons_of_mem _ hR'))
    obtain ⟨orb, ho, hr⟩ := h R (List.mem_cons_self _ _)
    refine ⟨orb :: done, ?_, ?_, ?_⟩
    · simp [ho, h1]
    · simp [hr, h2]
    · intro Q hQ
      rcases List.mem_cons.1 hQ with hQ | hQ
      · subst hQ; rw [hr]; exact ho
      · exact h3 Q hQ

theorem ref_injective (orbs : List VersionedOrb) (hn : (orbs.map VersionedOrb.Ref).Nodup)
    (a b : VersionedOrb) (ha : a ∈ orbs) (hb : b ∈ orbs) (h : a.Ref = b.Ref) : a = b :=
  List.inj_on_of_nodup_map hn ha hb h

theorem Resolve_outcome (order : List Str → List Str) (unmarshal : Str → Option YamlMap)
    (orbs : List VersionedOrb) (ho : IsVisitOrder order)
    (hn : (orbs.map VersionedOrb.Ref).Nodup) :
    ∃ done, Outcome unmarshal orbs (Resolve order unmarshal orbs) done := by
  have hinit := initMaps_spec unmarshal orbs hn
  generalize hacc : initMaps unmarshal orbs (Graph.empty, []) = acc at hinit
  obtain ⟨refs, hreach, hexit⟩ := resolveLoop_reached order ho acc.1 hinit.keysNodup
    hinit.revIndexed (acc.1.dependenciesMap.length + 1) acc.1 [] (Reached.start acc.1)
  have hexit := hexit (Nat.lt_succ_self _)
  generalize hg : resolveLoop order (acc.1.dependenciesMap.length + 1) acc.1 = g at hreach hexit
  have hres : Resolve order unmarshal orbs = ⟨g.resolvedOrder, acc.2, reduceDependenciesMap g, none⟩ := by
    unfold Resolve
    simp only [hacc, hg]
  have hkn := hreach.keysNodup hinit.keysNodup
  rw [reduceDependenciesMap_eq g hkn] at hres
  -- every appended ref is the ref of a parsable input package
  have hrefs : ∀ R ∈ refs, ∃ orb, acc.1.orbRefMap.get? R = some orb ∧ orb.Ref = R ∧
      orb ∈ orbs ∧ unmarshal orb.Source ≠ none := by
    intro R hR
    obtain ⟨pre, post, he⟩ := List.append_of_mem hR
    obtain ⟨s, hs, _⟩ := hreach.ready pre R post he
    obtain ⟨orb, hin, href, hp⟩ := hinit.keysFrom R (GoMap.mem_keys_of_get? _ _ _ hs)
    exact ⟨orb, href ▸ hinit.orbRef orb hin, href, hin, hp⟩
  obtain ⟨done, hd1, hd2, hd3⟩ := map_lookup_eq acc.1.orbRefMap.get? refs
    (fun R hR => by obtain ⟨orb, h1, h2, _⟩ := hrefs R hR; exact ⟨orb, h1, h2⟩)
  have hdone : ∀ Q ∈ done, Q ∈ orbs ∧ unmarshal Q.Source ≠ none := by
    intro Q hQ
    have hR : Q.Ref ∈ refs := hd2 ▸ List.mem_map.2 ⟨Q, hQ, rfl⟩
    obtain ⟨orb, h1, _, h3, h4⟩ := hrefs Q.Ref hR
    rw [hd3 Q hQ] at h1
    cases h1
    exact ⟨h3, h4⟩
  have hnone : ∀ P ∈ orbs, unmarshal P.Source = none ∨ P.Ref ∈ clearingFormsOf refs →
      g.dependenciesMap.get? P.Ref = none := by
    intro P hP hor
    rw [hreach.get?]
    by_cases hc : P.Ref ∈ clearingFormsOf refs
    · rw [if_pos hc]
    · rw [if_neg hc]
      have hu : unmarshal P.Source = none := hor.resolve_right hc
      have : acc.1.dependenciesMap.get? P.Ref = none := by
        rw [GoMap.get?_eq_none_iff]
        intro hk
        obtain ⟨orb, hin, href, hp⟩ := hinit.keysFrom _ hk
        have := ref_injective orbs hn orb P hin hP href
        subst this
        exact hp hu
      rw [this]; rfl
  have hsome : ∀ P ∈ orbs, unmarshal P.Source ≠ none → P.Ref ∉ clearingFormsOf refs →
      g.dependenciesMap.get? P.Ref = some ((declaredIds unmarshal P).filter
        (fun x => !decide (x ∈ clearingFormsOf refs))) := by
    intro P hP hu hc
    rw [hreach.get?, if_neg hc, hinit.parsed P hP hu]
    rfl
  refine ⟨done, ?_⟩
  rw [hres]
  refine ⟨?_, hdone, ?_, ?_, hinit.illegible, ?_, hkn, ?_, ?_, ?_, rfl⟩
  · show g.resolvedOrder = _
    rw [hreach.cleared.2.1, hinit.resolvedOrder]
    simpa using hd1
  · rw [hd2]; exact hreach.nodup
  · intro pre P post he x hx
    have he' : refs = pre.map VersionedOrb.Ref ++ P.Ref :: post.map VersionedOrb.Ref := by
      rw [← hd2, he]; simp
    obtain ⟨s, hs, hall⟩ := hreach.ready _ _ _ he'
    have hP := hdone P (by rw [he]; simp)
    rw [hinit.parsed P hP.1 hP.2] at hs
    cases hs
    obtain ⟨R, hR, hxR⟩ := mem_clearingFormsOf.1 (hall x hx)
    obtain ⟨Q, hQ, hQR⟩ := List.mem_map.1 hR
    exact ⟨Q, hQ, hQR ▸ hxR⟩
  · show g.dependenciesMap.keys = _
    rw [hreach.cleared.2.2.2.1, hd2]
    show List.filter _ acc.1.dependenciesMap.keys = _
    rw [hinit.keysEq]
  · rw [hd2]; exact hnone
  · rw [hd2]; exact hsome
  · intro k l hkl
    have hkl' : g.dependenciesMap.get? k = some l := hkl
    constructor
    · have hk : k ∈ acc.1.dependenciesMap.keys := by
        have := GoMap.mem_keys_of_get? _ _ _ hkl'
        rw [hreach.cleared.2.2.2.1] at this
        exact (List.mem_filter.1 this).1
      obtain ⟨orb, hin, href, _⟩ := hinit.keysFrom k hk
      exact ⟨orb, hin, href⟩
    · intro hl
      subst hl
      have := (frontier_mem order ho g hkn k).2 hkl'
      rw [hexit] at this
      cases this

end DepResolver

namespace DepResolver

/-! ## The clearing forms of a ref -/

theorem trim_isPrefix (p : Str) : trimMostInsignificantSemver p <+: p := by
  unfold trimMostInsignificantSemver
  cases hr : p.reverse with
  | nil => exact List.prefix_refl p
  | cons c tl =>
    simp only
    by_cases hc : isDigit c = true
    · rw [if_pos hc]
      have hs : List.dropWhile isDigit (c :: tl) <:+ p.reverse := by
        rw [hr]; exact List.dropWhile_suffix _
      have key : ∀ rest : Str, rest <:+ p.reverse → rest.reverse <+: p := by
        intro rest h
        have := List.reverse_prefix.2 h
        rwa [List.reverse_reverse] at this
      split
      · rename_i rest heq
        rw [heq] at hs
        exact key rest ((List.suffix_cons '.' rest).trans hs)
      · exact key _ hs
    · rw [if_neg hc]

theorem truncations_spec (n : Nat) (p t : Str) (h : t ∈ truncations n p) :
    endsInDigits t = true ∧ t <+: p := by
  induction n generalizing p with
  | zero => cases h
  | succ n ih =>
    unfold truncations at h
    by_cases hd : endsInDigits p = true
    · rw [if_pos hd] at h
      rcases List.mem_cons.1 h with h | h
      · subst h; exact ⟨hd, List.prefix_refl _⟩
      · obtain ⟨h1, h2⟩ := ih _ h
        exact ⟨h1, h2.trans (trim_isPrefix p)⟩
    · rw [if_neg hd] at h
      cases h

/-- A clearing form of a ref is the ref itself, a version-truncated part of
it that still ends in a digit, or its `@volatile` alias. -/
theorem mem_clearingForms {x R : Str} (h : x ∈ clearingForms R) :
    x = R ∨ (endsInDigits x = true ∧ x <+: R) ∨ x = replaceVersionByVolatile R := by
  unfold clearingForms aliasForms at h
  rcases List.mem_cons.1 h with h | h
  · exact Or.inl h
  · rcases List.mem_append.1 h with h | h
    · obtain ⟨h1, h2⟩ := truncations_spec _ _ _ h
      exact Or.inr (Or.inl ⟨h1, h2.trans (trim_isPrefix R)⟩)
    · exact Or.inr (Or.inr (List.mem_singleton.1 h))

theorem mem_clearingForms_of_alias {x R : Str} (h : x ∈ aliasForms R) : x ∈ clearingForms R :=
  List.mem_cons_of_mem _ h

theorem mem_done_iff (done : List VersionedOrb) (Q : VersionedOrb) :
    some Q ∈ done.map some ↔ Q ∈ done := by
  constructor
  · intro h
    obtain ⟨Q', hQ', he⟩ := List.mem_map.1 h
    cases he
    exact hQ'
  · intro h
    exact List.mem_map.2 ⟨Q, h, rfl⟩

theorem not_mem_clearingFormsOf {done : List VersionedOrb} {x : Str} :
    x ∉ clearingFormsOf (done.map VersionedOrb.Ref) ↔
      ∀ Q, some Q ∈ done.map some → x ∉ clearingForms Q.Ref := by
  constructor
  · intro h Q hQ hx
    exact h (mem_clearingFormsOf.2
      ⟨Q.Ref, List.mem_map.2 ⟨Q, (mem_done_iff done Q).1 hQ, rfl⟩, hx⟩)
  · intro h hx
    obtain ⟨R, hR, hxR⟩ := mem_clearingFormsOf.1 hx
    obtain ⟨Q, hQ, he⟩ := List.mem_map.1 hR
    exact h Q ((mem_done_iff done Q).2 hQ) (he ▸ hxR)

/-! ## The claims on `Resolve` -/

/-- C1. Dependency-first order of `Resolve`.  For packages with pairwise
distinct refs and any visiting order of the ready frontier: if `P` stands in
the ordered sequence, `pre` being the part of the sequence before it, then
every identifier `x` that the manifest of `P` declares is a clearing form of a
package `Q` of `pre` (an input package): `x` is the ref of `Q`, or a truncation
of that ref that still ends in a digit, or its `@volatile` alias. -/
theorem Resolve_dependency_first (order : List Str → List Str)
    (unmarshal : Str → Option YamlMap) (orbs : List VersionedOrb)
    (ho : IsVisitOrder order) (hn : (orbs.map VersionedOrb.Ref).Nodup)
    (pre post : List (Option VersionedOrb)) (P : VersionedOrb)
    (hP : (Resolve order unmarshal orbs).resolvedOrder = pre ++ some P :: post)
    (x : Str) (hx : x ∈ declaredIds unmarshal P) :
    ∃ Q, some Q ∈ pre ∧ Q ∈ orbs ∧ x ∈ clearingForms Q.Ref ∧
      (x = Q.Ref ∨ (endsInDigits x = true ∧ x <+: Q.Ref) ∨
        x = replaceVersionByVolatile Q.Ref) := by
  obtain ⟨done, out⟩ := Resolve_outcome order unmarshal orbs ho hn
  rw [out.ordered] at hP
  obtain ⟨l1, l2, hl, h1, h2⟩ := List.map_eq_append_iff.1 hP
  obtain ⟨P', l3, hl2, hP', _⟩ := List.map_eq_cons_iff.1 h2
  have hPP : P' = P := Option.some.inj hP'
  rw [hl2, hPP] at hl
  obtain ⟨Q, hQ, hxQ⟩ := out.ready l1 P l3 hl x hx
  refine ⟨Q, ?_, ?_, hxQ, mem_clearingForms hxQ⟩
  · rw [← h1]; exact (mem_done_iff l1 Q).2 hQ
  · exact (out.doneFrom Q (by rw [hl]; exact List.mem_append_left _ hQ)).1

/-- C4. Illegible packages are excluded.  For packages with pairwise distinct
refs, a package whose source fails to parse has its ref in the illegible list,
does not stand in the ordered sequence (no package with its ref does) and is
not a key of the unresolved map; and no ref of the illegible list is the ref
of a package of the ordered sequence. -/
theorem Resolve_illegible_excluded (order : List Str → List Str)
    (unmarshal : Str → Option YamlMap) (orbs : List VersionedOrb)
    (ho : IsVisitOrder order) (hn : (orbs.map VersionedOrb.Ref).Nodup)
    (orb : VersionedOrb) (hin : orb ∈ orbs) (hbad : unmarshal orb.Source = none) :
    orb.Ref ∈ (Resolve order unmarshal orbs).illegible ∧
    some orb ∉ (Resolve order unmarshal orbs).resolvedOrder ∧
    (∀ Q, some Q ∈ (Resolve order unmarshal orbs).resolvedOrder → Q.Ref ≠ orb.Ref) ∧
    orb.Ref ∉ (Resolve order unmarshal orbs).unresolved.keys ∧
    (∀ k ∈ (Resolve order unmarshal orbs).illegible,
      ∀ Q, some Q ∈ (Resolve order unmarshal orbs).resolvedOrder → Q.Ref ≠ k) := by
  obtain ⟨done, out⟩ := Resolve_outcome order unmarshal orbs ho hn
  have hdis : ∀ o ∈ orbs, unmarshal o.Source = none →
      ∀ Q, some Q ∈ (Resolve order unmarshal orbs).resolvedOrder → Q.Ref ≠ o.Ref := by
    intro o ho' hb Q hQ he
    rw [out.ordered] at hQ
    obtain ⟨hQin, hQok⟩ := out.doneFrom Q ((mem_done_iff done Q).1 hQ)
    have := ref_injective orbs hn Q o hQin ho' he
    subst this
    exact hQok hb
  refine ⟨?_, ?_, hdis orb hin hbad, ?_, ?_⟩
  · rw [out.illegible]
    exact List.mem_map.2 ⟨orb, List.mem_filter.2 ⟨hin, by simp [hbad]⟩, rfl⟩
  · intro h
    exact hdis orb hin hbad orb h rfl
  · rw [← GoMap.get?_eq_none_iff]
    exact out.unresolvedNone orb hin (Or.inl hbad)
  · intro k hk Q hQ
    rw [out.illegible] at hk
    obtain ⟨o, ho', he⟩ := List.mem_map.1 hk
    obtain ⟨ho1, ho2⟩ := List.mem_filter.1 ho'
    have hb : unmarshal o.Source = none := by
      cases hu : unmarshal o.Source with
      | none => rfl
      | some v => rw [hu] at ho2; cases ho2
    rw [← he]
    exact hdis o ho1 hb Q hQ

/-- C7. Mutual dependency.  For two parsable packages `a` and `b` with
distinct refs, `a` declaring the ref of `b` and `b` the ref of `a`, `Resolve`
returns an empty ordered sequence and an unresolved map whose keys are the
refs of `a` and `b`, the list of `a` holding the ref of `b` and the list of
`b` the ref of `a`. -/
theorem Resolve_mutual (order : List Str → List Str) (unmarshal : Str → Option YamlMap)
    (a b : VersionedOrb) (ho : IsVisitOrder order) (hab : a.Ref ≠ b.Ref)
    (ha : unmarshal a.Source ≠ none) (hb : unmarshal b.Source ≠ none)
    (hdab : b.Ref ∈ declaredIds unmarshal a) (hdba : a.Ref ∈ declaredIds unmarshal b) :
    (Resolve order unmarshal [a, b]).resolvedOrder = [] ∧
    (Resolve order unmarshal [a, b]).unresolved.keys = [a.Ref, b.Ref] ∧
    (∃ l, (Resolve order unmarshal [a, b]).unresolved.get? a.Ref = some l ∧ b.Ref ∈ l) ∧
    (∃ l, (Resolve order unmarshal [a, b]).unresolved.get? b.Ref = some l ∧ a.Ref ∈ l) := by
  have hn : (([a, b] : List VersionedOrb).map VersionedOrb.Ref).Nodup := by
    simp [hab]
  obtain ⟨done, out⟩ := Resolve_outcome order unmarshal [a, b] ho hn
  have hdone : done = [] := by
    cases done with
    | nil => rfl
    | cons P post =>
      have hPin := (out.doneFrom P (List.mem_cons_self _ _)).1
      have hex : ∃ x, x ∈ declaredIds unmarshal P := by
        rcases List.mem_cons.1 hPin with h | h
        · subst h; exact ⟨_, hdab⟩
        · rw [List.mem_singleton] at h
          subst h; exact ⟨_, hdba⟩
      obtain ⟨x, hx⟩ := hex
      obtain ⟨Q, hQ, _⟩ := out.ready [] P post rfl x hx
      cases hQ
  subst hdone
  have hsa : (unmarshal a.Source).isSome = true := Option.ne_none_iff_isSome.1 ha
  have hsb : (unmarshal b.Source).isSome = true := Option.ne_none_iff_isSome.1 hb
  have hnot : ∀ k : Str, k ∉ clearingFormsOf (([] : List VersionedOrb).map VersionedOrb.Ref) :=
    fun k hk => by cases hk
  refine ⟨out.ordered, ?_, ?_, ?_⟩
  · rw [out.unresolvedKeys]
    simp [hsa, hsb, clearingFormsOf]
  · refine ⟨_, out.unresolvedSome a (List.mem_cons_self _ _) ha (hnot _), ?_⟩
    exact List.mem_filter.2 ⟨hdab, by simp [clearingFormsOf]⟩
  · refine ⟨_, out.unresolvedSome b (by simp) hb (hnot _), ?_⟩
    exact List.mem_filter.2 ⟨hdba, by simp [clearingFormsOf]⟩

/-- C9. Unresolved residue.  For packages with pairwise distinct refs, every
entry of the unresolved map has as key the ref of an input package `P`, and
its list is not empty, has no duplicates, and holds exactly the identifiers
that `P` declares and that are not a clearing form of any package of the
ordered sequence. -/
theorem Resolve_unresolved_residue (order : List Str → List Str)
    (unmarshal : Str → Option YamlMap) (orbs : List VersionedOrb)
    (ho : IsVisitOrder order) (hn : (orbs.map VersionedOrb.Ref).Nodup)
    (k : Str) (l : List Str) (hk : (k, l) ∈ (Resolve order unmarshal orbs).unresolved) :
    ∃ P ∈ orbs, P.Ref = k ∧ l ≠ [] ∧ l.Nodup ∧
      ∀ x, x ∈ l ↔ (x ∈ declaredIds unmarshal P ∧
        ∀ Q, some Q ∈ (Resolve order unmarshal orbs).resolvedOrder →
          x ∉ clearingForms Q.Ref) := by
  obtain ⟨done, out⟩ := Resolve_outcome order unmarshal orbs ho hn
  have hget := GoMap.get?_of_mem _ k l out.unresolvedNodup hk
  obtain ⟨⟨P, hP, hPk⟩, hne⟩ := out.unresolvedFrom k l hget
  subst hPk
  have hok : unmarshal P.Source ≠ none := by
    intro hb
    rw [out.unresolvedNone P hP (Or.inl hb)] at hget
    cases hget
  have hfree : P.Ref ∉ clearingFormsOf (done.map VersionedOrb.Ref) := by
    intro hc
    rw [out.unresolvedNone P hP (Or.inr hc)] at hget
    cases hget
  rw [out.unresolvedSome P hP hok hfree] at hget
  cases hget
  refine ⟨P, hP, rfl, hne, (declaredIds_nodup unmarshal P).filter _, ?_⟩
  intro x
  rw [out.ordered, ← not_mem_clearingFormsOf, List.mem_filter]
  simp

/-- C8, as amended.  For packages with pairwise distinct refs, let the
parsable package `P` declare the ref of a package `I` whose source fails to
parse, that ref being neither a truncation nor the `@volatile` alias of the
ref of a package of the ordered sequence.  Then `P` does not stand in the
ordered sequence; and when the ref of `P` is itself neither a truncation nor
the `@volatile` alias of the ref of a package of the ordered sequence, `P` is a
key of the unresolved map and its list holds the ref of `I`. -/
theorem Resolve_illegible_dependent (order : List Str → List Str)
    (unmarshal : Str → Option YamlMap) (orbs : List VersionedOrb)
    (ho : IsVisitOrder order) (hn : (orbs.map VersionedOrb.Ref).Nodup)
    (P I : VersionedOrb) (hP : P ∈ orbs) (hI : I ∈ orbs)
    (hbad : unmarshal I.Source = none) (hok : unmarshal P.Source ≠ none)
    (hdecl : I.Ref ∈ declaredIds unmarshal P)
    (hfree : ∀ Q, some Q ∈ (Resolve order unmarshal orbs).resolvedOrder →
      I.Ref ∉ aliasForms Q.Ref) :
    some P ∉ (Resolve order unmarshal orbs).resolvedOrder ∧
    ((∀ Q, some Q ∈ (Resolve order unmarshal orbs).resolvedOrder →
        P.Ref ∉ aliasForms Q.Ref) →
      ∃ l, (P.Ref, l) ∈ (Resolve order unmarshal orbs).unresolved ∧ I.Ref ∈ l) := by
  obtain ⟨done, out⟩ := Resolve_outcome order unmarshal orbs ho hn
  rw [out.ordered] at hfree ⊢
  have hIfree : ∀ Q, some Q ∈ done.map some → I.Ref ∉ clearingForms Q.Ref := by
    intro Q hQ hc
    rcases List.mem_cons.1 hc with hc | hc
    · obtain ⟨hQin, hQok⟩ := out.doneFrom Q ((mem_done_iff done Q).1 hQ)
      have := ref_injective orbs hn I Q hI hQin hc
      subst this
      exact hQok hbad
    · exact hfree Q hQ hc
  have hPout : some P ∉ done.map some := by
    intro hin
    obtain ⟨pre, post, he⟩ := List.append_of_mem ((mem_done_iff done P).1 hin)
    obtain ⟨Q, hQ, hc⟩ := out.ready pre P post he I.Ref hdecl
    exact hIfree Q ((mem_done_iff done Q).2 (by rw [he]; exact List.mem_append_left _ hQ)) hc
  refine ⟨hPout, ?_⟩
  intro hPfree
  have hPfree' : P.Ref ∉ clearingFormsOf (done.map VersionedOrb.Ref) := by
    rw [not_mem_clearingFormsOf]
    intro Q hQ hc
    rcases List.mem_cons.1 hc with hc | hc
    · obtain ⟨hQin, _⟩ := out.doneFrom Q ((mem_done_iff done Q).1 hQ)
      have := ref_injective orbs hn P Q hP hQin hc
      subst this
      exact hPout hQ
    · exact hPfree Q hQ hc
  refine ⟨_, GoMap.mem_of_get? _ _ _ (out.unresolvedSome P hP hok hPfree'), ?_⟩
  exact List.mem_filter.2 ⟨hdecl, by simpa using not_mem_clearingFormsOf.2 hIfree⟩

end DepResolver

namespace DepResolver

/-! ## Truncations and the volatile alias of a semver ref -/

theorem dropWhile_append_stop (f : Char → Bool) (l1 l2 : Str) (a : Char)
    (h1 : ∀ c ∈ l1, f c = true) (ha : f a = false) :
    List.dropWhile f (l1 ++ a :: l2) = a :: l2 := by
  induction l1 with
  | nil => simp [List.dropWhile, ha]
  | cons c rest ih =>
    have hc := h1 c (List.mem_cons_self _ _)
    simp only [List.cons_append, List.dropWhile, hc]
    exact ih (fun c' hc' => h1 c' (List.mem_cons_of_mem _ hc'))

theorem reverse_group (d : Str) (hd : IsDigitGroup d) :
    ∃ c tl, d.reverse = c :: tl ∧ isDigit c = true := by
  cases hr : d.reverse with
  | nil =>
    exact absurd (List.reverse_eq_nil_iff.1 hr) hd.1
  | cons c tl =>
    refine ⟨c, tl, rfl, hd.2 c ?_⟩
    have : c ∈ d.reverse := by rw [hr]; exact List.mem_cons_self _ _
    exact List.mem_reverse.1 this

theorem endsInDigits_group (q d : Str) (hd : IsDigitGroup d) :
    endsInDigits (q ++ d) = true := by
  obtain ⟨c, tl, hr, hc⟩ := reverse_group d hd
  unfold endsInDigits
  rw [List.reverse_append, hr]
  exact hc

theorem endsInDigits_snoc (q : Str) (a : Char) (ha : isDigit a = false) :
    endsInDigits (q ++ [a]) = false := by
  unfold endsInDigits
  rw [List.reverse_append]
  exact ha

theorem trim_group (q d : Str) (a : Char) (hd : IsDigitGroup d) (ha : isDigit a = false) :
    trimMostInsignificantSemver (q ++ a :: d) = if a = '.' then q else q ++ [a] := by
  obtain ⟨c, tl, hr, hc⟩ := reverse_group d hd
  have hrev : (q ++ a :: d).reverse = d.reverse ++ a :: q.reverse := by simp
  have hdrop : List.dropWhile isDigit ((q ++ a :: d).reverse) = a :: q.reverse := by
    rw [hrev]
    exact dropWhile_append_stop isDigit _ _ a
      (fun c' hc' => hd.2 c' (List.mem_reverse.1 hc')) ha
  unfold trimMostInsignificantSemver
  rw [hdrop, hrev, hr]
  simp only [List.cons_append, hc, if_true]
  by_cases h : a = '.'
  · subst h; simp
  · rw [if_neg h]
    split
    · rename_i rest heq
      exact absurd (List.cons.inj heq).1 h
    · simp

theorem replaceVersionByVolatile_at (p X : Str) (hX : '@' ∉ X) :
    replaceVersionByVolatile (p ++ '@' :: X) = p ++ "@volatile".toList := by
  unfold replaceVersionByVolatile
  have hmem : '@' ∈ p ++ '@' :: X := by simp
  rw [if_pos hmem]
  have hrev : (p ++ '@' :: X).reverse = X.reverse ++ '@' :: p.reverse := by simp
  rw [hrev, dropWhile_append_stop _ X.reverse p.reverse '@' ?_ (by simp)]
  · simp
  · intro c hc
    have : c ≠ '@' := fun e => hX (e ▸ List.mem_reverse.1 hc)
    simp [this]

theorem versionText_snoc (first : Str) (init : List Str) (d : Str) :
    versionText first (init ++ [d]) = versionText first init ++ '.' :: d := by
  unfold versionText
  rw [List.foldl_append]
  rfl

theorem semverRef_snoc (name first : Str) (init : List Str) (d : Str) :
    semverRef name first (init ++ [d]) = semverRef name first init ++ '.' :: d := by
  unfold semverRef
  rw [versionText_snoc]
  simp

theorem versionText_no_at (first : Str) (more : List Str) (hf : IsDigitGroup first)
    (hm : ∀ d ∈ more, IsDigitGroup d) : '@' ∉ versionText first more := by
  induction more using List.reverseRecOn with
  | nil =>
    intro h
    have := hf.2 _ h
    revert this; decide
  | append_singleton init d ih =>
    rw [versionText_snoc]
    intro h
    rcases List.mem_append.1 h with h | h
    · exact ih (fun d' hd' => hm d' (List.mem_append_left _ hd')) h
    · rcases List.mem_cons.1 h with h | h
      · revert h; decide
      · have := (hm d (by simp)).2 _ h
        revert this; decide

theorem length_semverRef (name first : Str) (more : List Str) :
    name.length + 1 + first.length + more.length ≤ (semverRef name first more).length := by
  induction more using List.reverseRecOn with
  | nil => simp [semverRef, versionText]; omega
  | append_singleton init d ih =>
    rw [semverRef_snoc]
    simp only [List.length_append, List.length_cons, List.length_nil] at ih ⊢
    omega

theorem endsInDigits_semverRef (name first : Str) (more : List Str) (hf : IsDigitGroup first)
    (hm : ∀ d ∈ more, IsDigitGroup d) : endsInDigits (semverRef name first more) = true := by
  induction more using List.reverseRecOn with
  | nil =>
    have : semverRef name first [] = (name ++ ['@']) ++ first := by simp [semverRef, versionText]
    rw [this]
    exact endsInDigits_group _ _ hf
  | append_singleton init d _ =>
    rw [semverRef_snoc]
    have : semverRef name first init ++ '.' :: d = (semverRef name first init ++ ['.']) ++ d := by
      simp
    rw [this]
    exact endsInDigits_group _ _ (hm d (by simp))

/-- The truncation loop started at `name@d1...dm` visits `name@d1...di` for
every `i` from `m` down to `1`, and nothing else. -/
theorem truncations_semverRef (name first : Str) (more : List Str) (hf : IsDigitGroup first)
    (hm : ∀ d ∈ more, IsDigitGroup d) (n : Nat) (hn : more.length < n) (t : Str) :
    t ∈ truncations n (semverRef name first more) ↔
      ∃ i, i ≤ more.length ∧ t = semverRef name first (more.take i) := by
  induction more using List.reverseRecOn generalizing n with
  | nil =>
    cases n with
    | zero => exact absurd hn (Nat.lt_irrefl _)
    | succ n =>
      have htrim : trimMostInsignificantSemver (semverRef name first []) = name ++ ['@'] := by
        have := trim_group name first '@' hf (by decide)
        simpa [semverRef, versionText] using this
      have hstop : truncations n (name ++ ['@']) = [] := by
        cases n with
        | zero => rfl
        | succ n =>
          unfold truncations
          rw [endsInDigits_snoc name '@' (by decide)]
          rfl
      unfold truncations
      rw [if_pos (endsInDigits_semverRef name first [] hf hm), htrim, hstop]
      constructor
      · intro h
        exact ⟨0, Nat.le_refl _, by simpa using h⟩
      · rintro ⟨i, _, hi⟩
        simpa using hi
  | append_singleton init d ih =>
    have hinit : ∀ d' ∈ init, IsDigitGroup d' := fun d' hd' => hm d' (List.mem_append_left _ hd')
    cases n with
    | zero => exact absurd hn (Nat.not_lt_zero _)
    | succ n =>
      have hlen : init.length < n := by
        simp only [List.length_append, List.length_cons, List.length_nil] at hn
        omega
      have htrim : trimMostInsignificantSemver (semverRef name first (init ++ [d])) =
          semverRef name first init := by
        rw [semverRef_snoc]
        have := trim_group (semverRef name first init) d '.' (hm d (by simp)) (by decide)
        simpa using this
      unfold truncations
      rw [if_pos (endsInDigits_semverRef name first _ hf hm), htrim]
      constructor
      · intro h
        rcases List.mem_cons.1 h with h | h
        · exact ⟨(init ++ [d]).length, Nat.le_refl _, by rw [List.take_length]; exact h⟩
        · obtain ⟨i, hi, he⟩ := (ih hinit n hlen).1 h
          refine ⟨i, ?_, ?_⟩
          · simp only [List.length_append, List.length_cons, List.length_nil]; omega
          · rw [he, List.take_append_of_le_length hi]
      · rintro ⟨i, hi, he⟩
        by_cases hfull : i = (init ++ [d]).length
        · rw [hfull, List.take_length] at he
          rw [he]; exact List.mem_cons_self _ _
        · have hi' : i ≤ init.length := by
            simp only [List.length_append, List.length_cons, List.length_nil] at hi hfull
            omega
          apply List.mem_cons_of_mem
          apply (ih hinit n hlen).2
          exact ⟨i, hi', by rw [he, List.take_append_of_le_length hi']⟩

end DepResolver

namespace DepResolver

/-! ## The claims on `deleteReferencesForOrb` -/

theorem Cleared.not_mem {L : List Str} {g1 g2 : Graph} (h : Cleared L g1 g2) {x : Str}
    (hx : x ∈ L) (P : Str) (s : StrSet) (hs : g2.dependenciesMap.get? P = some s) : x ∉ s := by
  rw [h.2.2.2.2 P] at hs
  by_cases hp : P ∈ L
  · rw [if_pos hp] at hs; cases hs
  · rw [if_neg hp] at hs
    cases hg : g1.dependenciesMap.get? P with
    | none => rw [hg] at hs; cases hs
    | some s1 =>
      rw [hg] at hs
      simp only [Option.map_some', Option.some.injEq] at hs
      subst hs
      intro hm
      have := (List.mem_filter.1 hm).2
      simp [hx] at this

theorem Cleared.mem_of_not_mem {L : List Str} {g1 g2 : Graph} (h : Cleared L g1 g2) {x : Str}
    (hx : x ∉ L) (P : Str) (s s' : StrSet) (hs : g1.dependenciesMap.get? P = some s)
    (hs' : g2.dependenciesMap.get? P = some s') (hm : x ∈ s) : x ∈ s' := by
  rw [h.2.2.2.2 P] at hs'
  by_cases hp : P ∈ L
  · rw [if_pos hp] at hs'; cases hs'
  · rw [if_neg hp, hs] at hs'
    simp only [Option.map_some', Option.some.injEq] at hs'
    subst hs'
    exact List.mem_filter.2 ⟨hm, by simp [hx]⟩

theorem clearingForms_semverRef (name first : Str) (more : List Str) (hf : IsDigitGroup first)
    (hm : ∀ d ∈ more, IsDigitGroup d) (x : Str) :
    x ∈ clearingForms (semverRef name first more) ↔
      (∃ i, i ≤ more.length ∧ x = semverRef name first (more.take i)) ∨
        x = name ++ "@volatile".toList := by
  have hvol : replaceVersionByVolatile (semverRef name first more) =
      name ++ "@volatile".toList :=
    replaceVersionByVolatile_at name _ (versionText_no_at first more hf hm)
  unfold clearingForms aliasForms
  rw [hvol]
  induction more using List.reverseRecOn with
  | nil =>
    have htrim : trimMostInsignificantSemver (semverRef name first []) = name ++ ['@'] := by
      have := trim_group name first '@' hf (by decide)
      simpa [semverRef, versionText] using this
    have hstop : ∀ n, truncations n (name ++ ['@']) = [] := by
      intro n
      cases n with
      | zero => rfl
      | succ n =>
        unfold truncations
        rw [endsInDigits_snoc name '@' (by decide)]
        rfl
    rw [htrim, hstop]
    simp
  | append_singleton init d _ =>
    have hinit : ∀ d' ∈ init, IsDigitGroup d' := fun d' hd' => hm d' (List.mem_append_left _ hd')
    have htrim : trimMostInsignificantSemver (semverRef name first (init ++ [d])) =
        semverRef name first init := by
      rw [semverRef_snoc]
      have := trim_group (semverRef name first init) d '.' (hm d (by simp)) (by decide)
      simpa using this
    have hlen : init.length < (semverRef name first (init ++ [d])).length := by
      have := length_semverRef name first (init ++ [d])
      simp only [List.length_append, List.length_cons, List.length_nil] at this
      omega
    rw [htrim]
    simp only [List.mem_cons, List.mem_append, List.not_mem_nil, or_false,
      truncations_semverRef name first init hf hinit _ hlen]
    constructor
    · rintro (h | ⟨i, hi, he⟩ | h)
      · exact Or.inl ⟨(init ++ [d]).length, Nat.le_refl _, by rw [List.take_length]; exact h⟩
      · refine Or.inl ⟨i, ?_, ?_⟩
        · simp only [List.length_append, List.length_cons, List.length_nil]; omega
        · rw [he, List.take_append_of_le_length hi]
      · exact Or.inr h
    · rintro (⟨i, hi, he⟩ | h)
      · by_cases hfull : i = (init ++ [d]).length
        · rw [hfull, List.take_length] at he
          exact Or.inl he
        · have hi' : i ≤ init.length := by
            simp only [List.length_append, List.length_cons, List.length_nil] at hi hfull
            omega
          exact Or.inr (Or.inl ⟨i, hi', by rw [he, List.take_append_of_le_length hi']⟩)
      · exact Or.inr (Or.inr h)

theorem name_not_clearingForm (name first : Str) (more : List Str) (hf : IsDigitGroup first)
    (hm : ∀ d ∈ more, IsDigitGroup d) (x : Str) (hx : x.length ≤ name.length + 1) :
    x ∉ clearingForms (semverRef name first more) := by
  rw [clearingForms_semverRef name first more hf hm]
  have hfl : 1 ≤ first.length := by
    cases hfe : first with
    | nil => exact absurd hfe hf.1
    | cons c tl => simp
  rintro (⟨i, _, he⟩ | he)
  · have := length_semverRef name first (more.take i)
    rw [← he] at this
    omega
  · have := congrArg List.length he
    simp at this
    omega

/-- C5. Version-prefix aliasing.  Let `R` be `name@d1.d2...dk`, the `k`
groups being non-empty groups of digits (`first` is `d1`, `more` lists the
others), and let `1 ≤ j < k`.  In a graph whose reverse index is complete, as
it is in every state of a run of `Resolve`, `deleteReferencesForOrb R` does
the following.
(1) After the call no unmet set holds `name@d1...dj` any more.
(2) The identifiers `name@` and `name` are not among the identifiers that the
call clears, and an unmet set that held one of them before the call and is
still there after it holds it still.
(3) Every package that has an unmet set before the call, and whose ref is not
itself a clearing form of `R`, still has one after it: the set it had without
the clearing forms of `R`.  So that set has lost `name@d1...dj`, has gained
nothing, has kept every identifier that is not a clearing form of `R`, and in
particular has kept `name@` and `name` when it held them.
(4) The call changes `dependenciesMap` only. -/
theorem deleteReferencesForOrb_clears_truncations (g : Graph) (hr : RevIndexed g)
    (name first : Str) (more : List Str) (hf : IsDigitGroup first)
    (hm : ∀ d ∈ more, IsDigitGroup d) (j : Nat) (hj1 : 1 ≤ j) (hj2 : j ≤ more.length) :
    (∀ P s, (deleteReferencesForOrb (semverRef name first more) g).dependenciesMap.get? P
        = some s → semverRef name first (more.take (j - 1)) ∉ s) ∧
    name ++ "@".toList ∉ clearingForms (semverRef name first more) ∧
    name ∉ clearingForms (semverRef name first more) ∧
    (∀ P s s', g.dependenciesMap.get? P = some s →
      (deleteReferencesForOrb (semverRef name first more) g).dependenciesMap.get? P = some s' →
      (name ++ "@".toList ∈ s → name ++ "@".toList ∈ s') ∧ (name ∈ s → name ∈ s')) ∧
    (∀ P s, g.dependenciesMap.get? P = some s →
      P ∉ clearingForms (semverRef name first more) →
      (deleteReferencesForOrb (semverRef name first more) g).dependenciesMap.get? P =
        some (s.filter (fun x => !decide (x ∈ clearingForms (semverRef name first more)))) ∧
      ∃ s', (deleteReferencesForOrb (semverRef name first more) g).dependenciesMap.get? P
          = some s' ∧
        semverRef name first (more.take (j - 1)) ∉ s' ∧
        (∀ x, x ∈ s' → x ∈ s) ∧
        (∀ x, x ∈ s → x ∉ clearingForms (semverRef name first more) → x ∈ s') ∧
        (name ++ "@".toList ∈ s → name ++ "@".toList ∈ s') ∧ (name ∈ s → name ∈ s')) ∧
    (deleteReferencesForOrb (semverRef name first more) g).orbRefMap = g.orbRefMap ∧
    (deleteReferencesForOrb (semverRef name first more) g).resolvedOrder = g.resolvedOrder ∧
    (deleteReferencesForOrb (semverRef name first more) g).dependentsMap = g.dependentsMap := by
  have hc := deleteReferencesForOrb_cleared (semverRef name first more) g hr
  have h1 : name ++ "@".toList ∉ clearingForms (semverRef name first more) :=
    name_not_clearingForm name first more hf hm _ (by simp)
  have h2 : name ∉ clearingForms (semverRef name first more) :=
    name_not_clearingForm name first more hf hm _ (by omega)
  have hj : semverRef name first (more.take (j - 1)) ∈
      clearingForms (semverRef name first more) := by
    rw [clearingForms_semverRef name first more hf hm]
    exact Or.inl ⟨j - 1, by omega, rfl⟩
  refine ⟨?_, h1, h2, ?_, ?_, hc.1, hc.2.1, hc.2.2.1⟩
  · intro P s hs
    exact hc.not_mem hj P s hs
  · intro P s s' hs hs'
    exact ⟨hc.mem_of_not_mem h1 P s s' hs hs', hc.mem_of_not_mem h2 P s s' hs hs'⟩
  · intro P s hs hP
    have hafter : (deleteReferencesForOrb (semverRef name first more) g).dependenciesMap.get? P =
        some (s.filter (fun x => !decide (x ∈ clearingForms (semverRef name first more)))) := by
      rw [hc.2.2.2.2 P, if_neg hP, hs]
      rfl
    refine ⟨hafter, _, hafter, hc.not_mem hj P _ hafter, ?_, ?_,
      hc.mem_of_not_mem h1 P s _ hs hafter, hc.mem_of_not_mem h2 P s _ hs hafter⟩
    · intro x hx
      exact (List.mem_filter.1 hx).1
    · intro x hx hnot
      exact hc.mem_of_not_mem hnot P s _ hs hafter hx

/-- C6. Volatile aliasing.  Let `R` be `p@X`, the text `X` holding no `@`.
In a graph whose reverse index is complete, as it is in every state of a run
of `Resolve`, after `deleteReferencesForOrb R` no unmet set holds `p@volatile`
any more, whatever `X` is. -/
theorem deleteReferencesForOrb_clears_volatile (g : Graph) (hr : RevIndexed g)
    (p X : Str) (hX : '@' ∉ X) (P : Str) (s : StrSet)
    (hs : (deleteReferencesForOrb (p ++ '@' :: X) g).dependenciesMap.get? P = some s) :
    p ++ "@volatile".toList ∉ s := by
  refine (deleteReferencesForOrb_cleared (p ++ '@' :: X) g hr).not_mem ?_ P s hs
  unfold clearingForms aliasForms
  rw [replaceVersionByVolatile_at p X hX]
  simp

end DepResolver

namespace BulkImporter

/-! ## The importer -/

theorem Continues.followedBy {σ : Type} {s1 s2 s3 : Session σ} {a b : List Call}
    (h1 : Continues s1 s2 a) (h2 : Continues s2 s3 b) : Continues s1 s3 (a ++ b) :=
  ⟨h2.1.trans h1.1, h2.2.1.trans h1.2.1, by rw [h2.2.2, h1.2.2, List.append_assoc]⟩

theorem ensureNamespace_continues {σ : Type} (reg : Registry σ) (ns : Str) (s : Session σ) :
    ∃ added, Continues s (ensureNamespace reg ns s).2 added ∧
      ∀ c ∈ added, c.isPublish = false := by
  unfold ensureNamespace
  cases s.nsExists.get? ns with
  | some _ => exact ⟨[], ⟨rfl, rfl, (List.append_nil _).symm⟩, fun _ h => nomatch h⟩
  | none =>
    simp only
    rcases reg.namespaceExists ns s.remote with ⟨reply, remote1⟩
    cases reply with
    | error err =>
      exact ⟨[Call.namespaceExists ns], ⟨rfl, rfl, rfl⟩, by simp [Call.isPublish]⟩
    | ok doesExist =>
      simp only
      cases doesExist with
      | true => exact ⟨[Call.namespaceExists ns], ⟨rfl, rfl, rfl⟩, by simp [Call.isPublish]⟩
      | false =>
        simp only [Bool.false_eq_true, if_false]
        rcases reg.createImportedNamespace ns remote1 with ⟨reply2, remote2⟩
        cases reply2 with
        | error err =>
          exact ⟨[Call.namespaceExists ns, Call.createImportedNamespace ns],
            ⟨rfl, rfl, by simp⟩, by simp [Call.isPublish]⟩
        | ok _ =>
          exact ⟨[Call.namespaceExists ns, Call.createImportedNamespace ns],
            ⟨rfl, rfl, by simp⟩, by simp [Call.isPublish]⟩

theorem ensureFamily_continues {σ : Type} (reg : Registry σ) (orb : VersionedOrb)
    (ns shortname : Str) (s : Session σ) :
    ∃ added, Continues s (ensureFamily reg orb ns shortname s).2 added ∧
      ∀ c ∈ added, c.isPublish = false := by
  unfold ensureFamily
  cases s.orbIDs.get? orb.Name with
  | some _ => exact ⟨[], ⟨rfl, rfl, (List.append_nil _).symm⟩, fun _ h => nomatch h⟩
  | none =>
    simp only
    rcases OrbIDUnsafe reg orb.Name s.remote with ⟨reply, remote1⟩
    cases reply with
    | error err => exact ⟨[Call.orbId orb.Name], ⟨rfl, rfl, rfl⟩, by simp [Call.isPublish]⟩
    | ok orbID =>
      simp only
      by_cases hid : orbID = []
      · simp only [hid, if_true]
        rcases reg.createImportedOrb ns shortname remote1 with ⟨reply2, remote2⟩
        cases reply2 with
        | error err =>
          exact ⟨[Call.orbId orb.Name, Call.createImportedOrb ns shortname],
            ⟨rfl, rfl, by simp⟩, by simp [Call.isPublish]⟩
        | ok newID =>
          exact ⟨[Call.orbId orb.Name, Call.createImportedOrb ns shortname],
            ⟨rfl, rfl, by simp⟩, by simp [Call.isPublish]⟩
      · simp only [hid, if_false]
        exact ⟨[Call.orbId orb.Name], ⟨rfl, rfl, rfl⟩, by simp [Call.isPublish]⟩

/-- One attempt leaves the two lists alone; it makes a publish call only when
it ends with the publish call, and then this is its last call. -/
theorem attempt_continues {σ : Type} (reg : Registry σ) (orb : VersionedOrb) (s : Session σ) :
    ∃ before, (∀ c ∈ before, c.isPublish = false) ∧
      (((attempt reg orb s).1 = .published ∨ ∃ e, (attempt reg orb s).1 = .publishFailed e) →
        ∃ orbID, Continues s (attempt reg orb s).2
          (before ++ [Call.orbImportVersion orb.Source orbID orb.Version])) ∧
      (((attempt reg orb s).1 = .alreadyThere ∨ ∃ e, (attempt reg orb s).1 = .failed e) →
        Continues s (attempt reg orb s).2 before) := by
  unfold attempt
  simp only
  obtain ⟨a1, h1, p1⟩ := ensureNamespace_continues reg ((orb.Name.splitOn '/').headD []) s
  generalize ensureNamespace reg ((orb.Name.splitOn '/').headD []) s = step1 at h1 ⊢
  obtain ⟨r1, s1⟩ := step1
  cases r1 with
  | some lastErr =>
    refine ⟨a1, p1, ?_, fun _ => h1⟩
    rintro (h | ⟨e, h⟩) <;> cases h
  | none =>
    simp only
    obtain ⟨a2, h2, p2⟩ := ensureFamily_continues reg orb ((orb.Name.splitOn '/').headD [])
      (List.intercalate ['/'] (orb.Name.splitOn '/').tail) s1
    generalize ensureFamily reg orb ((orb.Name.splitOn '/').headD [])
      (List.intercalate ['/'] (orb.Name.splitOn '/').tail) s1 = step2 at h2 ⊢
    obtain ⟨r2, s2⟩ := step2
    have h12 := Continues.followedBy h1 h2
    have p12 : ∀ c ∈ a1 ++ a2, c.isPublish = false := by
      intro c hc
      rcases List.mem_append.1 hc with hc | hc
      · exact p1 c hc
      · exact p2 c hc
    cases r2 with
    | error lastErr =>
      refine ⟨a1 ++ a2, p12, ?_, fun _ => h12⟩
      rintro (h | ⟨e, h⟩) <;> cases h
    | ok orbID =>
      simp only
      have p123 : ∀ c ∈ (a1 ++ a2) ++ [Call.orbInfo orb.Ref], c.isPublish = false := by
        intro c hc
        rcases List.mem_append.1 hc with hc | hc
        · exact p12 c hc
        · rw [List.mem_singleton] at hc; subst hc; rfl
      rcases reg.orbInfo orb.Ref s2.remote with ⟨r3, remote3⟩
      cases r3 with
      | found =>
        refine ⟨(a1 ++ a2) ++ [Call.orbInfo orb.Ref], p123, ?_, fun _ => ?_⟩
        · rintro (h | ⟨e, h⟩) <;> cases h
        · exact Continues.followedBy h12 ⟨rfl, rfl, rfl⟩
      | failed err =>
        refine ⟨(a1 ++ a2) ++ [Call.orbInfo orb.Ref], p123, ?_, fun _ => ?_⟩
        · rintro (h | ⟨e, h⟩) <;> cases h
        · exact Continues.followedBy h12 ⟨rfl, rfl, rfl⟩
      | versionNotExists =>
        simp only
        rcases reg.orbImportVersion orb.Source orbID orb.Version remote3 with ⟨r4, remote4⟩
        cases r4 with
        | error err =>
          refine ⟨(a1 ++ a2) ++ [Call.orbInfo orb.Ref], p123, fun _ => ⟨orbID, ?_⟩, ?_⟩
          · have hlast : Continues s2 { s2 with
                remote := remote4
                calls := s2.calls ++ [Call.orbInfo orb.Ref] ++
                  [Call.orbImportVersion orb.Source orbID orb.Version] }
                [Call.orbInfo orb.Ref, Call.orbImportVersion orb.Source orbID orb.Version] :=
              ⟨rfl, rfl, by simp⟩
            have := Continues.followedBy h12 hlast
            simpa [List.append_assoc] using this
          · rintro (h | ⟨e, h⟩) <;> cases h
        | ok _ =>
          refine ⟨(a1 ++ a2) ++ [Call.orbInfo orb.Ref], p123, fun _ => ⟨orbID, ?_⟩, ?_⟩
          · have hlast : Continues s2 { s2 with
                remote := remote4
                calls := s2.calls ++ [Call.orbInfo orb.Ref] ++
                  [Call.orbImportVersion orb.Source orbID orb.Version] }
                [Call.orbInfo orb.Ref, Call.orbImportVersion orb.Source orbID orb.Version] :=
              ⟨rfl, rfl, by simp⟩
            have := Continues.followedBy h12 hlast
            simpa [List.append_assoc] using this
          · rintro (h | ⟨e, h⟩) <;> cases h

end BulkImporter

namespace BulkImporter

theorem attempt_lists {σ : Type} (reg : Registry σ) (orb : VersionedOrb) (s : Session σ) :
    (attempt reg orb s).2.availableOrbRefs = s.availableOrbRefs ∧
    (attempt reg orb s).2.droppedOrbRefs = s.droppedOrbRefs := by
  obtain ⟨before, _, h1, h2⟩ := attempt_continues reg orb s
  cases he : (attempt reg orb s).1 with
  | failed e =>
    have := h2 (Or.inr ⟨e, he⟩)
    exact ⟨this.1, this.2.1⟩
  | publishFailed e =>
    obtain ⟨_, this⟩ := h1 (Or.inr ⟨e, he⟩)
    exact ⟨this.1, this.2.1⟩
  | published =>
    obtain ⟨_, this⟩ := h1 (Or.inl he)
    exact ⟨this.1, this.2.1⟩
  | alreadyThere =>
    have := h2 (Or.inl he)
    exact ⟨this.1, this.2.1⟩

/-- When the loop over the attempts ends with a nil `lastErr`, the ref of the
package was appended to exactly one of the two lists, once. -/
theorem retryLoop_lists {σ : Type} (reg : Registry σ) (orb : VersionedOrb) (left iter : Nat)
    (lastErr : Option ImportError) (s s' : Session σ)
    (h : retryLoop reg orb left iter lastErr s = (none, s')) :
    (lastErr = none ∧ left = 0) ∨
    (s'.availableOrbRefs = s.availableOrbRefs ++ [orb.Ref] ∧
      s'.droppedOrbRefs = s.droppedOrbRefs) ∨
    (s'.availableOrbRefs = s.availableOrbRefs ∧
      s'.droppedOrbRefs = s.droppedOrbRefs ++ [orb.Ref]) := by
  induction left generalizing iter lastErr s with
  | zero =>
    unfold retryLoop at h
    exact Or.inl ⟨(Prod.mk.inj h).1, rfl⟩
  | succ n ih =>
    unfold retryLoop at h
    obtain ⟨ha, hd⟩ := attempt_lists reg orb s
    generalize attempt reg orb s = step at h ha hd
    obtain ⟨ended, s1⟩ := step
    simp only at ha hd
    right
    cases ended with
    | failed e =>
      simp only at h
      rcases ih _ _ _ h with ⟨hc, _⟩ | h' | h'
      · cases hc
      · exact Or.inl (by rw [← ha, ← hd]; exact h')
      · exact Or.inr (by rw [← ha, ← hd]; exact h')
    | publishFailed e =>
      simp only at h
      by_cases hlast : iter + 1 = maxImportRetries
      · rw [if_pos hlast] at h
        have := (Prod.mk.inj h).2
        subst this
        exact Or.inr ⟨ha, by rw [← hd]⟩
      · rw [if_neg hlast] at h
        rcases ih _ _ _ h with ⟨hc, _⟩ | h' | h'
        · cases hc
        · exact Or.inl (by rw [← ha, ← hd]; exact h')
        · exact Or.inr (by rw [← ha, ← hd]; exact h')
    | published =>
      simp only at h
      have := (Prod.mk.inj h).2
      subst this
      exact Or.inl ⟨by rw [← ha], hd⟩
    | alreadyThere =>
      simp only at h
      have := (Prod.mk.inj h).2
      subst this
      exact Or.inl ⟨by rw [← ha], hd⟩

theorem importLoop_perm {σ : Type} (reg : Registry σ) (orbs : List VersionedOrb)
    (s s' : Session σ) (h : importLoop reg orbs s = (none, s')) :
    (s'.availableOrbRefs ++ s'.droppedOrbRefs).Perm
      ((s.availableOrbRefs ++ s.droppedOrbRefs) ++ orbs.map VersionedOrb.Ref) := by
  induction orbs generalizing s with
  | nil =>
    unfold importLoop at h
    have := (Prod.mk.inj h).2
    subst this
    simp
  | cons orb rest ih =>
    unfold importLoop at h
    cases hr : retryLoop reg orb maxImportRetries 0 none s with
    | mk lastErr s1 =>
      rw [hr] at h
      cases lastErr with
      | some e => simp only at h; cases (Prod.mk.inj h).1
      | none =>
        simp only at h
        refine (ih s1 h).trans ?_
        rcases retryLoop_lists reg orb _ _ _ s s1 hr with ⟨_, hc⟩ | ⟨h1, h2⟩ | ⟨h1, h2⟩
        · cases hc
        · rw [h1, h2, List.map_cons]
          have e1 : (s.availableOrbRefs ++ [orb.Ref] ++ s.droppedOrbRefs) ++
              rest.map VersionedOrb.Ref =
              s.availableOrbRefs ++
                orb.Ref :: (s.droppedOrbRefs ++ rest.map VersionedOrb.Ref) := by
            simp
          have e2 : (s.availableOrbRefs ++ s.droppedOrbRefs) ++
              orb.Ref :: rest.map VersionedOrb.Ref =
              s.availableOrbRefs ++
                (s.droppedOrbRefs ++ orb.Ref :: rest.map VersionedOrb.Ref) := by
            simp
          rw [e1, e2]
          exact List.Perm.append_left _ List.perm_middle.symm
        · rw [h1, h2, List.map_cons]
          have e1 : (s.availableOrbRefs ++ (s.droppedOrbRefs ++ [orb.Ref])) ++
              rest.map VersionedOrb.Ref =
              (s.availableOrbRefs ++ s.droppedOrbRefs) ++
                orb.Ref :: rest.map VersionedOrb.Ref := by
            simp
          rw [e1]

/-- C3. Importer partition.  For packages with pairwise distinct refs and any
way for the registry to respond, a run of `ImportOrbsWithRetries` that returns a
nil error returns two lists whose concatenation is a rearrangement of the
list of the input refs and has no duplicates (every input ref occurs in it
exactly once, and nothing else does), and no ref is in both lists. -/
theorem ImportOrbsWithRetries_partition {σ : Type} (reg : Registry σ) (remote : σ)
    (orbs : List VersionedOrb) (hn : (orbs.map VersionedOrb.Ref).Nodup)
    (herr : (ImportOrbsWithRetries reg remote orbs).err = none) :
    ∃ available dropped,
      (ImportOrbsWithRetries reg remote orbs).availableOrbRefs = some available ∧
      (ImportOrbsWithRetries reg remote orbs).droppedOrbRefs = some dropped ∧
      (available ++ dropped).Perm (orbs.map VersionedOrb.Ref) ∧
      (available ++ dropped).Nodup ∧
      (∀ x, x ∈ available ++ dropped ↔ x ∈ orbs.map VersionedOrb.Ref) ∧
      (∀ x, x ∈ available → x ∉ dropped) := by
  unfold ImportOrbsWithRetries at herr ⊢
  cases hl : importLoop reg orbs (Session.start remote) with
  | mk failure s =>
    rw [hl] at herr
    cases failure with
    | some e => cases herr
    | none =>
      simp only
      have hperm : (s.availableOrbRefs ++ s.droppedOrbRefs).Perm
          (orbs.map VersionedOrb.Ref) := by
        have := importLoop_perm reg orbs _ s hl
        simpa [Session.start] using this
      have hnodup : (s.availableOrbRefs ++ s.droppedOrbRefs).Nodup := hperm.nodup_iff.2 hn
      refine ⟨s.availableOrbRefs, s.droppedOrbRefs, rfl, rfl, hperm, hnodup,
        fun x => hperm.mem_iff, ?_⟩
      intro x ha hd
      exact (List.nodup_append.1 hnodup).2.2 ha hd

/-- C10. Publish failure is droppable.  Let each of the three attempts for
the package `orb` end with a failing publish call (`s1`, `s2`, `s3` being the
variables after these attempts).  Then the loop over the attempts ends with a
nil `lastErr`, having appended the ref to `droppedOrbRefs` and nothing to
`availableOrbRefs`; the calls it made contain exactly `maxImportRetries = 3`
publish calls, all for the source and version of `orb`; and
`ImportOrbsWithRetries` goes on with the packages after `orb`. -/
theorem publish_failure_is_dropped {σ : Type} (reg : Registry σ) (orb : VersionedOrb)
    (rest : List VersionedOrb) (s0 s1 s2 s3 : Session σ) (e1 e2 e3 : ImportError)
    (h1 : attempt reg orb s0 = (.publishFailed e1, s1))
    (h2 : attempt reg orb s1 = (.publishFailed e2, s2))
    (h3 : attempt reg orb s2 = (.publishFailed e3, s3)) :
    retryLoop reg orb maxImportRetries 0 none s0 =
      (none, { s3 with droppedOrbRefs := s0.droppedOrbRefs ++ [orb.Ref] }) ∧
    s3.availableOrbRefs = s0.availableOrbRefs ∧
    s3.droppedOrbRefs = s0.droppedOrbRefs ∧
    (∃ added, s3.calls = s0.calls ++ added ∧ added.countP Call.isPublish = maxImportRetries ∧
      ∀ c ∈ added, c.isPublish = true →
        ∃ orbID, c = Call.orbImportVersion orb.Source orbID orb.Version) ∧
    importLoop reg (orb :: rest) s0 =
      importLoop reg rest { s3 with droppedOrbRefs := s0.droppedOrbRefs ++ [orb.Ref] } := by
  have step : ∀ (s s' : Session σ) (e : ImportError), attempt reg orb s = (.publishFailed e, s') →
      ∃ before orbID, (∀ c ∈ before, c.isPublish = false) ∧
        Continues s s' (before ++ [Call.orbImportVersion orb.Source orbID orb.Version]) := by
    intro s s' e h
    obtain ⟨before, hb, hp, _⟩ := attempt_continues reg orb s
    rw [h] at hp
    obtain ⟨orbID, hc⟩ := hp (Or.inr ⟨e, rfl⟩)
    exact ⟨before, orbID, hb, hc⟩
  obtain ⟨b1, i1, p1, c1⟩ := step s0 s1 e1 h1
  obtain ⟨b2, i2, p2, c2⟩ := step s1 s2 e2 h2
  obtain ⟨b3, i3, p3, c3⟩ := step s2 s3 e3 h3
  have c := Continues.followedBy (Continues.followedBy c1 c2) c3
  have hloop : retryLoop reg orb maxImportRetries 0 none s0 =
      (none, { s3 with droppedOrbRefs := s0.droppedOrbRefs ++ [orb.Ref] }) := by
    simp [retryLoop, maxImportRetries, h1, h2, h3, c.2.1]
  have hcount : ∀ (b : List Call) (p : Call), (∀ c ∈ b, c.isPublish = false) →
      p.isPublish = true → (b ++ [p]).countP Call.isPublish = 1 := by
    intro b p hb hp
    rw [List.countP_append, List.countP_eq_zero.2 (fun c hc => by simp [hb c hc])]
    simp [hp]
  refine ⟨hloop, c.1, c.2.1, ⟨_, c.2.2, ?_, ?_⟩, ?_⟩
  · rw [List.countP_append, List.countP_append,
      hcount b1 (Call.orbImportVersion orb.Source i1 orb.Version) p1 rfl,
      hcount b2 (Call.orbImportVersion orb.Source i2 orb.Version) p2 rfl,
      hcount b3 (Call.orbImportVersion orb.Source i3 orb.Version) p3 rfl]
    rfl
  · intro c hc hpub
    have key : ∀ (b : List Call) (i : Str), (∀ c ∈ b, c.isPublish = false) →
        c ∈ b ++ [Call.orbImportVersion orb.Source i orb.Version] →
        ∃ orbID, c = Call.orbImportVersion orb.Source orbID orb.Version := by
      intro b i hb hm
      rcases List.mem_append.1 hm with hm | hm
      · rw [hb c hm] at hpub; cases hpub
      · exact ⟨i, List.mem_singleton.1 hm⟩
    rcases List.mem_append.1 hc with hc | hc
    · rcases List.mem_append.1 hc with hc | hc
      · exact key b1 i1 p1 hc
      · exact key b2 i2 p2 hc
    · exact key b3 i3 p3 hc
  · show importLoop reg (orb :: rest) s0 = _
    rw [importLoop, hloop]

end BulkImporter

/-! ## The claims at concrete inputs -/

namespace DepResolver

theorem Resolve_dependency_first_witness :
    IsVisitOrder id ∧ (Examples.chain.map VersionedOrb.Ref).Nodup ∧
    (Resolve id Examples.unmarshal Examples.chain).resolvedOrder =
      [some (Examples.orb "ns/c@1.0.7" "")] ++ some (Examples.orb "ns/b@1.0.0" "ns/c@1.0") ::
        [some (Examples.orb "ns/a@1.2.3" "ns/b@volatile,ns/c@1")] ∧
    ∃ Q, some Q ∈ [some (Examples.orb "ns/c@1.0.7" "")] ∧ Q ∈ Examples.chain ∧
      "ns/c@1.0".toList ∈ clearingForms Q.Ref ∧
      ("ns/c@1.0".toList = Q.Ref ∨
        (endsInDigits "ns/c@1.0".toList = true ∧ "ns/c@1.0".toList <+: Q.Ref) ∨
        "ns/c@1.0".toList = replaceVersionByVolatile Q.Ref) :=
  ⟨fun l => List.Perm.refl l, by decide, by decide,
    Resolve_dependency_first id Examples.unmarshal Examples.chain (fun l => List.Perm.refl l)
      (by decide) [some (Examples.orb "ns/c@1.0.7" "")]
      [some (Examples.orb "ns/a@1.2.3" "ns/b@volatile,ns/c@1")]
      (Examples.orb "ns/b@1.0.0" "ns/c@1.0") (by decide) "ns/c@1.0".toList (by decide)⟩

theorem Resolve_illegible_excluded_witness :
    (Examples.blocked.map VersionedOrb.Ref).Nodup ∧
    Examples.unmarshal (Examples.orb "ns/a@1.0.0" "!").Source = none ∧
    "ns/a@1.0.0".toList ∈ (Resolve id Examples.unmarshal Examples.blocked).illegible ∧
    some (Examples.orb "ns/a@1.0.0" "!") ∉
      (Resolve id Examples.unmarshal Examples.blocked).resolvedOrder ∧
    (∀ Q, some Q ∈ (Resolve id Examples.unmarshal Examples.blocked).resolvedOrder →
      Q.Ref ≠ "ns/a@1.0.0".toList) ∧
    "ns/a@1.0.0".toList ∉ (Resolve id Examples.unmarshal Examples.blocked).unresolved.keys ∧
    (∀ k ∈ (Resolve id Examples.unmarshal Examples.blocked).illegible,
      ∀ Q, some Q ∈ (Resolve id Examples.unmarshal Examples.blocked).resolvedOrder →
        Q.Ref ≠ k) :=
  ⟨by decide, rfl,
    Resolve_illegible_excluded id Examples.unmarshal Examples.blocked
      (fun l => List.Perm.refl l) (by decide) (Examples.orb "ns/a@1.0.0" "!") (by decide) rfl⟩

theorem Resolve_mutual_witness :
    (Resolve id Examples.unmarshal
      [Examples.orb "ns/a@1.0.0" "ns/b@1.0.0", Examples.orb "ns/b@1.0.0" "ns/a@1.0.0"]).resolvedOrder
      = [] ∧
    (Resolve id Examples.unmarshal
      [Examples.orb "ns/a@1.0.0" "ns/b@1.0.0", Examples.orb "ns/b@1.0.0" "ns/a@1.0.0"]).unresolved.keys
      = ["ns/a@1.0.0".toList, "ns/b@1.0.0".toList] ∧
    (∃ l, (Resolve id Examples.unmarshal
      [Examples.orb "ns/a@1.0.0" "ns/b@1.0.0",
        Examples.orb "ns/b@1.0.0" "ns/a@1.0.0"]).unresolved.get? "ns/a@1.0.0".toList = some l ∧
      "ns/b@1.0.0".toList ∈ l) ∧
    (∃ l, (Resolve id Examples.unmarshal
      [Examples.orb "ns/a@1.0.0" "ns/b@1.0.0",
        Examples.orb "ns/b@1.0.0" "ns/a@1.0.0"]).unresolved.get? "ns/b@1.0.0".toList = some l ∧
      "ns/a@1.0.0".toList ∈ l) :=
  Resolve_mutual id Examples.unmarshal (Examples.orb "ns/a@1.0.0" "ns/b@1.0.0")
    (Examples.orb "ns/b@1.0.0" "ns/a@1.0.0") (fun l => List.Perm.refl l) (by decide)
    (Option.ne_none_iff_isSome.2 (by decide)) (Option.ne_none_iff_isSome.2 (by decide))
    (by decide) (by decide)

theorem Resolve_unresolved_residue_witness :
    (Examples.blocked.map VersionedOrb.Ref).Nodup ∧
    ("ns/p@1.0.0".toList, ["ns/a@1.0.0".toList]) ∈
      (Resolve id Examples.unmarshal Examples.blocked).unresolved ∧
    ∃ P ∈ Examples.blocked, P.Ref = "ns/p@1.0.0".toList ∧
      ["ns/a@1.0.0".toList] ≠ [] ∧ ["ns/a@1.0.0".toList].Nodup ∧
      ∀ x, x ∈ ["ns/a@1.0.0".toList] ↔ (x ∈ declaredIds Examples.unmarshal P ∧
        ∀ Q, some Q ∈ (Resolve id Examples.unmarshal Examples.blocked).resolvedOrder →
          x ∉ clearingForms Q.Ref) :=
  ⟨by decide, by decide,
    Resolve_unresolved_residue id Examples.unmarshal Examples.blocked
      (fun l => List.Perm.refl l) (by decide) "ns/p@1.0.0".toList ["ns/a@1.0.0".toList]
      (by decide)⟩

theorem blocked_order :
    (Resolve id Examples.unmarshal Examples.blocked).resolvedOrder =
      [some (Examples.orb "ns/q@1.0.0" "")] := by
  decide

theorem Resolve_illegible_dependent_witness :
    (Examples.blocked.map VersionedOrb.Ref).Nodup ∧
    Examples.unmarshal (Examples.orb "ns/a@1.0.0" "!").Source = none ∧
    "ns/a@1.0.0".toList ∈
      declaredIds Examples.unmarshal (Examples.orb "ns/p@1.0.0" "ns/a@1.0.0") ∧
    some (Examples.orb "ns/p@1.0.0" "ns/a@1.0.0") ∉
      (Resolve id Examples.unmarshal Examples.blocked).resolvedOrder ∧
    ((∀ Q, some Q ∈ (Resolve id Examples.unmarshal Examples.blocked).resolvedOrder →
        (Examples.orb "ns/p@1.0.0" "ns/a@1.0.0").Ref ∉ aliasForms Q.Ref) →
      ∃ l, ((Examples.orb "ns/p@1.0.0" "ns/a@1.0.0").Ref, l) ∈
          (Resolve id Examples.unmarshal Examples.blocked).unresolved ∧
        (Examples.orb "ns/a@1.0.0" "!").Ref ∈ l) :=
  ⟨by decide, rfl, by decide,
    Resolve_illegible_dependent id Examples.unmarshal Examples.blocked
      (fun l => List.Perm.refl l) (by decide) (Examples.orb "ns/p@1.0.0" "ns/a@1.0.0")
      (Examples.orb "ns/a@1.0.0" "!") (by decide) (by decide) rfl
      (Option.ne_none_iff_isSome.2 (by decide)) (by decide)
      (by
        intro Q hQ
        rw [blocked_order, List.mem_singleton] at hQ
        cases hQ
        decide)⟩

/-- C8 as stated fails.  The source of `ns/a@1` does not parse and `ns/p@1`,
which parses, declares `ns/a@1`; yet `ns/p@1` stands in the ordered sequence
(and the unresolved map is empty): `ns/a@1` is a truncation of the ref of
`ns/a@1.2`, and was cleared when that package was appended. -/
theorem Resolve_illegible_dependent_counterexample :
    IsVisitOrder id ∧ (Examples.aliasOfIllegible.map VersionedOrb.Ref).Nodup ∧
    Examples.orb "ns/p@1" "ns/a@1" ∈ Examples.aliasOfIllegible ∧
    Examples.orb "ns/a@1" "!" ∈ Examples.aliasOfIllegible ∧
    Examples.unmarshal (Examples.orb "ns/a@1" "!").Source = none ∧
    Examples.unmarshal (Examples.orb "ns/p@1" "ns/a@1").Source ≠ none ∧
    (Examples.orb "ns/a@1" "!").Ref ∈
      declaredIds Examples.unmarshal (Examples.orb "ns/p@1" "ns/a@1") ∧
    ¬ (some (Examples.orb "ns/p@1" "ns/a@1") ∉
        (Resolve id Examples.unmarshal Examples.aliasOfIllegible).resolvedOrder ∧
      ∃ l, ((Examples.orb "ns/p@1" "ns/a@1").Ref, l) ∈
          (Resolve id Examples.unmarshal Examples.aliasOfIllegible).unresolved ∧
        (Examples.orb "ns/a@1" "!").Ref ∈ l) ∧
    (Resolve id Examples.unmarshal Examples.aliasOfIllegible).resolvedOrder =
      [some (Examples.orb "ns/a@1.2" ""), some (Examples.orb "ns/p@1" "ns/a@1")] ∧
    (Resolve id Examples.unmarshal Examples.aliasOfIllegible).unresolved = [] :=
  ⟨fun l => List.Perm.refl l, by decide, by decide, by decide, rfl,
    Option.ne_none_iff_isSome.2 (by decide), by decide, fun h => h.1 (by decide),
    by decide, by decide⟩

/-- C2 at a failing input.  The three packages parse, have distinct refs, and
in the order given each declares only clearing forms of earlier ones
(`ns/a@1` declares `ns/c@1`); yet `ns/a@1` is in neither part of the result:
its entry of `dependenciesMap` is deleted when `ns/a@1.2`, of which its ref is
a truncation, is appended. -/
theorem Resolve_loses_shadowed_package :
    (Examples.shadowed.map VersionedOrb.Ref).Nodup ∧
    (∀ o ∈ Examples.shadowed, (Examples.unmarshal o.Source).isSome = true) ∧
    Examples.shadowed.map (declaredIds Examples.unmarshal) = [[], [], ["ns/c@1".toList]] ∧
    "ns/c@1".toList ∈ clearingForms (Examples.orb "ns/c@1" "").Ref ∧
    (Resolve id Examples.unmarshal Examples.shadowed).resolvedOrder =
      [some (Examples.orb "ns/c@1" ""), some (Examples.orb "ns/a@1.2" "")] ∧
    (Resolve List.reverse Examples.unmarshal Examples.shadowed).resolvedOrder =
      [some (Examples.orb "ns/a@1.2" ""), some (Examples.orb "ns/c@1" "")] ∧
    (Resolve id Examples.unmarshal Examples.shadowed).unresolved = [] ∧
    (Resolve id Examples.unmarshal Examples.shadowed).illegible = [] :=
  ⟨by decide, by decide, by decide, by decide, by decide, by decide, by decide, by decide⟩

theorem chainGraph_revIndexed : RevIndexed Examples.chainGraph :=
  (initMaps_spec Examples.unmarshal Examples.chain (by decide)).revIndexed

theorem prefixedGraph_revIndexed : RevIndexed Examples.prefixedGraph :=
  (initMaps_spec Examples.unmarshal Examples.prefixed (by decide)).revIndexed

theorem deleteReferencesForOrb_clears_truncations_witness :
    RevIndexed Examples.prefixedGraph ∧ IsDigitGroup "1".toList ∧
    semverRef "ns/b".toList "1".toList ["2".toList, "7".toList] = "ns/b@1.2.7".toList ∧
    semverRef "ns/b".toList "1".toList (["2".toList, "7".toList].take (2 - 1)) =
      "ns/b@1.2".toList ∧
    Examples.prefixedGraph.dependenciesMap.get? "ns/p@1.0.0".toList =
      some ["ns/b@1.2".toList, "ns/b@".toList, "ns/b".toList] ∧
    "ns/p@1.0.0".toList ∉ clearingForms "ns/b@1.2.7".toList ∧
    (deleteReferencesForOrb "ns/b@1.2.7".toList Examples.prefixedGraph).dependenciesMap.get?
      "ns/p@1.0.0".toList = some ["ns/b@".toList, "ns/b".toList] ∧
    (deleteReferencesForOrb "ns/b@1.2.7".toList Examples.prefixedGraph).dependentsMap =
      Examples.prefixedGraph.dependentsMap ∧
    (∀ P s, (deleteReferencesForOrb "ns/b@1.2.7".toList
        Examples.prefixedGraph).dependenciesMap.get? P = some s → "ns/b@1.2".toList ∉ s) :=
  have h := deleteReferencesForOrb_clears_truncations Examples.prefixedGraph
    prefixedGraph_revIndexed "ns/b".toList "1".toList ["2".toList, "7".toList] (by decide)
    (by decide) 2 (by decide) (by decide)
  ⟨prefixedGraph_revIndexed, by decide, by decide, by decide, by decide, by decide,
    (h.2.2.2.2.1 "ns/p@1.0.0".toList ["ns/b@1.2".toList, "ns/b@".toList, "ns/b".toList]
      (by decide) (by decide)).1.trans (by decide),
    h.2.2.2.2.2.2.2, h.1⟩

theorem deleteReferencesForOrb_clears_volatile_witness :
    RevIndexed Examples.chainGraph ∧ '@' ∉ "1.0.0".toList ∧
    Examples.chainGraph.dependenciesMap.get? "ns/a@1.2.3".toList =
      some ["ns/b@volatile".toList, "ns/c@1".toList] ∧
    (deleteReferencesForOrb ("ns/b".toList ++ '@' :: "1.0.0".toList)
      Examples.chainGraph).dependenciesMap.get? "ns/a@1.2.3".toList =
        some ["ns/c@1".toList] ∧
    "ns/b".toList ++ "@volatile".toList ∉ ["ns/c@1".toList] :=
  ⟨chainGraph_revIndexed, by decide, by decide, by decide,
    deleteReferencesForOrb_clears_volatile Examples.chainGraph chainGraph_revIndexed
      "ns/b".toList "1.0.0".toList (by decide) "ns/a@1.2.3".toList ["ns/c@1".toList]
      (by decide)⟩

end DepResolver

namespace BulkImporter

theorem ImportOrbsWithRetries_partition_witness :
    (Examples.cargo.map VersionedOrb.Ref).Nodup ∧
    (ImportOrbsWithRetries Examples.pickyRegistry () Examples.cargo).err = none ∧
    ∃ available dropped,
      (ImportOrbsWithRetries Examples.pickyRegistry () Examples.cargo).availableOrbRefs
        = some available ∧
      (ImportOrbsWithRetries Examples.pickyRegistry () Examples.cargo).droppedOrbRefs
        = some dropped ∧
      (available ++ dropped).Perm (Examples.cargo.map VersionedOrb.Ref) ∧
      (available ++ dropped).Nodup ∧
      (∀ x, x ∈ available ++ dropped ↔ x ∈ Examples.cargo.map VersionedOrb.Ref) ∧
      (∀ x, x ∈ available → x ∉ dropped) :=
  ⟨by decide, by decide,
    ImportOrbsWithRetries_partition Examples.pickyRegistry () Examples.cargo (by decide)
      (by decide)⟩

theorem publish_failure_is_dropped_witness :
    (ImportOrbsWithRetries Examples.pickyRegistry () Examples.cargo).droppedOrbRefs =
      some ["ns/b@1.0.0".toList] ∧
    (ImportOrbsWithRetries Examples.pickyRegistry () Examples.cargo).availableOrbRefs =
      some ["ns/a@1.0.0".toList, "ns/c@1.0.0".toList] ∧
    retryLoop Examples.pickyRegistry (Examples.orb "ns/b@1.0.0" "bad") maxImportRetries 0 none
        (Session.start ()) =
      (none, { (attempt Examples.pickyRegistry (Examples.orb "ns/b@1.0.0" "bad")
          (attempt Examples.pickyRegistry (Examples.orb "ns/b@1.0.0" "bad")
            (attempt Examples.pickyRegistry (Examples.orb "ns/b@1.0.0" "bad")
              (Session.start ())).2).2).2 with
        droppedOrbRefs := (Session.start ()).droppedOrbRefs ++ ["ns/b@1.0.0".toList] }) :=
  ⟨by decide, by decide,
    (publish_failure_is_dropped Examples.pickyRegistry (Examples.orb "ns/b@1.0.0" "bad")
      [Examples.orb "ns/c@1.0.0" ""] (Session.start ()) _ _ _
      (.publishing "ns/b@1.0.0".toList true "ERROR IN CONFIG FILE: bad".toList)
      (.publishing "ns/b@1.0.0".toList true "ERROR IN CONFIG FILE: bad".toList)
      (.publishing "ns/b@1.0.0".toList true "ERROR IN CONFIG FILE: bad".toList)
      rfl rfl rfl).1⟩

end BulkImporter

namespace DepResolver

/-! ## The loops end within their fuel -/

theorem trim_length_lt (p : Str) (h : endsInDigits p = true) :
    (trimMostInsignificantSemver p).length < p.length := by
  unfold endsInDigits at h
  unfold trimMostInsignificantSemver
  cases hr : p.reverse with
  | nil => rw [hr] at h; cases h
  | cons c tl =>
    rw [hr] at h
    simp only at h
    have hlen : p.length = tl.length + 1 := by
      rw [← List.length_reverse, hr]; rfl
    have hdrop : List.dropWhile isDigit (c :: tl) = List.dropWhile isDigit tl := by
      simp [List.dropWhile, h]
    have hsuf : (List.dropWhile isDigit tl).length ≤ tl.length :=
      (List.dropWhile_suffix isDigit).length_le
    simp only [h, if_true, hdrop]
    split
    · rename_i rest heq
      rw [heq] at hsuf
      simp only [List.length_cons, List.length_reverse] at hsuf ⊢
      omega
    · simp only [List.length_reverse]
      omega

theorem endsInDigits_length (p : Str) (h : endsInDigits p = true) : 0 < p.length := by
  cases p with
  | nil => cases h
  | cons c tl => exact Nat.succ_pos _

/-- The truncation loop of `deleteReferencesForOrb` leaves by its own test:
every round shortens the identifier, so more fuel than its length changes
nothing. -/
theorem truncationLoop_fuel (n k : Nat) (p : Str) (g : Graph) (h : p.length ≤ n) :
    truncationLoop (n + k) p g = truncationLoop n p g := by
  induction n generalizing p g with
  | zero =>
    have hp : endsInDigits p = false := by
      cases hd : endsInDigits p with
      | false => rfl
      | true => have := endsInDigits_length p hd; omega
    cases k with
    | zero => rfl
    | succ k =>
      rw [Nat.zero_add]
      unfold truncationLoop
      simp [hp]
  | succ n ih =>
    rw [Nat.add_right_comm]
    unfold truncationLoop
    by_cases hd : endsInDigits p = true
    · simp only [hd, if_true]
      apply ih
      have := trim_length_lt p hd
      omega
    · simp [hd]

theorem truncations_fuel (n k : Nat) (p : Str) (h : p.length ≤ n) :
    truncations (n + k) p = truncations n p := by
  induction n generalizing p with
  | zero =>
    have hp : endsInDigits p = false := by
      cases hd : endsInDigits p with
      | false => rfl
      | true => have := endsInDigits_length p hd; omega
    cases k with
    | zero => rfl
    | succ k =>
      rw [Nat.zero_add]
      unfold truncations
      simp [hp]
  | succ n ih =>
    rw [Nat.add_right_comm]
    unfold truncations
    by_cases hd : endsInDigits p = true
    · simp only [hd, if_true]
      rw [ih]
      have := trim_length_lt p hd
      omega
    · simp [hd]

/-- The fuel `deleteReferencesForOrb` gives its loop is enough. -/
theorem deleteReferencesForOrb_fuel (orbRef : Str) (g : Graph) (k : Nat) :
    truncationLoop (orbRef.length + k) (trimMostInsignificantSemver orbRef) g =
      truncationLoop orbRef.length (trimMostInsignificantSemver orbRef) g :=
  truncationLoop_fuel _ _ _ _ (trim_isPrefix orbRef).length_le

/-- The main loop of `Resolve` leaves by its own test `nProcessing == 0`:
with more passes allowed than `dependenciesMap` has entries, allowing still
more changes nothing. -/
theorem resolveLoop_fuel (order : List Str → List Str) (ho : IsVisitOrder order)
    (n k : Nat) (g : Graph) (hn : g.dependenciesMap.keys.Nodup) (hr : RevIndexed g)
    (h : g.dependenciesMap.length < n) :
    resolveLoop order (n + k) g = resolveLoop order n g := by
  induction n generalizing g with
  | zero => exact absurd h (Nat.not_lt_zero _)
  | succ n ih =>
    rw [Nat.add_right_comm]
    unfold resolveLoop
    by_cases hF : (listOrbsWithoutDependencies order g).length = 0
    · simp only [hF, if_true]
    · simp only [hF, if_false]
      have hc := processFrontier_cleared (listOrbsWithoutDependencies order g) g hr
      apply ih
      · rw [hc.2.2.2.1]
        exact hn.filter _
      · exact hc.keepsRevIndexed hr
      · have := processFrontier_length order ho g hn hr (fun e => hF (by rw [e]; rfl))
        omega

/-! ## Completeness of `Resolve` when no ref is a clearing form of another -/

/-- Completeness of `Resolve`, for inputs in which no ref is a clearing form
of the ref of another package.  Let the packages all parse and have pairwise
distinct refs, let no ref of a package be a clearing form (the ref, a
truncation that ends in a digit, the `@volatile` alias) of the ref of another
package, and let `enum` list the packages so that each identifier a package
declares is a clearing form of a package before it in `enum`.  Then every
package stands in the ordered sequence and the unresolved map is empty. -/
theorem Resolve_complete (order : List Str → List Str) (unmarshal : Str → Option YamlMap)
    (orbs : List VersionedOrb) (ho : IsVisitOrder order)
    (hn : (orbs.map VersionedOrb.Ref).Nodup)
    (hparse : ∀ o ∈ orbs, unmarshal o.Source ≠ none)
    (hplain : ∀ a ∈ orbs, ∀ b ∈ orbs, a.Ref ∈ clearingForms b.Ref → a = b)
    (enum : List VersionedOrb) (hperm : enum.Perm orbs)
    (hacyclic : ∀ n (h : n < enum.length), ∀ x ∈ declaredIds unmarshal enum[n],
      ∃ Q ∈ enum.take n, x ∈ clearingForms Q.Ref) :
    (∀ o ∈ orbs, some o ∈ (Resolve order unmarshal orbs).resolvedOrder) ∧
    (Resolve order unmarshal orbs).unresolved = [] ∧
    (Resolve order unmarshal orbs).illegible = [] := by
  obtain ⟨done, out⟩ := Resolve_outcome order unmarshal orbs ho hn
  have hstep : ∀ pre P post, enum = pre ++ P :: post → (∀ Q ∈ pre, Q ∈ done) → P ∈ done := by
    intro pre P post he hpre
    by_contra hP
    have hPin : P ∈ orbs := hperm.mem_iff.1 (by rw [he]; simp)
    have hfree : P.Ref ∉ clearingFormsOf (done.map VersionedOrb.Ref) := by
      intro hc
      obtain ⟨R, hR, hPR⟩ := mem_clearingFormsOf.1 hc
      obtain ⟨Q, hQ, he'⟩ := List.mem_map.1 hR
      subst he'
      have := hplain P hPin Q (out.doneFrom Q hQ).1 hPR
      subst this
      exact hP hQ
    have hget := out.unresolvedSome P hPin (hparse P hPin) hfree
    have hne := (out.unresolvedFrom _ _ hget).2
    apply hne
    apply List.filter_eq_nil_iff.2
    intro x hx
    have hlt : pre.length < enum.length := by rw [he]; simp
    have hPn : enum[pre.length] = P := by
      have h1 : enum[pre.length]? = some P := by
        rw [he, List.getElem?_append_right (Nat.le_refl _)]
        simp
      exact Option.some.inj ((List.getElem?_eq_getElem hlt).symm.trans h1)
    have htake : enum.take pre.length = pre := by rw [he]; simp
    obtain ⟨Q, hQ, hxQ⟩ := hacyclic pre.length hlt x (by rw [hPn]; exact hx)
    rw [htake] at hQ
    have : x ∈ clearingFormsOf (done.map VersionedOrb.Ref) :=
      mem_clearingFormsOf.2 ⟨Q.Ref, List.mem_map.2 ⟨Q, hpre Q hQ, rfl⟩, hxQ⟩
    simp [this]
  have hall : ∀ l1 l2, enum = l1 ++ l2 → ∀ Q ∈ l1, Q ∈ done := by
    intro l1
    induction l1 using List.reverseRecOn with
    | nil => intro _ _ Q hQ; cases hQ
    | append_singleton init P ih =>
      intro l2 he Q hQ
      have he' : enum = init ++ P :: l2 := by rw [he]; simp
      have hinit := ih (P :: l2) he'
      rcases List.mem_append.1 hQ with hQ | hQ
      · exact hinit Q hQ
      · rw [List.mem_singleton] at hQ
        subst hQ
        exact hstep init Q l2 he' hinit
  have hdone : ∀ o ∈ orbs, o ∈ done := fun o ho' =>
    hall enum [] (by simp) o (hperm.mem_iff.2 ho')
  refine ⟨?_, ?_, ?_⟩
  · intro o ho'
    rw [out.ordered]
    exact (mem_done_iff done o).2 (hdone o ho')
  · have hk : (Resolve order unmarshal orbs).unresolved.keys = [] := by
      rw [out.unresolvedKeys]
      apply List.filter_eq_nil_iff.2
      intro k hk
      obtain ⟨o, ho', he⟩ := List.mem_map.1 hk
      have : k ∈ clearingFormsOf (done.map VersionedOrb.Ref) :=
        mem_clearingFormsOf.2 ⟨o.Ref,
          List.mem_map.2 ⟨o, hdone o (List.mem_filter.1 ho').1, rfl⟩, he ▸ mem_clearingForms_self _⟩
      simp [this]
    exact List.map_eq_nil_iff.1 hk
  · rw [out.illegible]
    apply List.map_eq_nil_iff.2
    apply List.filter_eq_nil_iff.2
    intro o ho'
    have := Option.ne_none_iff_isSome.1 (hparse o ho')
    simp [Option.isNone, this]
    cases hu : unmarshal o.Source with
    | none => rw [hu] at this; cases this
    | some v => rfl

theorem Resolve_complete_witness :
    (Examples.chain.map VersionedOrb.Ref).Nodup ∧
    (∀ o ∈ Examples.chain, some o ∈
      (Resolve id Examples.unmarshal Examples.chain).resolvedOrder) ∧
    (Resolve id Examples.unmarshal Examples.chain).unresolved = [] ∧
    (Resolve id Examples.unmarshal Examples.chain).illegible = [] :=
  ⟨by decide,
    Resolve_complete id Examples.unmarshal Examples.chain (fun l => List.Perm.refl l)
      (by decide)
      (fun o ho => Option.ne_none_iff_isSome.2 (by revert o; decide))
      (by decide) Examples.chain.reverse (List.reverse_perm _)
      (by decide)⟩

end DepResolver

namespace DepResolver

/-! ## The graph after `initMaps`, for every input -/

theorem initOrb_ok (unmarshal : Str → Option YamlMap) (orb : VersionedOrb)
    (acc : Graph × List Str) (h : GraphOk acc.1) :
    GraphOk (initOrb unmarshal orb acc).1 ∧
    (initOrb unmarshal orb acc).1.resolvedOrder = acc.1.resolvedOrder ∧
    (initOrb unmarshal orb acc).1.dependenciesMap.length ≤
      acc.1.dependenciesMap.length + (if (unmarshal orb.Source).isSome then 1 else 0) := by
  unfold initOrb
  cases hu : unmarshal orb.Source with
  | none => exact ⟨⟨h.keysNodup, h.revIndexed⟩, rfl, Nat.le_add_right _ _⟩
  | some orbsBlock =>
    have hw := walkOrbs_inv orb.Ref orbsBlock acc.1.dependentsMap
    have hkeys := GoMap.keys_set acc.1.dependenciesMap orb.Ref
      (walkOrbs orb.Ref orbsBlock acc.1.dependentsMap).dependencies
    refine ⟨⟨?_, ?_⟩, rfl, ?_⟩
    · show (acc.1.dependenciesMap.set orb.Ref _).keys.Nodup
      rw [hkeys]
      by_cases hk : orb.Ref ∈ acc.1.dependenciesMap.keys
      · rw [if_pos hk]; exact h.keysNodup
      · rw [if_neg hk, List.nodup_append]
        refine ⟨h.keysNodup, List.nodup_singleton _, ?_⟩
        intro a ha hb
        rw [List.mem_singleton] at hb
        exact hk (hb ▸ ha)
    · intro P s x hs hx
      have hs' : (acc.1.dependenciesMap.set orb.Ref
          (walkOrbs orb.Ref orbsBlock acc.1.dependentsMap).dependencies).get? P = some s := hs
      show ∃ ds, (walkOrbs orb.Ref orbsBlock acc.1.dependentsMap).dependentsMap.get? x = some ds
        ∧ P ∈ ds
      rw [GoMap.get?_set] at hs'
      by_cases hP : orb.Ref = P
      · rw [if_pos hP] at hs'
        cases hs'
        subst hP
        exact hw.1 x hx
      · rw [if_neg hP] at hs'
        obtain ⟨ds, hd, hm⟩ := h.revIndexed P s x hs' hx
        obtain ⟨ds', hd', hsub⟩ := hw.2.1 x ds hd
        exact ⟨ds', hd', hsub P hm⟩
    · have hl : ∀ m : GoMap StrSet, m.length = m.keys.length := fun m => by simp [GoMap.keys]
      show (acc.1.dependenciesMap.set orb.Ref _).length ≤ _
      rw [hl, hl, hkeys]
      simp only [Option.isSome_some, if_true]
      by_cases hk : orb.Ref ∈ acc.1.dependenciesMap.keys
      · rw [if_pos hk]; exact Nat.le_add_right _ _
      · rw [if_neg hk]; simp

theorem initMaps_ok (unmarshal : Str → Option YamlMap) (orbs : List VersionedOrb)
    (acc : Graph × List Str) (h : GraphOk acc.1) :
    GraphOk (initMaps unmarshal orbs acc).1 ∧
    (initMaps unmarshal orbs acc).1.resolvedOrder = acc.1.resolvedOrder ∧
    (initMaps unmarshal orbs acc).1.dependenciesMap.length ≤
      acc.1.dependenciesMap.length +
        (orbs.filter (fun orb => (unmarshal orb.Source).isSome)).length := by
  induction orbs generalizing acc with
  | nil => exact ⟨h, rfl, Nat.le_add_right _ _⟩
  | cons orb rest ih =>
    unfold initMaps
    obtain ⟨h1, h2, h3⟩ := initOrb_ok unmarshal orb acc h
    obtain ⟨k1, k2, k3⟩ := ih (initOrb unmarshal orb acc) h1
    refine ⟨k1, k2.trans h2, ?_⟩
    rw [List.filter_cons]
    by_cases hu : (unmarshal orb.Source).isSome = true
    · rw [if_pos hu] at h3
      rw [if_pos hu, List.length_cons]
      omega
    · rw [if_neg hu] at h3
      rw [if_neg hu]
      omega

theorem Graph.empty_ok : GraphOk Graph.empty :=
  ⟨List.nodup_nil, fun _ _ _ h => by cases h⟩

/-! ## Passes of the main loop -/

theorem resolvePass_ok (order : List Str → List Str) (g : Graph) (h : GraphOk g) :
    GraphOk (resolvePass order g) := by
  unfold resolvePass
  by_cases hF : (listOrbsWithoutDependencies order g).length = 0
  · rw [if_pos hF]; exact h
  · rw [if_neg hF]
    have hc := processFrontier_cleared (listOrbsWithoutDependencies order g) g h.revIndexed
    exact ⟨by rw [hc.2.2.2.1]; exact h.keysNodup.filter _, hc.keepsRevIndexed h.revIndexed⟩

/-- The loop allowed one pass more runs one pass more, if there is one. -/
theorem resolveLoop_succ (order : List Str → List Str) (n : Nat) (g : Graph) :
    resolveLoop order (n + 1) g = resolvePass order (resolveLoop order n g) := by
  induction n generalizing g with
  | zero =>
    unfold resolveLoop resolvePass
    simp [resolveLoop]
  | succ n ih =>
    rw [resolveLoop]
    by_cases hF : (listOrbsWithoutDependencies order g).length = 0
    · simp only [hF, if_true]
      have : resolveLoop order (n + 1) g = g := by
        rw [resolveLoop]; simp only [hF, if_true]
      rw [this]
      unfold resolvePass
      rw [if_pos hF]
    · simp only [hF, if_false]
      rw [ih]
      have : resolveLoop order (n + 1) g =
          resolveLoop order n (processFrontier (listOrbsWithoutDependencies order g) g) := by
        rw [resolveLoop]; simp only [hF, if_false]
      rw [this]

theorem resolveLoop_ok (order : List Str → List Str) (n : Nat) (g : Graph) (h : GraphOk g) :
    GraphOk (resolveLoop order n g) := by
  induction n with
  | zero => exact h
  | succ n ih => rw [resolveLoop_succ]; exact resolvePass_ok order _ ih

end DepResolver

namespace DepResolver

/-! ## Termination, the shape of the ordered sequence, the visiting order -/

/-- C13. `Resolve` terminates on every input list.  With `g0` the graph of
`initMaps`: a pass of the main loop that finds a non-empty frontier is the
loop over that frontier, and leaves `dependenciesMap` with fewer entries;
`dependenciesMap` starts with at most as many entries as there are parsable
packages; so with one pass more than that number allowed, the loop ends on an
empty frontier, allowing more passes changes nothing, and `Resolve` returns the
state the loop ends in.  In the loop of `deleteReferencesForOrb` every round
shortens the identifier, so that its rounds are at most as many as the ref
has characters. -/
theorem Resolve_terminates (order : List Str → List Str) (ho : IsVisitOrder order)
    (unmarshal : Str → Option YamlMap) (orbs : List VersionedOrb) :
    (∀ n, listOrbsWithoutDependencies order
        (resolveLoop order n (initMaps unmarshal orbs (Graph.empty, [])).1) ≠ [] →
      resolveLoop order (n + 1) (initMaps unmarshal orbs (Graph.empty, [])).1 =
        processFrontier
          (listOrbsWithoutDependencies order
            (resolveLoop order n (initMaps unmarshal orbs (Graph.empty, [])).1))
          (resolveLoop order n (initMaps unmarshal orbs (Graph.empty, [])).1) ∧
      (resolveLoop order (n + 1)
          (initMaps unmarshal orbs (Graph.empty, [])).1).dependenciesMap.length <
        (resolveLoop order n
          (initMaps unmarshal orbs (Graph.empty, [])).1).dependenciesMap.length) ∧
    (initMaps unmarshal orbs (Graph.empty, [])).1.dependenciesMap.length ≤
      (orbs.filter (fun orb => (unmarshal orb.Source).isSome)).length ∧
    listOrbsWithoutDependencies order
      (resolveLoop order ((orbs.filter (fun orb => (unmarshal orb.Source).isSome)).length + 1)
        (initMaps unmarshal orbs (Graph.empty, [])).1) = [] ∧
    (∀ k, resolveLoop order
        ((orbs.filter (fun orb => (unmarshal orb.Source).isSome)).length + 1 + k)
        (initMaps unmarshal orbs (Graph.empty, [])).1 =
      resolveLoop order ((orbs.filter (fun orb => (unmarshal orb.Source).isSome)).length + 1)
        (initMaps unmarshal orbs (Graph.empty, [])).1) ∧
    (Resolve order unmarshal orbs).resolvedOrder =
      (resolveLoop order ((orbs.filter (fun orb => (unmarshal orb.Source).isSome)).length + 1)
        (initMaps unmarshal orbs (Graph.empty, [])).1).resolvedOrder ∧
    (∀ p, endsInDigits p = true → (trimMostInsignificantSemver p).length < p.length) ∧
    (∀ (orbRef : Str) (g : Graph) (k : Nat),
      truncationLoop (orbRef.length + k) (trimMostInsignificantSemver orbRef) g =
        truncationLoop orbRef.length (trimMostInsignificantSemver orbRef) g) := by
  obtain ⟨hok, _, hlen⟩ := initMaps_ok unmarshal orbs (Graph.empty, []) Graph.empty_ok
  have hR : (Resolve order unmarshal orbs).resolvedOrder =
      (resolveLoop order ((initMaps unmarshal orbs (Graph.empty, [])).1.dependenciesMap.length + 1)
        (initMaps unmarshal orbs (Graph.empty, [])).1).resolvedOrder := rfl
  rw [hR]
  generalize (initMaps unmarshal orbs (Graph.empty, [])).1 = g0 at hok hlen
  have hlen' : g0.dependenciesMap.length ≤
      (orbs.filter (fun orb => (unmarshal orb.Source).isSome)).length := by
    have h0 : (Graph.empty, ([] : List Str)).1.dependenciesMap.length = 0 := rfl
    rw [h0, Nat.zero_add] at hlen
    exact hlen
  have hfuel : ∀ n, g0.dependenciesMap.length < n → ∀ k,
      resolveLoop order (n + k) g0 = resolveLoop order n g0 :=
    fun n hn k => resolveLoop_fuel order ho n k g0 hok.keysNodup hok.revIndexed hn
  refine ⟨?_, hlen', ?_, ?_, ?_, trim_length_lt, deleteReferencesForOrb_fuel⟩
  · intro n hne
    have hgn := resolveLoop_ok order n g0 hok
    have hF : ¬ (listOrbsWithoutDependencies order (resolveLoop order n g0)).length = 0 :=
      fun e => hne (List.length_eq_zero.1 e)
    have hstep : resolveLoop order (n + 1) g0 =
        processFrontier (listOrbsWithoutDependencies order (resolveLoop order n g0))
          (resolveLoop order n g0) := by
      rw [resolveLoop_succ, resolvePass, if_neg hF]
    refine ⟨hstep, ?_⟩
    rw [hstep]
    exact processFrontier_length order ho _ hgn.keysNodup hgn.revIndexed hne
  · obtain ⟨_, _, hexit⟩ := resolveLoop_reached order ho g0 hok.keysNodup hok.revIndexed
      ((orbs.filter (fun orb => (unmarshal orb.Source).isSome)).length + 1) g0 []
      (Reached.start g0)
    exact hexit (by omega)
  · intro k
    exact hfuel _ (by omega) k
  · have := hfuel (g0.dependenciesMap.length + 1) (Nat.lt_succ_self _)
      ((orbs.filter (fun orb => (unmarshal orb.Source).isSome)).length
        - g0.dependenciesMap.length)
    have e : g0.dependenciesMap.length + 1 +
        ((orbs.filter (fun orb => (unmarshal orb.Source).isSome)).length
          - g0.dependenciesMap.length) =
        (orbs.filter (fun orb => (unmarshal orb.Source).isSome)).length + 1 := by
      omega
    rw [e] at this
    rw [this]

/-- C18. The ordered sequence is duplicate-free and drawn from the input.
For packages with pairwise distinct refs, the ordered sequence holds no nil
pointer: it is a list `done` of packages, each one a package of the input
whose source parsed; no ref occurs twice in it; and no ref of it is a key of
the unresolved map any more. -/
theorem Resolve_ordered_from_input (order : List Str → List Str)
    (unmarshal : Str → Option YamlMap) (orbs : List VersionedOrb)
    (ho : IsVisitOrder order) (hn : (orbs.map VersionedOrb.Ref).Nodup) :
    ∃ done : List VersionedOrb,
      (Resolve order unmarshal orbs).resolvedOrder = done.map some ∧
      (∀ P ∈ done, P ∈ orbs ∧ unmarshal P.Source ≠ none) ∧
      (done.map VersionedOrb.Ref).Nodup ∧ done.Nodup ∧
      (∀ P ∈ done, P.Ref ∉ (Resolve order unmarshal orbs).unresolved.keys) := by
  obtain ⟨done, out⟩ := Resolve_outcome order unmarshal orbs ho hn
  refine ⟨done, out.ordered, out.doneFrom, out.doneNodup, out.doneNodup.of_map _, ?_⟩
  intro P hP hk
  rw [out.unresolvedKeys] at hk
  have h2 := (List.mem_filter.1 hk).2
  have : P.Ref ∈ clearingFormsOf (done.map VersionedOrb.Ref) :=
    mem_clearingFormsOf.2 ⟨P.Ref, List.mem_map.2 ⟨P, hP, rfl⟩, mem_clearingForms_self _⟩
  simp [this] at h2

theorem GoMap.ext_of_keys {β : Type} (m1 m2 : GoMap β) (hk : m1.keys = m2.keys)
    (hn : m1.keys.Nodup) (hg : ∀ k, m1.get? k = m2.get? k) : m1 = m2 := by
  induction m1 generalizing m2 with
  | nil =>
    cases m2 with
    | nil => rfl
    | cons e rest => cases hk
  | cons e1 rest1 ih =>
    cases m2 with
    | nil => cases hk
    | cons e2 rest2 =>
      obtain ⟨k1, v1⟩ := e1
      obtain ⟨k2, v2⟩ := e2
      simp only [GoMap.keys, List.map_cons, List.cons.injEq] at hk
      obtain ⟨hk1, hk2⟩ := hk
      subst hk1
      have hv : v1 = v2 := by
        have := hg k1
        simp only [GoMap.get?, if_true, Option.some.injEq] at this
        exact this
      subst hv
      have hn' : (GoMap.keys rest1).Nodup ∧ k1 ∉ GoMap.keys rest1 := by
        have := List.nodup_cons.1 hn
        exact ⟨this.2, this.1⟩
      congr 1
      apply ih rest2 hk2 hn'.1
      intro k
      have := hg k
      by_cases hkk : k1 = k
      · subst hkk
        have hn2 : k1 ∉ GoMap.keys rest2 := by
          show k1 ∉ List.map Prod.fst rest2
          rw [← hk2]; exact hn'.2
        rw [(GoMap.get?_eq_none_iff rest1 k1).2 hn'.2,
          (GoMap.get?_eq_none_iff rest2 k1).2 hn2]
      · simpa [GoMap.get?, hkk] using this

theorem clearingFormsOf_perm_mem {F1 F2 : List Str} (h : F1.Perm F2) (x : Str) :
    x ∈ clearingFormsOf F1 ↔ x ∈ clearingFormsOf F2 := by
  simp only [mem_clearingFormsOf]
  constructor
  · rintro ⟨R, hR, hx⟩; exact ⟨R, h.mem_iff.1 hR, hx⟩
  · rintro ⟨R, hR, hx⟩; exact ⟨R, h.mem_iff.2 hR, hx⟩

theorem processFrontier_sameUpToOrder (F1 F2 : List Str) (hF : F1.Perm F2) (g1 g2 : Graph)
    (h : SameUpToOrder g1 g2) (hok : GraphOk g1) :
    SameUpToOrder (processFrontier F1 g1) (processFrontier F2 g2) := by
  obtain ⟨ha, hb, hc, hd⟩ := h
  have hr2 : RevIndexed g2 := by
    intro P s x hs hx
    rw [← hb] at hs
    rw [← hc]
    exact hok.revIndexed P s x hs hx
  obtain ⟨a1, b1, c1, d1, e1⟩ := processFrontier_cleared F1 g1 hok.revIndexed
  obtain ⟨a2, b2, c2, d2, e2⟩ := processFrontier_cleared F2 g2 hr2
  have hmem := clearingFormsOf_perm_mem hF
  refine ⟨?_, ?_, ?_, ?_⟩
  · rw [a1, a2]; exact ha
  · apply GoMap.ext_of_keys
    · rw [d1, d2]
      show List.filter _ g1.dependenciesMap.keys = List.filter _ g2.dependenciesMap.keys
      rw [hb]
      apply List.filter_congr
      intro k _
      by_cases hk : k ∈ clearingFormsOf F1
      · simp [hk, (hmem k).1 hk]
      · have hk2 : k ∉ clearingFormsOf F2 := fun h' => hk ((hmem k).2 h')
        simp [hk, hk2]
    · rw [d1]; exact hok.keysNodup.filter _
    · intro k
      rw [e1, e2]
      show (if k ∈ clearingFormsOf F1 then none else Option.map _ (g1.dependenciesMap.get? k)) =
        (if k ∈ clearingFormsOf F2 then none else Option.map _ (g2.dependenciesMap.get? k))
      rw [hb]
      by_cases hk : k ∈ clearingFormsOf F1
      · rw [if_pos hk, if_pos ((hmem k).1 hk)]
      · rw [if_neg hk, if_neg (fun h' => hk ((hmem k).2 h'))]
        congr 1
        funext s
        apply List.filter_congr
        intro x _
        by_cases hx : x ∈ clearingFormsOf F1
        · simp [hx, (hmem x).1 hx]
        · have hx2 : x ∉ clearingFormsOf F2 := fun h' => hx ((hmem x).2 h')
          simp [hx, hx2]
  · rw [c1, c2]; exact hc
  · rw [b1, b2]
    show (g1.resolvedOrder ++ F1.map g1.orbRefMap.get?).Perm
      (g2.resolvedOrder ++ F2.map g2.orbRefMap.get?)
    rw [ha]
    exact hd.append (hF.map _)

theorem resolveLoop_sameUpToOrder (order1 order2 : List Str → List Str)
    (h1 : IsVisitOrder order1) (h2 : IsVisitOrder order2) (n : Nat) (g1 g2 : Graph)
    (h : SameUpToOrder g1 g2) (hok : GraphOk g1) :
    SameUpToOrder (resolveLoop order1 n g1) (resolveLoop order2 n g2) := by
  induction n generalizing g1 g2 with
  | zero => exact h
  | succ n ih =>
    have hF : (listOrbsWithoutDependencies order1 g1).Perm
        (listOrbsWithoutDependencies order2 g2) := by
      unfold listOrbsWithoutDependencies
      rw [← h.2.1]
      exact (h1 _).trans (h2 _).symm
    unfold resolveLoop
    by_cases hl : (listOrbsWithoutDependencies order1 g1).length = 0
    · have hl2 : (listOrbsWithoutDependencies order2 g2).length = 0 := by
        rw [← hF.length_eq]; exact hl
      simp only [hl, hl2, if_true]
      exact h
    · have hl2 : ¬ (listOrbsWithoutDependencies order2 g2).length = 0 := by
        rw [← hF.length_eq]; exact hl
      simp only [hl, hl2, if_false]
      apply ih
      · exact processFrontier_sameUpToOrder _ _ hF g1 g2 h hok
      · have := resolvePass_ok order1 g1 hok
        unfold resolvePass at this
        rwa [if_neg hl] at this

/-- C17. The result of `Resolve` does not depend on the order in which the
refs of a frontier are visited.  For every input and any two visiting orders,
the illegible lists are equal, the unresolved maps are equal (so they have
the same keys, with the same identifiers), the ordered sequences are
rearrangements of each other, and so are the sequences after any number `n`
of passes, so that a package is appended in the same pass under both
orders. -/
theorem Resolve_order_independent (order1 order2 : List Str → List Str)
    (h1 : IsVisitOrder order1) (h2 : IsVisitOrder order2)
    (unmarshal : Str → Option YamlMap) (orbs : List VersionedOrb) :
    (Resolve order1 unmarshal orbs).illegible = (Resolve order2 unmarshal orbs).illegible ∧
    (Resolve order1 unmarshal orbs).unresolved = (Resolve order2 unmarshal orbs).unresolved ∧
    (Resolve order1 unmarshal orbs).resolvedOrder.Perm
      (Resolve order2 unmarshal orbs).resolvedOrder ∧
    (∀ n, (resolveLoop order1 n (initMaps unmarshal orbs (Graph.empty, [])).1).resolvedOrder.Perm
      (resolveLoop order2 n (initMaps unmarshal orbs (Graph.empty, [])).1).resolvedOrder ∧
      (resolveLoop order1 n (initMaps unmarshal orbs (Graph.empty, [])).1).dependenciesMap =
      (resolveLoop order2 n (initMaps unmarshal orbs (Graph.empty, [])).1).dependenciesMap) := by
  obtain ⟨hok, _, _⟩ := initMaps_ok unmarshal orbs (Graph.empty, []) Graph.empty_ok
  have hsame : ∀ n, SameUpToOrder
      (resolveLoop order1 n (initMaps unmarshal orbs (Graph.empty, [])).1)
      (resolveLoop order2 n (initMaps unmarshal orbs (Graph.empty, [])).1) :=
    fun n => resolveLoop_sameUpToOrder order1 order2 h1 h2 n _ _
      ⟨rfl, rfl, rfl, List.Perm.refl _⟩ hok
  refine ⟨rfl, ?_, ?_, fun n => ⟨(hsame n).2.2.2, (hsame n).2.1⟩⟩
  · show reduceDependenciesMap _ = reduceDependenciesMap _
    unfold reduceDependenciesMap
    rw [(hsame _).2.1]
  · exact (hsame _).2.2.2

end DepResolver

namespace DepResolver

theorem Resolve_terminates_witness :
    IsVisitOrder id ∧
    listOrbsWithoutDependencies id
      (resolveLoop id
        ((Examples.chain.filter (fun orb => (Examples.unmarshal orb.Source).isSome)).length + 1)
        (initMaps Examples.unmarshal Examples.chain (Graph.empty, [])).1) = [] ∧
    (Resolve id Examples.unmarshal Examples.chain).resolvedOrder =
      (resolveLoop id
        ((Examples.chain.filter (fun orb => (Examples.unmarshal orb.Source).isSome)).length + 1)
        (initMaps Examples.unmarshal Examples.chain (Graph.empty, [])).1).resolvedOrder ∧
    (resolveLoop id 1 (initMaps Examples.unmarshal Examples.chain
        (Graph.empty, [])).1).dependenciesMap.length = 2 ∧
    (resolveLoop id 3 (initMaps Examples.unmarshal Examples.chain
        (Graph.empty, [])).1).dependenciesMap.length = 0 :=
  ⟨fun l => List.Perm.refl l,
    (Resolve_terminates id (fun l => List.Perm.refl l) Examples.unmarshal Examples.chain).2.2.1,
    (Resolve_terminates id (fun l => List.Perm.refl l)
      Examples.unmarshal Examples.chain).2.2.2.2.1,
    by decide, by decide⟩

theorem Resolve_ordered_from_input_witness :
    (Examples.chain.map VersionedOrb.Ref).Nodup ∧
    (Resolve id Examples.unmarshal Examples.chain).resolvedOrder =
      [some (Examples.orb "ns/c@1.0.7" ""), some (Examples.orb "ns/b@1.0.0" "ns/c@1.0"),
        some (Examples.orb "ns/a@1.2.3" "ns/b@volatile,ns/c@1")] ∧
    ∃ done : List VersionedOrb,
      (Resolve id Examples.unmarshal Examples.chain).resolvedOrder = done.map some ∧
      (∀ P ∈ done, P ∈ Examples.chain ∧ Examples.unmarshal P.Source ≠ none) ∧
      (done.map VersionedOrb.Ref).Nodup ∧ done.Nodup ∧
      (∀ P ∈ done, P.Ref ∉ (Resolve id Examples.unmarshal Examples.chain).unresolved.keys) :=
  ⟨by decide, by decide,
    Resolve_ordered_from_input id Examples.unmarshal Examples.chain
      (fun l => List.Perm.refl l) (by decide)⟩

theorem Resolve_order_independent_witness :
    IsVisitOrder id ∧ IsVisitOrder List.reverse ∧
    (Resolve id Examples.unmarshal Examples.shadowed).resolvedOrder =
      [some (Examples.orb "ns/c@1" ""), some (Examples.orb "ns/a@1.2" "")] ∧
    (Resolve List.reverse Examples.unmarshal Examples.shadowed).resolvedOrder =
      [some (Examples.orb "ns/a@1.2" ""), some (Examples.orb "ns/c@1" "")] ∧
    (Resolve id Examples.unmarshal Examples.shadowed).unresolved =
      (Resolve List.reverse Examples.unmarshal Examples.shadowed).unresolved ∧
    (Resolve id Examples.unmarshal Examples.shadowed).resolvedOrder.Perm
      (Resolve List.reverse Examples.unmarshal Examples.shadowed).resolvedOrder :=
  ⟨fun l => List.Perm.refl l, fun l => List.reverse_perm l, by decide, by decide,
    (Resolve_order_independent id List.reverse (fun l => List.Perm.refl l)
      (fun l => List.reverse_perm l) Examples.unmarshal Examples.shadowed).2.1,
    (Resolve_order_independent id List.reverse (fun l => List.Perm.refl l)
      (fun l => List.reverse_perm l) Examples.unmarshal Examples.shadowed).2.2.1⟩

/-- C14 at a failing input.  In the graph of `initMaps` for the packages
`ns/c@1`, `ns/a@1.2` and `ns/a@1` (which declares `ns/c@1`), the call
`deleteReferencesForOrb "ns/a@1.2"` removes from `dependenciesMap` the entry of
`ns/a@1.2` and also the entry of the other package `ns/a@1`, whose key is a
truncation of that ref. -/
theorem deleteReferencesForOrb_removes_alias_entry :
    Examples.shadowedGraph.dependenciesMap =
      [("ns/c@1".toList, []), ("ns/a@1.2".toList, []),
        ("ns/a@1".toList, ["ns/c@1".toList])] ∧
    "ns/a@1".toList ≠ "ns/a@1.2".toList ∧
    (deleteReferencesForOrb "ns/a@1.2".toList Examples.shadowedGraph).dependenciesMap =
      [("ns/c@1".toList, [])] ∧
    (deleteReferencesForOrb "ns/a@1.2".toList
      Examples.shadowedGraph).dependenciesMap.get? "ns/a@1".toList = none :=
  ⟨by decide, by decide, by decide, by decide⟩

/-! ## The frame of `deleteReferencesForOrb` -/

theorem Framed.same (g : Graph) : Framed [] g g := by
  refine ⟨rfl, rfl, rfl, ?_, ?_⟩
  · simp
  · intro P s hs _
    exact ⟨s, hs, fun _ h => h, fun _ h _ => h⟩

theorem Framed.concat {L1 L2 : List Str} {g1 g2 g3 : Graph}
    (h1 : Framed L1 g1 g2) (h2 : Framed L2 g2 g3) : Framed (L1 ++ L2) g1 g3 := by
  obtain ⟨a1, b1, c1, d1, e1⟩ := h1
  obtain ⟨a2, b2, c2, d2, e2⟩ := h2
  refine ⟨a2.trans a1, b2.trans b1, c2.trans c1, ?_, ?_⟩
  · rw [d2, d1, List.filter_filter]
    apply List.filter_congr
    intro k _
    by_cases h1 : k ∈ L1 <;> by_cases h2 : k ∈ L2 <;> simp [h1, h2]
  · intro P s hs hP
    have hP1 : P ∉ L1 := fun h => hP (List.mem_append_left _ h)
    have hP2 : P ∉ L2 := fun h => hP (List.mem_append_right _ h)
    obtain ⟨s1, hs1, hsub1, hkeep1⟩ := e1 P s hs hP1
    obtain ⟨s2, hs2, hsub2, hkeep2⟩ := e2 P s1 hs1 hP2
    refine ⟨s2, hs2, fun x hx => hsub1 x (hsub2 x hx), ?_⟩
    intro x hx hxL
    exact hkeep2 x (hkeep1 x hx (fun h => hxL (List.mem_append_left _ h)))
      (fun h => hxL (List.mem_append_right _ h))

theorem doDelete_framed (X : Str) (g : Graph) :
    Framed [X] g (doDeleteReferencesForOrb X g) := by
  have key : ∀ ds : List Str, ∀ P s, g.dependenciesMap.get? P = some s → P ∉ [X] →
      ∃ s', (ds.foldl (fun m d => m.modify d (fun s => s.delete X))
          (g.dependenciesMap.delete X)).get? P = some s' ∧ (∀ x, x ∈ s' → x ∈ s) ∧
        (∀ x, x ∈ s → x ∉ [X] → x ∈ s') := by
    intro ds P s hs hP
    have hP' : P ≠ X := fun e => hP (e ▸ List.mem_singleton.2 rfl)
    rw [foldl_modify_get? _ (strSet_delete_idem X), GoMap.get?_delete, if_neg hP', hs]
    by_cases hd : P ∈ ds
    · rw [if_pos hd]
      refine ⟨s.delete X, rfl, fun x hx => (List.mem_filter.1 hx).1, ?_⟩
      intro x hx hxX
      have : x ≠ X := fun e => hxX (e ▸ List.mem_singleton.2 rfl)
      exact List.mem_filter.2 ⟨hx, by simp [this]⟩
    · rw [if_neg hd]
      exact ⟨s, rfl, fun _ h => h, fun _ h _ => h⟩
  have keys : ∀ ds : List Str, (ds.foldl (fun m d => m.modify d (fun s => s.delete X))
      (g.dependenciesMap.delete X)).keys =
      g.dependenciesMap.keys.filter (fun k => !decide (k ∈ [X])) := by
    intro ds
    rw [foldl_modify_keys, GoMap.keys_delete]
    apply List.filter_congr
    intro k _
    simp
  unfold doDeleteReferencesForOrb
  cases hd : g.dependentsMap.get? X with
  | some dependents => exact ⟨rfl, rfl, rfl, keys dependents, key dependents⟩
  | none => exact ⟨rfl, rfl, rfl, keys [], key []⟩

theorem truncationLoop_framed (fuel : Nat) (p : Str) (g : Graph) :
    Framed (truncations fuel p) g (truncationLoop fuel p g) := by
  induction fuel generalizing p g with
  | zero => exact Framed.same g
  | succ n ih =>
    unfold truncations truncationLoop
    by_cases h : endsInDigits p = true
    · simp only [h, if_true]
      exact Framed.concat (doDelete_framed p g) (ih (trimMostInsignificantSemver p) _)
    · simp only [h]
      exact Framed.same g

/-- The frame of edge clearing, for every graph and every ref `R`:
`deleteReferencesForOrb R` changes `dependenciesMap` only; it removes the
entries whose key is a clearing form of `R` (the ref, its truncations that end
in a digit, its `@volatile` alias) and no other entry; and from the set of an
entry that stays it removes only clearing forms of `R`. -/
theorem deleteReferencesForOrb_frame (R : Str) (g : Graph) :
    (deleteReferencesForOrb R g).orbRefMap = g.orbRefMap ∧
    (deleteReferencesForOrb R g).resolvedOrder = g.resolvedOrder ∧
    (deleteReferencesForOrb R g).dependentsMap = g.dependentsMap ∧
    (deleteReferencesForOrb R g).dependenciesMap.keys =
      g.dependenciesMap.keys.filter (fun k => !decide (k ∈ clearingForms R)) ∧
    (∀ P s, g.dependenciesMap.get? P = some s → P ∉ clearingForms R →
      ∃ s', (deleteReferencesForOrb R g).dependenciesMap.get? P = some s' ∧
        (∀ x, x ∈ s' → x ∈ s) ∧ (∀ x, x ∈ s → x ∉ clearingForms R → x ∈ s')) := by
  have h : Framed (clearingForms R) g (deleteReferencesForOrb R g) := by
    unfold deleteReferencesForOrb clearingForms aliasForms
    exact Framed.concat (doDelete_framed R g)
      (Framed.concat (truncationLoop_framed _ _ _) (doDelete_framed _ _))
  exact h

end DepResolver
namespace BulkImporter

theorem importLoop_append {σ : Type} (reg : Registry σ) (pre rest : List VersionedOrb)
    (s s1 : Session σ) (h : importLoop reg pre s = (none, s1)) :
    importLoop reg (pre ++ rest) s = importLoop reg rest s1 := by
  induction pre generalizing s with
  | nil =>
    unfold importLoop at h
    have := (Prod.mk.inj h).2
    subst this
    rfl
  | cons orb pre ih =>
    rw [List.cons_append]
    unfold importLoop at h
    conv_lhs => unfold importLoop
    cases hr : retryLoop reg orb maxImportRetries 0 none s with
    | mk lastErr s2 =>
      rw [hr] at h
      cases lastErr with
      | some e => simp only at h; cases (Prod.mk.inj h).1
      | none => simp only at h ⊢; exact ih s2 h

theorem attempt_namespace_down {σ : Type} (reg : Registry σ) (orb : VersionedOrb)
    (s : Session σ) (e : Str) (r : σ)
    (hns : s.nsExists.get? (namespaceOf orb) = none)
    (h : reg.namespaceExists (namespaceOf orb) s.remote = (.error e, r)) :
    attempt reg orb s = (.failed (.queryingNamespace (namespaceOf orb) e),
      { s with remote := r, calls := s.calls ++ [Call.namespaceExists (namespaceOf orb)] }) := by
  unfold namespaceOf at hns h ⊢
  simp only [attempt, ensureNamespace, hns, h]

/-- C11. Namespace failure is fatal.  Let the packages `pre` be done without
error, leaving the variables `s`, and let the namespace of the next package
`orb` be absent from the session cache.  If the namespace-existence query fails
on each of the three attempts for `orb` (the registry going through the
states `r1`, `r2`, `r3`), then `ImportOrbsWithRetries` returns the error of
the third query for `orb`, after `maxImportRetries = 3` attempts, with nil
lists (the refs recorded for `pre` are not returned); the calls of the run are
those made for `pre` followed by exactly three namespace-existence queries,
so no call is made for a package of `rest`. -/
theorem namespace_failure_is_fatal {σ : Type} (reg : Registry σ) (remote : σ)
    (pre : List VersionedOrb) (orb : VersionedOrb) (rest : List VersionedOrb)
    (s : Session σ) (e1 e2 e3 : Str) (r1 r2 r3 : σ)
    (hpre : importLoop reg pre (Session.start remote) = (none, s))
    (hns : s.nsExists.get? (namespaceOf orb) = none)
    (h1 : reg.namespaceExists (namespaceOf orb) s.remote = (.error e1, r1))
    (h2 : reg.namespaceExists (namespaceOf orb) r1 = (.error e2, r2))
    (h3 : reg.namespaceExists (namespaceOf orb) r2 = (.error e3, r3)) :
    (ImportOrbsWithRetries reg remote (pre ++ orb :: rest)).err =
      some ⟨orb.Ref, maxImportRetries, .queryingNamespace (namespaceOf orb) e3⟩ ∧
    (ImportOrbsWithRetries reg remote (pre ++ orb :: rest)).availableOrbRefs = none ∧
    (ImportOrbsWithRetries reg remote (pre ++ orb :: rest)).droppedOrbRefs = none ∧
    (ImportOrbsWithRetries reg remote (pre ++ orb :: rest)).final.calls =
      s.calls ++ List.replicate maxImportRetries (Call.namespaceExists (namespaceOf orb)) ∧
    (ImportOrbsWithRetries reg remote (pre ++ orb :: rest)).final.remote = r3 ∧
    (ImportOrbsWithRetries reg remote (pre ++ orb :: rest)).final.availableOrbRefs =
      s.availableOrbRefs ∧
    (ImportOrbsWithRetries reg remote (pre ++ orb :: rest)).final.droppedOrbRefs =
      s.droppedOrbRefs := by
  have a1 := attempt_namespace_down reg orb s e1 r1 hns h1
  have a2 := attempt_namespace_down reg orb
    { s with remote := r1, calls := s.calls ++ [Call.namespaceExists (namespaceOf orb)] }
    e2 r2 hns h2
  have a3 := attempt_namespace_down reg orb
    { s with remote := r2, calls := s.calls ++ [Call.namespaceExists (namespaceOf orb)] ++
      [Call.namespaceExists (namespaceOf orb)] }
    e3 r3 hns h3
  have hloop : importLoop reg (pre ++ orb :: rest) (Session.start remote) =
      (some ⟨orb.Ref, maxImportRetries, .queryingNamespace (namespaceOf orb) e3⟩,
        { s with remote := r3, calls := s.calls ++ [Call.namespaceExists (namespaceOf orb)] ++
          [Call.namespaceExists (namespaceOf orb)] ++
          [Call.namespaceExists (namespaceOf orb)] }) := by
    rw [importLoop_append reg pre _ _ s hpre]
    simp only [importLoop, maxImportRetries, retryLoop, a1, a2, a3]
  unfold ImportOrbsWithRetries
  rw [hloop]
  simp [maxImportRetries, List.replicate]

theorem namespace_failure_is_fatal_witness :
    (ImportOrbsWithRetries Examples.downRegistry () Examples.cargo).err =
      some ⟨"ns/a@1.0.0".toList, 3, .queryingNamespace "ns".toList "down".toList⟩ ∧
    (ImportOrbsWithRetries Examples.downRegistry () Examples.cargo).availableOrbRefs = none ∧
    (ImportOrbsWithRetries Examples.downRegistry () Examples.cargo).droppedOrbRefs = none ∧
    (ImportOrbsWithRetries Examples.downRegistry () Examples.cargo).final.calls =
      [Call.namespaceExists "ns".toList, Call.namespaceExists "ns".toList,
        Call.namespaceExists "ns".toList] := by
  have h := namespace_failure_is_fatal Examples.downRegistry () []
    (Examples.orb "ns/a@1.0.0" "") [Examples.orb "ns/b@1.0.0" "bad", Examples.orb "ns/c@1.0.0" ""]
    (Session.start ()) "down".toList "down".toList "down".toList () () ()
    rfl rfl rfl rfl rfl
  exact ⟨h.1, h.2.1, h.2.2.1, h.2.2.2.1⟩

end BulkImporter
namespace BulkImporter

/-- An attempt that ends with the publish call: the existence check replied
that the version does not exist, the publish call was made in the state of
the registry right after that reply, and these are the last two calls. -/
theorem attempt_publish_chain {σ : Type} (reg : Registry σ) (orb : VersionedOrb)
    (s : Session σ)
    (h : (attempt reg orb s).1 = .published ∨ ∃ e, (attempt reg orb s).1 = .publishFailed e) :
    ∃ before remote2 remote3 orbID reply,
      (∀ c ∈ before, c.isPublish = false) ∧
      reg.orbInfo orb.Ref remote2 = (.versionNotExists, remote3) ∧
      reg.orbImportVersion orb.Source orbID orb.Version remote3 =
        (reply, (attempt reg orb s).2.remote) ∧
      (attempt reg orb s).2.calls = s.calls ++ before ++
        [Call.orbInfo orb.Ref, Call.orbImportVersion orb.Source orbID orb.Version] := by
  unfold attempt at h ⊢
  simp only at h ⊢
  obtain ⟨a1, h1, p1⟩ := ensureNamespace_continues reg ((orb.Name.splitOn '/').headD []) s
  generalize ensureNamespace reg ((orb.Name.splitOn '/').headD []) s = step1 at h h1 ⊢
  obtain ⟨r1, s1⟩ := step1
  cases r1 with
  | some lastErr => rcases h with h | ⟨e, h⟩ <;> cases h
  | none =>
    simp only at h ⊢
    obtain ⟨a2, h2, p2⟩ := ensureFamily_continues reg orb ((orb.Name.splitOn '/').headD [])
      (List.intercalate ['/'] (orb.Name.splitOn '/').tail) s1
    generalize ensureFamily reg orb ((orb.Name.splitOn '/').headD [])
      (List.intercalate ['/'] (orb.Name.splitOn '/').tail) s1 = step2 at h h2 ⊢
    obtain ⟨r2, s2⟩ := step2
    have h12 := Continues.followedBy h1 h2
    have p12 : ∀ c ∈ a1 ++ a2, c.isPublish = false := by
      intro c hc
      rcases List.mem_append.1 hc with hc | hc
      · exact p1 c hc
      · exact p2 c hc
    cases r2 with
    | error lastErr => rcases h with h | ⟨e, h⟩ <;> cases h
    | ok orbID =>
      simp only at h ⊢
      cases hinfo : reg.orbInfo orb.Ref s2.remote with
      | mk r3 remote3 =>
        rw [hinfo] at h
        cases r3 with
        | found => rcases h with h | ⟨e, h⟩ <;> cases h
        | failed err => rcases h with h | ⟨e, h⟩ <;> cases h
        | versionNotExists =>
          simp only
          cases hpub : reg.orbImportVersion orb.Source orbID orb.Version remote3 with
          | mk r4 remote4 =>
            refine ⟨a1 ++ a2, s2.remote, remote3, orbID, r4, p12, hinfo, ?_, ?_⟩
            · cases r4 <;> simp [hpub]
            · have hc : s2.calls = s.calls ++ (a1 ++ a2) := h12.2.2
              cases r4 <;> simp [hc]

/-- An attempt that ends with the version found: the existence check replied
so, this was the last call, and no publish call was made. -/
theorem attempt_alreadyThere_chain {σ : Type} (reg : Registry σ) (orb : VersionedOrb)
    (s : Session σ) (h : (attempt reg orb s).1 = .alreadyThere) :
    ∃ before remote2,
      (∀ c ∈ before, c.isPublish = false) ∧
      reg.orbInfo orb.Ref remote2 = (.found, (attempt reg orb s).2.remote) ∧
      (attempt reg orb s).2.calls = s.calls ++ before ++ [Call.orbInfo orb.Ref] := by
  unfold attempt at h ⊢
  simp only at h ⊢
  obtain ⟨a1, h1, p1⟩ := ensureNamespace_continues reg ((orb.Name.splitOn '/').headD []) s
  generalize ensureNamespace reg ((orb.Name.splitOn '/').headD []) s = step1 at h h1 ⊢
  obtain ⟨r1, s1⟩ := step1
  cases r1 with
  | some lastErr => cases h
  | none =>
    simp only at h ⊢
    obtain ⟨a2, h2, p2⟩ := ensureFamily_continues reg orb ((orb.Name.splitOn '/').headD [])
      (List.intercalate ['/'] (orb.Name.splitOn '/').tail) s1
    generalize ensureFamily reg orb ((orb.Name.splitOn '/').headD [])
      (List.intercalate ['/'] (orb.Name.splitOn '/').tail) s1 = step2 at h h2 ⊢
    obtain ⟨r2, s2⟩ := step2
    have h12 := Continues.followedBy h1 h2
    have p12 : ∀ c ∈ a1 ++ a2, c.isPublish = false := by
      intro c hc
      rcases List.mem_append.1 hc with hc | hc
      · exact p1 c hc
      · exact p2 c hc
    cases r2 with
    | error lastErr => cases h
    | ok orbID =>
      simp only at h ⊢
      cases hinfo : reg.orbInfo orb.Ref s2.remote with
      | mk r3 remote3 =>
        rw [hinfo] at h
        cases r3 with
        | found =>
          simp only
          refine ⟨a1 ++ a2, s2.remote, p12, hinfo, ?_⟩
          have hc : s2.calls = s.calls ++ (a1 ++ a2) := h12.2.2
          simp [hc]
        | failed err => cases h
        | versionNotExists =>
          simp only at h
          cases hpub : reg.orbImportVersion orb.Source orbID orb.Version remote3 with
          | mk r4 remote4 =>
            rw [hpub] at h
            cases r4 <;> cases h

/-- The calls of an attempt that does not end with the publish call contain no
publish call. -/
theorem attempt_calls_publishFree {σ : Type} (reg : Registry σ) (orb : VersionedOrb)
    (s : Session σ)
    (h : (attempt reg orb s).1 = .alreadyThere ∨ ∃ e, (attempt reg orb s).1 = .failed e) :
    ∃ added, (attempt reg orb s).2.calls = s.calls ++ added ∧
      ∀ c ∈ added, c.isPublish = false := by
  obtain ⟨before, hb, _, h2⟩ := attempt_continues reg orb s
  exact ⟨before, (h2 h).2.2, hb⟩

/-- The attempt unfolded along its steps, for an existence check that finds
the version. -/
theorem attempt_found {σ : Type} (reg : Registry σ) (orb : VersionedOrb)
    (s s1 s2 : Session σ) (orbID : Str) (remote3 : σ)
    (h1 : ensureNamespace reg (namespaceOf orb) s = (none, s1))
    (h2 : ensureFamily reg orb (namespaceOf orb) (shortnameOf orb) s1 = (.ok orbID, s2))
    (h3 : reg.orbInfo orb.Ref s2.remote = (.found, remote3)) :
    attempt reg orb s =
      (.alreadyThere, { s2 with remote := remote3, calls := s2.calls ++ [Call.orbInfo orb.Ref] }) := by
  unfold namespaceOf at h1 h2
  unfold shortnameOf at h2
  simp only [attempt, h1, h2, h3]

/-- The calls of the loop over the attempts for one package satisfy what the
calls of each attempt satisfy. -/
theorem retryLoop_calls {σ : Type} (reg : Registry σ) (orb : VersionedOrb) (q : Call → Bool)
    (hatt : ∀ s, ∃ added, (attempt reg orb s).2.calls = s.calls ++ added ∧
      ∀ c ∈ added, q c = false)
    (left iter : Nat) (lastErr : Option ImportError) (s : Session σ) :
    ∃ added, (retryLoop reg orb left iter lastErr s).2.calls = s.calls ++ added ∧
      ∀ c ∈ added, q c = false := by
  induction left generalizing iter lastErr s with
  | zero => exact ⟨[], by simp [retryLoop], fun _ h => nomatch h⟩
  | succ n ih =>
    unfold retryLoop
    obtain ⟨a1, hc1, hq1⟩ := hatt s
    generalize attempt reg orb s = step at hc1 ⊢
    obtain ⟨ended, s1⟩ := step
    simp only at hc1
    have glue : ∀ (t : Session σ), (∃ added, t.calls = s1.calls ++ added ∧
        ∀ c ∈ added, q c = false) →
        ∃ added, t.calls = s.calls ++ added ∧ ∀ c ∈ added, q c = false := by
      rintro t ⟨a2, hc2, hq2⟩
      refine ⟨a1 ++ a2, by rw [hc2, hc1, List.append_assoc], ?_⟩
      intro c hc
      rcases List.mem_append.1 hc with hc | hc
      · exact hq1 c hc
      · exact hq2 c hc
    have here : ∃ added, s1.calls = s1.calls ++ added ∧ ∀ c ∈ added, q c = false :=
      ⟨[], (List.append_nil _).symm, fun _ h => nomatch h⟩
    cases ended with
    | failed e => exact glue _ (ih _ _ s1)
    | publishFailed e =>
      simp only
      by_cases hlast : iter + 1 = maxImportRetries
      · rw [if_pos hlast]; exact glue _ here
      · rw [if_neg hlast]; exact glue _ (ih _ _ s1)
    | published => exact glue _ here
    | alreadyThere => exact glue _ here

theorem importLoop_calls {σ : Type} (reg : Registry σ) (q : Call → Bool)
    (hatt : ∀ orb s, ∃ added, (attempt reg orb s).2.calls = s.calls ++ added ∧
      ∀ c ∈ added, q c = false)
    (orbs : List VersionedOrb) (s : Session σ) :
    ∃ added, (importLoop reg orbs s).2.calls = s.calls ++ added ∧
      ∀ c ∈ added, q c = false := by
  induction orbs generalizing s with
  | nil => exact ⟨[], by simp [importLoop], fun _ h => nomatch h⟩
  | cons orb rest ih =>
    unfold importLoop
    obtain ⟨a1, hc1, hq1⟩ := retryLoop_calls reg orb q (hatt orb) maxImportRetries 0 none s
    generalize retryLoop reg orb maxImportRetries 0 none s = step at hc1 ⊢
    obtain ⟨lastErr, s1⟩ := step
    simp only at hc1
    cases lastErr with
    | some e => exact ⟨a1, hc1, hq1⟩
    | none =>
      simp only
      obtain ⟨a2, hc2, hq2⟩ := ih s1
      refine ⟨a1 ++ a2, by rw [hc2, hc1, List.append_assoc], ?_⟩
      intro c hc
      rcases List.mem_append.1 hc with hc | hc
      · exact hq1 c hc
      · exact hq2 c hc

end BulkImporter
namespace BulkImporter

theorem attempt_never_publishes {σ : Type} (reg : Registry σ)
    (hfound : ∀ ref remote, (reg.orbInfo ref remote).1 = .found)
    (orb : VersionedOrb) (s : Session σ) :
    (attempt reg orb s).1 = .alreadyThere ∨ ∃ e, (attempt reg orb s).1 = .failed e := by
  cases he : (attempt reg orb s).1 with
  | failed e => exact Or.inr ⟨e, rfl⟩
  | alreadyThere => exact Or.inl rfl
  | published =>
    obtain ⟨_, remote2, remote3, _, _, _, hinfo, _⟩ :=
      attempt_publish_chain reg orb s (Or.inl he)
    have := hfound orb.Ref remote2
    rw [hinfo] at this
    cases this
  | publishFailed e =>
    obtain ⟨_, remote2, remote3, _, _, _, hinfo, _⟩ :=
      attempt_publish_chain reg orb s (Or.inr ⟨e, he⟩)
    have := hfound orb.Ref remote2
    rw [hinfo] at this
    cases this

theorem retryLoop_found {σ : Type} (reg : Registry σ)
    (hfound : ∀ ref remote, (reg.orbInfo ref remote).1 = .found)
    (orb : VersionedOrb) (left iter : Nat) (lastErr : Option ImportError) (s s' : Session σ)
    (h : retryLoop reg orb left iter lastErr s = (none, s')) :
    (lastErr = none ∧ left = 0) ∨
    (s'.availableOrbRefs = s.availableOrbRefs ++ [orb.Ref] ∧
      s'.droppedOrbRefs = s.droppedOrbRefs) := by
  induction left generalizing iter lastErr s with
  | zero =>
    unfold retryLoop at h
    exact Or.inl ⟨(Prod.mk.inj h).1, rfl⟩
  | succ n ih =>
    unfold retryLoop at h
    obtain ⟨ha, hd⟩ := attempt_lists reg orb s
    have hend := attempt_never_publishes reg hfound orb s
    generalize attempt reg orb s = step at h ha hd hend
    obtain ⟨ended, s1⟩ := step
    simp only at ha hd hend
    right
    cases ended with
    | failed e =>
      simp only at h
      rcases ih _ _ _ h with ⟨hc, _⟩ | h'
      · cases hc
      · rw [← ha, ← hd]; exact h'
    | publishFailed e => rcases hend with hc | ⟨_, hc⟩ <;> cases hc
    | published => rcases hend with hc | ⟨_, hc⟩ <;> cases hc
    | alreadyThere =>
      simp only at h
      have := (Prod.mk.inj h).2
      subst this
      exact ⟨by rw [← ha], hd⟩

theorem importLoop_found {σ : Type} (reg : Registry σ)
    (hfound : ∀ ref remote, (reg.orbInfo ref remote).1 = .found)
    (orbs : List VersionedOrb) (s s' : Session σ)
    (h : importLoop reg orbs s = (none, s')) :
    s'.availableOrbRefs = s.availableOrbRefs ++ orbs.map VersionedOrb.Ref ∧
    s'.droppedOrbRefs = s.droppedOrbRefs := by
  induction orbs generalizing s with
  | nil =>
    unfold importLoop at h
    have := (Prod.mk.inj h).2
    subst this
    simp
  | cons orb rest ih =>
    unfold importLoop at h
    cases hr : retryLoop reg orb maxImportRetries 0 none s with
    | mk lastErr s1 =>
      rw [hr] at h
      cases lastErr with
      | some e => simp only at h; cases (Prod.mk.inj h).1
      | none =>
        simp only at h
        obtain ⟨i1, i2⟩ := ih s1 h
        rcases retryLoop_found reg hfound orb _ _ _ s s1 hr with ⟨_, hc⟩ | ⟨h1, h2⟩
        · cases hc
        · rw [i1, i2, h1, h2]
          simp

theorem ensureNamespace_responsive {σ : Type} (reg : Registry σ)
    (hns : ∀ ns remote, ∃ b, (reg.namespaceExists ns remote).1 = .ok b)
    (hcreate : ∀ ns remote, ∃ u, (reg.createImportedNamespace ns remote).1 = .ok u)
    (ns : Str) (s : Session σ) : (ensureNamespace reg ns s).1 = none := by
  unfold ensureNamespace
  cases s.nsExists.get? ns with
  | some _ => rfl
  | none =>
    simp only
    obtain ⟨b, hb⟩ := hns ns s.remote
    cases h1 : reg.namespaceExists ns s.remote with
    | mk reply remote1 =>
      rw [h1] at hb
      simp only at hb
      subst hb
      simp only
      cases b with
      | true => rfl
      | false =>
        simp only [Bool.false_eq_true, if_false]
        obtain ⟨u, hu⟩ := hcreate ns remote1
        cases h2 : reg.createImportedNamespace ns remote1 with
        | mk reply2 remote2 =>
          rw [h2] at hu
          simp only at hu
          subst hu
          rfl

theorem ensureFamily_responsive {σ : Type} (reg : Registry σ)
    (hid : ∀ name remote, ∃ id, (reg.runOrbIdQuery name remote).1 = .ok id)
    (hreg : ∀ ns short remote, ∃ id, (reg.createImportedOrb ns short remote).1 = .ok id)
    (orb : VersionedOrb) (ns short : Str) (s : Session σ) :
    ∃ id, (ensureFamily reg orb ns short s).1 = .ok id := by
  unfold ensureFamily
  cases s.orbIDs.get? orb.Name with
  | some id => exact ⟨id, rfl⟩
  | none =>
    simp only
    unfold OrbIDUnsafe
    obtain ⟨id, hb⟩ := hid orb.Name s.remote
    cases h1 : reg.runOrbIdQuery orb.Name s.remote with
    | mk reply remote1 =>
      rw [h1] at hb
      simp only at hb
      subst hb
      simp only
      by_cases he : id = []
      · simp only [he, if_true]
        obtain ⟨u, hu⟩ := hreg ns short remote1
        cases h2 : reg.createImportedOrb ns short remote1 with
        | mk reply2 remote2 =>
          rw [h2] at hu
          simp only at hu
          subst hu
          exact ⟨u, rfl⟩
      · simp only [he, if_false]
        exact ⟨id, rfl⟩

theorem attempt_responsive {σ : Type} (reg : Registry σ)
    (hns : ∀ ns remote, ∃ b, (reg.namespaceExists ns remote).1 = .ok b)
    (hcreate : ∀ ns remote, ∃ u, (reg.createImportedNamespace ns remote).1 = .ok u)
    (hid : ∀ name remote, ∃ id, (reg.runOrbIdQuery name remote).1 = .ok id)
    (hreg : ∀ ns short remote, ∃ id, (reg.createImportedOrb ns short remote).1 = .ok id)
    (hfound : ∀ ref remote, (reg.orbInfo ref remote).1 = .found)
    (orb : VersionedOrb) (s : Session σ) : (attempt reg orb s).1 = .alreadyThere := by
  unfold attempt
  simp only
  have h1 := ensureNamespace_responsive reg hns hcreate ((orb.Name.splitOn '/').headD []) s
  generalize ensureNamespace reg ((orb.Name.splitOn '/').headD []) s = step1 at h1 ⊢
  obtain ⟨r1, s1⟩ := step1
  simp only at h1
  subst h1
  simp only
  obtain ⟨id, h2⟩ := ensureFamily_responsive reg hid hreg orb ((orb.Name.splitOn '/').headD [])
    (List.intercalate ['/'] (orb.Name.splitOn '/').tail) s1
  generalize ensureFamily reg orb ((orb.Name.splitOn '/').headD [])
    (List.intercalate ['/'] (orb.Name.splitOn '/').tail) s1 = step2 at h2 ⊢
  obtain ⟨r2, s2⟩ := step2
  simp only at h2
  subst h2
  simp only
  have h3 := hfound orb.Ref s2.remote
  cases hinfo : reg.orbInfo orb.Ref s2.remote with
  | mk r3 remote3 =>
    rw [hinfo] at h3
    simp only at h3
    subst h3
    rfl

theorem importLoop_responsive {σ : Type} (reg : Registry σ)
    (hatt : ∀ orb s, (attempt reg orb s).1 = .alreadyThere)
    (orbs : List VersionedOrb) (s : Session σ) : (importLoop reg orbs s).1 = none := by
  induction orbs generalizing s with
  | nil => rfl
  | cons orb rest ih =>
    unfold importLoop
    have hr : retryLoop reg orb maxImportRetries 0 none s =
        (none, { (attempt reg orb s).2 with
          availableOrbRefs := (attempt reg orb s).2.availableOrbRefs ++ [orb.Ref] }) := by
      show retryLoop reg orb (2 + 1) 0 none s = _
      unfold retryLoop
      have := hatt orb s
      generalize attempt reg orb s = step at this ⊢
      obtain ⟨ended, s1⟩ := step
      simp only at this
      subst this
      rfl
    rw [hr]
    exact ih _

/-- C12. No publish for an existing version.  For any way for the registry to
respond:
(1) an attempt that makes a publish call is one whose existence check replied
that the version does not exist; the publish call is made in the state of the
registry right after that reply, and no other call of the attempt is a publish
call;
(2) an attempt that ends otherwise makes no publish call;
(3) when the existence check of an attempt replies that the version is there,
the loop over the attempts ends with this attempt, whatever the number of
attempts left: the ref is appended to `availableOrbRefs`, `droppedOrbRefs` is
as before, the existence check is the last call, and none of the calls is a
publish call;
(4) against a registry whose existence check always finds the version, a run of
`ImportOrbsWithRetries` makes no publish call, and when it returns a nil error
it returns the refs of the input, in the order of the input, as available and
an empty dropped list;
(5) when moreover no namespace or family call of that registry fails, the
error is nil. -/
theorem no_publish_for_existing_version {σ : Type} (reg : Registry σ) :
    (∀ orb s,
      ((attempt reg orb s).1 = .published ∨ ∃ e, (attempt reg orb s).1 = .publishFailed e) →
      ∃ before remote2 remote3 orbID reply,
        (∀ c ∈ before, c.isPublish = false) ∧
        reg.orbInfo orb.Ref remote2 = (.versionNotExists, remote3) ∧
        reg.orbImportVersion orb.Source orbID orb.Version remote3 =
          (reply, (attempt reg orb s).2.remote) ∧
        (attempt reg orb s).2.calls = s.calls ++ before ++
          [Call.orbInfo orb.Ref, Call.orbImportVersion orb.Source orbID orb.Version]) ∧
    (∀ orb s,
      ((attempt reg orb s).1 = .alreadyThere ∨ ∃ e, (attempt reg orb s).1 = .failed e) →
      ∃ added, (attempt reg orb s).2.calls = s.calls ++ added ∧
        ∀ c ∈ added, c.isPublish = false) ∧
    (∀ orb s s1 s2 orbID remote3,
      ensureNamespace reg (namespaceOf orb) s = (none, s1) →
      ensureFamily reg orb (namespaceOf orb) (shortnameOf orb) s1 = (.ok orbID, s2) →
      reg.orbInfo orb.Ref s2.remote = (.found, remote3) →
      (∀ left iter lastErr,
        retryLoop reg orb (left + 1) iter lastErr s =
          (none, { s2 with
            remote := remote3
            calls := s2.calls ++ [Call.orbInfo orb.Ref]
            availableOrbRefs := s.availableOrbRefs ++ [orb.Ref] })) ∧
      s2.droppedOrbRefs = s.droppedOrbRefs ∧
      ∃ added, s2.calls ++ [Call.orbInfo orb.Ref] = s.calls ++ added ∧
        ∀ c ∈ added, c.isPublish = false) ∧
    ((∀ ref remote, (reg.orbInfo ref remote).1 = .found) →
      ∀ remote orbs,
        (∀ c ∈ (ImportOrbsWithRetries reg remote orbs).final.calls, c.isPublish = false) ∧
        ((ImportOrbsWithRetries reg remote orbs).err = none →
          (ImportOrbsWithRetries reg remote orbs).availableOrbRefs =
            some (orbs.map VersionedOrb.Ref) ∧
          (ImportOrbsWithRetries reg remote orbs).droppedOrbRefs = some []) ∧
        ((∀ ns remote, ∃ b, (reg.namespaceExists ns remote).1 = .ok b) →
          (∀ ns remote, ∃ u, (reg.createImportedNamespace ns remote).1 = .ok u) →
          (∀ name remote, ∃ id, (reg.runOrbIdQuery name remote).1 = .ok id) →
          (∀ ns short remote, ∃ id, (reg.createImportedOrb ns short remote).1 = .ok id) →
          (ImportOrbsWithRetries reg remote orbs).err = none)) := by
  refine ⟨attempt_publish_chain reg, attempt_calls_publishFree reg, ?_, ?_⟩
  · intro orb s s1 s2 orbID remote3 h1 h2 h3
    have hatt := attempt_found reg orb s s1 s2 orbID remote3 h1 h2 h3
    have hl := attempt_lists reg orb s
    rw [hatt] at hl
    simp only at hl
    refine ⟨?_, hl.2, ?_⟩
    · intro left iter lastErr
      unfold retryLoop
      rw [hatt]
      simp only [hl.1]
    · obtain ⟨added, hc, hq⟩ := attempt_calls_publishFree reg orb s (Or.inl (by rw [hatt]))
      rw [hatt] at hc
      exact ⟨added, hc, hq⟩
  · intro hfound remote orbs
    have hcalls := importLoop_calls reg Call.isPublish
      (fun orb s => attempt_calls_publishFree reg orb s
        (attempt_never_publishes reg hfound orb s)) orbs (Session.start remote)
    have hlists := importLoop_found reg hfound orbs (Session.start remote)
    unfold ImportOrbsWithRetries
    cases hl : importLoop reg orbs (Session.start remote) with
    | mk failure s =>
      rw [hl] at hcalls
      obtain ⟨added, hc, hq⟩ := hcalls
      simp only [Session.start, List.nil_append] at hc
      have hfree : ∀ c ∈ s.calls, c.isPublish = false := by
        intro c hm
        rw [hc] at hm
        exact hq c hm
      cases failure with
      | some e =>
        refine ⟨hfree, (fun h => nomatch h), ?_⟩
        intro hns hcreate hid hreg
        have := importLoop_responsive reg
          (attempt_responsive reg hns hcreate hid hreg hfound) orbs (Session.start remote)
        rw [hl] at this
        cases this
      | none =>
        have := hlists s hl
        simp only [Session.start, List.nil_append] at this
        exact ⟨hfree, fun _ => ⟨by simp only [this.1], by simp only [this.2]⟩, fun _ _ _ _ => rfl⟩

theorem no_publish_for_existing_version_witness :
    (∀ c ∈ (ImportOrbsWithRetries Examples.fullRegistry () Examples.cargo).final.calls,
      c.isPublish = false) ∧
    (ImportOrbsWithRetries Examples.fullRegistry () Examples.cargo).err = none ∧
    (ImportOrbsWithRetries Examples.fullRegistry () Examples.cargo).availableOrbRefs =
      some (Examples.cargo.map VersionedOrb.Ref) ∧
    (ImportOrbsWithRetries Examples.fullRegistry () Examples.cargo).droppedOrbRefs = some [] :=
  have h := (no_publish_for_existing_version Examples.fullRegistry).2.2.2
    (fun _ _ => rfl) () Examples.cargo
  have herr := h.2.2 (fun _ _ => ⟨true, rfl⟩) (fun _ _ => ⟨(), rfl⟩)
    (fun _ _ => ⟨"id".toList, rfl⟩) (fun _ _ _ => ⟨"id".toList, rfl⟩)
  ⟨h.1, herr, (h.2.1 herr).1, (h.2.1 herr).2⟩

end BulkImporter
namespace BulkImporter

theorem ensureNamespace_error_isSetup {σ : Type} (reg : Registry σ) (ns : Str) (s : Session σ)
    (e : ImportError) (h : (ensureNamespace reg ns s).1 = some e) :
    (∃ msg, e = .queryingNamespace ns msg) ∨ (∃ msg, e = .creatingNamespace ns msg) := by
  unfold ensureNamespace at h
  cases hc : s.nsExists.get? ns with
  | some _ => rw [hc] at h; cases h
  | none =>
    rw [hc] at h
    simp only at h
    cases h1 : reg.namespaceExists ns s.remote with
    | mk reply remote1 =>
      rw [h1] at h
      cases reply with
      | error err =>
        simp only at h
        exact Or.inl ⟨err, (Option.some.inj h).symm⟩
      | ok doesExist =>
        simp only at h
        cases doesExist with
        | true => simp at h
        | false =>
          simp only [Bool.false_eq_true, if_false] at h
          cases h2 : reg.createImportedNamespace ns remote1 with
          | mk reply2 remote2 =>
            rw [h2] at h
            cases reply2 with
            | error err =>
              simp only at h
              exact Or.inr ⟨err, (Option.some.inj h).symm⟩
            | ok _ => simp at h

theorem ensureFamily_error_isSetup {σ : Type} (reg : Registry σ) (orb : VersionedOrb)
    (ns short : Str) (s : Session σ) (e : ImportError)
    (h : (ensureFamily reg orb ns short s).1 = .error e) :
    (∃ msg, e = .queryingOrb ns msg) ∨ (∃ msg, e = .registeringOrb orb.Name msg) := by
  unfold ensureFamily at h
  cases hc : s.orbIDs.get? orb.Name with
  | some _ => rw [hc] at h; cases h
  | none =>
    rw [hc] at h
    simp only at h
    cases h1 : OrbIDUnsafe reg orb.Name s.remote with
    | mk reply remote1 =>
      rw [h1] at h
      cases reply with
      | error err =>
        simp only at h
        exact Or.inl ⟨err, (Except.error.inj h).symm⟩
      | ok orbID =>
        simp only at h
        by_cases hid : orbID = []
        · simp only [hid, if_true] at h
          cases h2 : reg.createImportedOrb ns short remote1 with
          | mk reply2 remote2 =>
            rw [h2] at h
            cases reply2 with
            | error err =>
              simp only at h
              exact Or.inr ⟨err, (Except.error.inj h).symm⟩
            | ok _ => simp at h
        · simp only [hid, if_false] at h
          cases h

/-- The error of an attempt that ends before the publish call is one of the
five errors of the steps before it; the error of a failing publish call is the
publish error. -/
theorem attempt_error_kind {σ : Type} (reg : Registry σ) (orb : VersionedOrb) (s : Session σ) :
    (∀ e, (attempt reg orb s).1 = .failed e →
      (∃ msg, e = .queryingNamespace (namespaceOf orb) msg) ∨
      (∃ msg, e = .creatingNamespace (namespaceOf orb) msg) ∨
      (∃ msg, e = .queryingOrb (namespaceOf orb) msg) ∨
      (∃ msg, e = .registeringOrb orb.Name msg) ∨
      (∃ msg, e = .queryingOrbInfo orb.Ref msg)) ∧
    (∀ e, (attempt reg orb s).1 = .publishFailed e →
      ∃ hint msg, e = .publishing orb.Ref hint msg) := by
  unfold attempt namespaceOf
  simp only
  have e1 := ensureNamespace_error_isSetup reg ((orb.Name.splitOn '/').headD []) s
  generalize ensureNamespace reg ((orb.Name.splitOn '/').headD []) s = step1 at e1 ⊢
  obtain ⟨r1, s1⟩ := step1
  cases r1 with
  | some lastErr =>
    simp only
    refine ⟨?_, fun e h => nomatch h⟩
    intro e h
    cases h
    rcases e1 _ rfl with h | h
    · exact Or.inl h
    · exact Or.inr (Or.inl h)
  | none =>
    simp only
    have e2 := ensureFamily_error_isSetup reg orb ((orb.Name.splitOn '/').headD [])
      (List.intercalate ['/'] (orb.Name.splitOn '/').tail) s1
    generalize ensureFamily reg orb ((orb.Name.splitOn '/').headD [])
      (List.intercalate ['/'] (orb.Name.splitOn '/').tail) s1 = step2 at e2 ⊢
    obtain ⟨r2, s2⟩ := step2
    cases r2 with
    | error lastErr =>
      simp only
      refine ⟨?_, fun e h => nomatch h⟩
      intro e h
      cases h
      rcases e2 _ rfl with h | h
      · exact Or.inr (Or.inr (Or.inl h))
      · exact Or.inr (Or.inr (Or.inr (Or.inl h)))
    | ok orbID =>
      simp only
      rcases reg.orbInfo orb.Ref s2.remote with ⟨r3, remote3⟩
      cases r3 with
      | found => exact ⟨(fun e h => nomatch h), (fun e h => nomatch h)⟩
      | failed err =>
        refine ⟨?_, fun e h => nomatch h⟩
        intro e h
        cases h
        exact Or.inr (Or.inr (Or.inr (Or.inr ⟨err, rfl⟩)))
      | versionNotExists =>
        simp only
        rcases reg.orbImportVersion orb.Source orbID orb.Version remote3 with ⟨r4, remote4⟩
        cases r4 with
        | error err =>
          refine ⟨(fun e h => nomatch h), ?_⟩
          intro e h
          cases h
          exact ⟨_, err, rfl⟩
        | ok _ => exact ⟨(fun e h => nomatch h), (fun e h => nomatch h)⟩

end BulkImporter
namespace BulkImporter

/-- C15. The last attempt decides.  Let none of the three attempts for the
package `orb` succeed: each ends with a failure before the publish call or with
a failing publish call, of whatever kind (`s1`, `s2`, `s3` being the variables
after these attempts).  Then, whatever the first two failures were:
(1) when the third attempt ends with a failing publish call, the loop over the
attempts ends with a nil `lastErr`, the ref appended to `droppedOrbRefs`, and
the run goes on with the packages after `orb`;
(2) when the third attempt ends before the publish call with the error `e`,
the loop ends with `lastErr = e`, the run returns the error made of the ref,
`maxImportRetries = 3` and `e`, with nil lists, and `e` is the error of the
namespace check, the namespace creation, the family lookup, the family
creation, or of an existence check that failed otherwise than by not finding
the version;
(3) the ref is appended to `droppedOrbRefs` if and only if the third attempt
ends with a failing publish call, and `lastErr` is not nil if and only if the
third attempt ends before the publish call; `availableOrbRefs` is unchanged. -/
theorem last_attempt_decides {σ : Type} (reg : Registry σ) (orb : VersionedOrb)
    (rest : List VersionedOrb) (s0 s1 s2 s3 : Session σ) (a1 a2 a3 : Ended)
    (h1 : attempt reg orb s0 = (a1, s1))
    (h2 : attempt reg orb s1 = (a2, s2))
    (h3 : attempt reg orb s2 = (a3, s3))
    (f1 : a1.isFailure = true) (f2 : a2.isFailure = true) (f3 : a3.isFailure = true) :
    (∀ e, a3 = .publishFailed e →
      retryLoop reg orb maxImportRetries 0 none s0 =
        (none, { s3 with droppedOrbRefs := s0.droppedOrbRefs ++ [orb.Ref] }) ∧
      importLoop reg (orb :: rest) s0 =
        importLoop reg rest { s3 with droppedOrbRefs := s0.droppedOrbRefs ++ [orb.Ref] }) ∧
    (∀ e, a3 = .failed e →
      retryLoop reg orb maxImportRetries 0 none s0 = (some e, s3) ∧
      importLoop reg (orb :: rest) s0 = (some ⟨orb.Ref, maxImportRetries, e⟩, s3) ∧
      (∀ remote pre, importLoop reg pre (Session.start remote) = (none, s0) →
        (ImportOrbsWithRetries reg remote (pre ++ orb :: rest)).err =
          some ⟨orb.Ref, maxImportRetries, e⟩ ∧
        (ImportOrbsWithRetries reg remote (pre ++ orb :: rest)).availableOrbRefs = none ∧
        (ImportOrbsWithRetries reg remote (pre ++ orb :: rest)).droppedOrbRefs = none ∧
        (ImportOrbsWithRetries reg remote (pre ++ orb :: rest)).final.calls = s3.calls) ∧
      ((∃ msg, e = .queryingNamespace (namespaceOf orb) msg) ∨
        (∃ msg, e = .creatingNamespace (namespaceOf orb) msg) ∨
        (∃ msg, e = .queryingOrb (namespaceOf orb) msg) ∨
        (∃ msg, e = .registeringOrb orb.Name msg) ∨
        (∃ msg, e = .queryingOrbInfo orb.Ref msg))) ∧
    ((retryLoop reg orb maxImportRetries 0 none s0).2.droppedOrbRefs =
        s0.droppedOrbRefs ++ [orb.Ref] ↔ ∃ e, a3 = .publishFailed e) ∧
    ((retryLoop reg orb maxImportRetries 0 none s0).1 ≠ none ↔ ∃ e, a3 = .failed e) ∧
    (retryLoop reg orb maxImportRetries 0 none s0).2.availableOrbRefs =
      s0.availableOrbRefs := by
  have l1 := attempt_lists reg orb s0
  have l2 := attempt_lists reg orb s1
  have l3 := attempt_lists reg orb s2
  have k3 := attempt_error_kind reg orb s2
  rw [h1] at l1
  rw [h2] at l2
  rw [h3] at l3 k3
  simp only at l1 l2 l3 k3
  have hd : s3.droppedOrbRefs = s0.droppedOrbRefs := by rw [l3.2, l2.2, l1.2]
  have ha : s3.availableOrbRefs = s0.availableOrbRefs := by rw [l3.1, l2.1, l1.1]
  have hloop : retryLoop reg orb maxImportRetries 0 none s0 =
      match a3 with
      | .publishFailed _ => (none, { s3 with droppedOrbRefs := s0.droppedOrbRefs ++ [orb.Ref] })
      | .failed e => (some e, s3)
      | _ => (none, s3) := by
    cases a1 <;> cases f1 <;> cases a2 <;> cases f2 <;> cases a3 <;> cases f3 <;>
      simp [retryLoop, maxImportRetries, h1, h2, h3, hd]
  refine ⟨?_, ?_, ?_, ?_, ?_⟩
  · intro e he
    subst he
    simp only at hloop
    refine ⟨hloop, ?_⟩
    conv_lhs => unfold importLoop
    rw [hloop]
  · intro e he
    subst he
    simp only at hloop
    have himp : importLoop reg (orb :: rest) s0 = (some ⟨orb.Ref, maxImportRetries, e⟩, s3) := by
      conv_lhs => unfold importLoop
      rw [hloop]
    refine ⟨hloop, himp, ?_, k3.1 e rfl⟩
    intro remote pre hpre
    unfold ImportOrbsWithRetries
    rw [importLoop_append reg pre _ _ s0 hpre, himp]
    exact ⟨rfl, rfl, rfl, rfl⟩
  · rw [hloop]
    cases a3 with
    | failed e =>
      simp only [hd]
      constructor
      · intro h
        have := congrArg List.length h
        simp at this
      · rintro ⟨e', h⟩; cases h
    | publishFailed e => exact ⟨fun _ => ⟨e, rfl⟩, fun _ => rfl⟩
    | published => cases f3
    | alreadyThere => cases f3
  · rw [hloop]
    cases a3 with
    | failed e => exact ⟨fun _ => ⟨e, rfl⟩, fun _ h => nomatch h⟩
    | publishFailed e =>
      constructor
      · intro h; exact absurd rfl h
      · rintro ⟨e', h⟩; cases h
    | published => cases f3
    | alreadyThere => cases f3
  · rw [hloop]
    cases a3 <;> exact ha

theorem last_attempt_decides_witness :
    (ImportOrbsWithRetries Examples.flakyInfoRegistry 0 Examples.cargo).err =
      some ⟨"ns/a@1.0.0".toList, 3,
        .queryingOrbInfo "ns/a@1.0.0".toList "down".toList⟩ ∧
    ((ImportOrbsWithRetries Examples.flakyInfoRegistry 0 Examples.cargo).final.calls.filter
      Call.isPublish).length = 2 ∧
    (retryLoop Examples.flakyNamespaceRegistry (Examples.orb "ns/a@1.0.0" "")
      maxImportRetries 0 none (Session.start 0)).2.droppedOrbRefs = ["ns/a@1.0.0".toList] ∧
    (retryLoop Examples.flakyNamespaceRegistry (Examples.orb "ns/a@1.0.0" "")
      maxImportRetries 0 none (Session.start 0)).2.calls =
      [Call.namespaceExists "ns".toList, Call.namespaceExists "ns".toList,
        Call.namespaceExists "ns".toList, Call.orbId "ns/a".toList,
        Call.orbInfo "ns/a@1.0.0".toList,
        Call.orbImportVersion [] "id".toList "1.0.0".toList] :=
  have hA := ((last_attempt_decides Examples.flakyInfoRegistry (Examples.orb "ns/a@1.0.0" "")
    [Examples.orb "ns/b@1.0.0" "bad", Examples.orb "ns/c@1.0.0" ""]
    (Session.start 0) _ _ _ _ _ _ rfl rfl rfl (by decide) (by decide) (by decide)).2.1
      (.queryingOrbInfo "ns/a@1.0.0".toList "down".toList) (by decide)).2.2.1 0 [] rfl
  have hB := ((last_attempt_decides Examples.flakyNamespaceRegistry
    (Examples.orb "ns/a@1.0.0" "") []
    (Session.start 0) _ _ _ _ _ _ rfl rfl rfl (by decide) (by decide) (by decide)).1
      (.publishing "ns/a@1.0.0".toList false "refused".toList) (by decide)).1
  ⟨hA.1, by decide, congrArg (fun r => r.2.droppedOrbRefs) hB, by decide⟩

end BulkImporter
namespace BulkImporter

theorem ensureNamespace_cached {σ : Type} (reg : Registry σ) (ns : Str) (s : Session σ)
    (h : s.nsExists.get? ns ≠ none) : ensureNamespace reg ns s = (none, s) := by
  unfold ensureNamespace
  cases hc : s.nsExists.get? ns with
  | some _ => rfl
  | none => exact absurd hc h

theorem ensureFamily_cached {σ : Type} (reg : Registry σ) (orb : VersionedOrb)
    (ns short : Str) (s : Session σ) (id : Str) (h : s.orbIDs.get? orb.Name = some id) :
    ensureFamily reg orb ns short s = (.ok id, s) := by
  unfold ensureFamily
  rw [h]

/-- What the namespace step does to the caches and to the log. -/
theorem ensureNamespace_cache {σ : Type} (reg : Registry σ) (ns : Str) (s : Session σ) :
    (ensureNamespace reg ns s).2.orbIDs = s.orbIDs ∧
    (∀ k, (ensureNamespace reg ns s).2.nsExists.get? k ≠ none ↔
      (s.nsExists.get? k ≠ none ∨ (k = ns ∧ (ensureNamespace reg ns s).1 = none))) ∧
    ∃ added, (ensureNamespace reg ns s).2.calls = s.calls ++ added ∧
      ∀ c ∈ added, s.nsExists.get? ns = none ∧
        (c = Call.namespaceExists ns ∨ c = Call.createImportedNamespace ns) := by
  have hset : ∀ k, (s.nsExists.set ns true).get? k ≠ none ↔
      (s.nsExists.get? k ≠ none ∨ (k = ns ∧ True)) := by
    intro k
    rw [GoMap.get?_set]
    by_cases hk : ns = k
    · simp [hk]
    · have hk2 : ¬ k = ns := fun e => hk e.symm
      simp [hk, hk2]
  unfold ensureNamespace
  cases hc : s.nsExists.get? ns with
  | some b =>
    refine ⟨rfl, ?_, [], (List.append_nil _).symm, fun _ h => nomatch h⟩
    intro k
    constructor
    · exact fun h => Or.inl h
    · rintro (h | ⟨rfl, _⟩)
      · exact h
      · simp [hc]
  | none =>
    simp only
    rcases reg.namespaceExists ns s.remote with ⟨reply, remote1⟩
    cases reply with
    | error err =>
      refine ⟨rfl, ?_, [Call.namespaceExists ns], rfl, ?_⟩
      · intro k
        simp
      · intro c hm
        exact ⟨trivial, Or.inl (List.mem_singleton.1 hm)⟩
    | ok doesExist =>
      simp only
      cases doesExist with
      | true =>
        refine ⟨rfl, ?_, [Call.namespaceExists ns], rfl, ?_⟩
        · intro k
          simpa using hset k
        · intro c hm
          exact ⟨trivial, Or.inl (List.mem_singleton.1 hm)⟩
      | false =>
        simp only [Bool.false_eq_true, if_false]
        rcases reg.createImportedNamespace ns remote1 with ⟨reply2, remote2⟩
        cases reply2 with
        | error err =>
          refine ⟨rfl, ?_, [Call.namespaceExists ns, Call.createImportedNamespace ns],
            by simp, ?_⟩
          · intro k
            simp
          · intro c hm
            refine ⟨trivial, ?_⟩
            simpa using hm
        | ok _ =>
          refine ⟨rfl, ?_, [Call.namespaceExists ns, Call.createImportedNamespace ns],
            by simp, ?_⟩
          · intro k
            simpa using hset k
          · intro c hm
            refine ⟨trivial, ?_⟩
            simpa using hm

/-- What the family step does to the caches and to the log. -/
theorem ensureFamily_cache {σ : Type} (reg : Registry σ) (orb : VersionedOrb)
    (ns short : Str) (s : Session σ) :
    (ensureFamily reg orb ns short s).2.nsExists = s.nsExists ∧
    (∀ k, (ensureFamily reg orb ns short s).2.orbIDs.get? k ≠ none ↔
      (s.orbIDs.get? k ≠ none ∨
        (k = orb.Name ∧ ∃ id, (ensureFamily reg orb ns short s).1 = .ok id))) ∧
    (∀ k id, s.orbIDs.get? k = some id →
      (ensureFamily reg orb ns short s).2.orbIDs.get? k = some id) ∧
    ∃ added, (ensureFamily reg orb ns short s).2.calls = s.calls ++ added ∧
      ∀ c ∈ added, s.orbIDs.get? orb.Name = none ∧
        (c = Call.orbId orb.Name ∨ c = Call.createImportedOrb ns short) := by
  unfold ensureFamily
  cases hc : s.orbIDs.get? orb.Name with
  | some id0 =>
    refine ⟨rfl, ?_, fun _ _ h => h, [], (List.append_nil _).symm, fun _ h => nomatch h⟩
    intro k
    constructor
    · exact fun h => Or.inl h
    · rintro (h | ⟨rfl, _⟩)
      · exact h
      · simp [hc]
  | none =>
    have hset : ∀ v k, (s.orbIDs.set orb.Name v).get? k ≠ none ↔
        (s.orbIDs.get? k ≠ none ∨ (k = orb.Name ∧ True)) := by
      intro v k
      rw [GoMap.get?_set]
      by_cases hk : orb.Name = k
      · simp [hk]
      · have hk2 : ¬ k = orb.Name := fun e => hk e.symm
        simp [hk, hk2]
    have hkeep : ∀ v k id, s.orbIDs.get? k = some id →
        (s.orbIDs.set orb.Name v).get? k = some id := by
      intro v k id h
      rw [GoMap.get?_set]
      by_cases hk : orb.Name = k
      · subst hk
        rw [hc] at h
        cases h
      · simp [hk, h]
    simp only
    rcases OrbIDUnsafe reg orb.Name s.remote with ⟨reply, remote1⟩
    cases reply with
    | error err =>
      refine ⟨rfl, ?_, fun _ _ h => h, [Call.orbId orb.Name], rfl, ?_⟩
      · intro k
        simp
      · intro c hm
        exact ⟨trivial, Or.inl (List.mem_singleton.1 hm)⟩
    | ok orbID =>
      simp only
      by_cases hid : orbID = []
      · simp only [hid, if_true]
        rcases reg.createImportedOrb ns short remote1 with ⟨reply2, remote2⟩
        cases reply2 with
        | error err =>
          refine ⟨rfl, ?_, fun _ _ h => h,
            [Call.orbId orb.Name, Call.createImportedOrb ns short], by simp, ?_⟩
          · intro k
            simp
          · intro c hm
            refine ⟨trivial, ?_⟩
            simpa using hm
        | ok newID =>
          refine ⟨rfl, ?_, hkeep newID,
            [Call.orbId orb.Name, Call.createImportedOrb ns short], by simp, ?_⟩
          · intro k
            simpa using hset newID k
          · intro c hm
            refine ⟨trivial, ?_⟩
            simpa using hm
      · rw [if_neg hid]
        refine ⟨rfl, ?_, hkeep orbID, [Call.orbId orb.Name], rfl, ?_⟩
        · intro k
          simpa using hset orbID k
        · intro c hm
          exact ⟨trivial, Or.inl (List.mem_singleton.1 hm)⟩

end BulkImporter
namespace BulkImporter

/-- What one attempt does to the caches and to the log. -/
theorem attempt_cache {σ : Type} (reg : Registry σ) (orb : VersionedOrb) (s : Session σ) :
    (∀ k, (attempt reg orb s).2.nsExists.get? k ≠ none ↔
      (s.nsExists.get? k ≠ none ∨
        (k = namespaceOf orb ∧ (ensureNamespace reg (namespaceOf orb) s).1 = none))) ∧
    (∀ k, (attempt reg orb s).2.orbIDs.get? k ≠ none ↔
      (s.orbIDs.get? k ≠ none ∨
        (k = orb.Name ∧ ∃ s1 id s2, ensureNamespace reg (namespaceOf orb) s = (none, s1) ∧
          ensureFamily reg orb (namespaceOf orb) (shortnameOf orb) s1 = (.ok id, s2)))) ∧
    (∀ k id, s.orbIDs.get? k = some id → (attempt reg orb s).2.orbIDs.get? k = some id) ∧
    ∃ added, (attempt reg orb s).2.calls = s.calls ++ added ∧
      (∀ c ∈ added, c.isNamespace = true → s.nsExists.get? (namespaceOf orb) = none ∧
        (c = Call.namespaceExists (namespaceOf orb) ∨
          c = Call.createImportedNamespace (namespaceOf orb))) ∧
      (∀ c ∈ added, c.isFamily = true → s.orbIDs.get? orb.Name = none ∧
        (c = Call.orbId orb.Name ∨
          c = Call.createImportedOrb (namespaceOf orb) (shortnameOf orb))) := by
  have hatt : attempt reg orb s =
      match ensureNamespace reg (namespaceOf orb) s with
      | (some lastErr, s1) => (.failed lastErr, s1)
      | (none, s1) =>
        match ensureFamily reg orb (namespaceOf orb) (shortnameOf orb) s1 with
        | (.error lastErr, s2) => (.failed lastErr, s2)
        | (.ok orbID, s2) =>
          match reg.orbInfo orb.Ref s2.remote with
          | (.versionNotExists, remote3) =>
            let s3 := { s2 with remote := remote3, calls := s2.calls ++ [Call.orbInfo orb.Ref] }
            match reg.orbImportVersion orb.Source orbID orb.Version s3.remote with
            | (.error err, remote4) =>
              (.publishFailed
                  (.publishing orb.Ref ("ERROR IN CONFIG FILE".toList.isPrefixOf err) err),
                { s3 with
                  remote := remote4
                  calls := s3.calls ++ [Call.orbImportVersion orb.Source orbID orb.Version] })
            | (.ok _, remote4) =>
              (.published,
                { s3 with
                  remote := remote4
                  calls := s3.calls ++ [Call.orbImportVersion orb.Source orbID orb.Version] })
          | (.failed err, remote3) =>
            (.failed (.queryingOrbInfo orb.Ref err),
              { s2 with remote := remote3, calls := s2.calls ++ [Call.orbInfo orb.Ref] })
          | (.found, remote3) =>
            (.alreadyThere,
              { s2 with remote := remote3, calls := s2.calls ++ [Call.orbInfo orb.Ref] }) := rfl
  rw [hatt]
  obtain ⟨n1, n2, a1, n3, n4⟩ := ensureNamespace_cache reg (namespaceOf orb) s
  generalize ensureNamespace reg (namespaceOf orb) s = step1 at n1 n2 n3 ⊢
  obtain ⟨r1, s1⟩ := step1
  simp only at n1 n2 n3
  have nsCalls : ∀ c ∈ a1, c.isNamespace = true → s.nsExists.get? (namespaceOf orb) = none ∧
      (c = Call.namespaceExists (namespaceOf orb) ∨
        c = Call.createImportedNamespace (namespaceOf orb)) := fun c hc _ => n4 c hc
  have nsNotFamily : ∀ c ∈ a1, c.isFamily = true → False := by
    intro c hc hf
    rcases (n4 c hc).2 with h | h <;> subst h <;> cases hf
  cases r1 with
  | some lastErr =>
    dsimp only
    refine ⟨n2, ?_, fun k id h => by rw [n1]; exact h, a1, n3, nsCalls,
      fun c hc hf => (nsNotFamily c hc hf).elim⟩
    intro k
    rw [n1]
    constructor
    · exact fun h => Or.inl h
    · rintro (h | ⟨_, _, _, _, h, _⟩)
      · exact h
      · cases (Prod.mk.inj h).1
  | none =>
    dsimp only
    obtain ⟨f1, f2, f3, a2, f4, f5⟩ :=
      ensureFamily_cache reg orb (namespaceOf orb) (shortnameOf orb) s1
    generalize hstep2 : ensureFamily reg orb (namespaceOf orb) (shortnameOf orb) s1 = step2
      at f1 f2 f3 f4 ⊢
    obtain ⟨r2, s2⟩ := step2
    simp only at f1 f2 f3 f4
    rw [n1] at f2 f3 f5
    have hcalls : s2.calls = s.calls ++ (a1 ++ a2) := by rw [f4, n3, List.append_assoc]
    have hns2 : ∀ k, s2.nsExists.get? k ≠ none ↔
        (s.nsExists.get? k ≠ none ∨ (k = namespaceOf orb ∧ (none : Option ImportError) = none)) := by
      intro k
      rw [f1]
      exact n2 k
    have hid2 : ∀ k, s2.orbIDs.get? k ≠ none ↔
        (s.orbIDs.get? k ≠ none ∨
          (k = orb.Name ∧ ∃ t1 id t2, ((none : Option ImportError), s1) = (none, t1) ∧
            ensureFamily reg orb (namespaceOf orb) (shortnameOf orb) t1 = (.ok id, t2))) := by
      intro k
      rw [f2 k]
      constructor
      · rintro (h | ⟨hk, id, hid⟩)
        · exact Or.inl h
        · subst hid
          exact Or.inr ⟨hk, s1, id, s2, rfl, hstep2⟩
      · rintro (h | ⟨hk, t1, id, t2, ht, hf⟩)
        · exact Or.inl h
        · have := (Prod.mk.inj ht).2
          subst this
          rw [hstep2] at hf
          exact Or.inr ⟨hk, id, (Prod.mk.inj hf).1⟩
    have c12ns : ∀ c ∈ a1 ++ a2, c.isNamespace = true →
        s.nsExists.get? (namespaceOf orb) = none ∧
        (c = Call.namespaceExists (namespaceOf orb) ∨
          c = Call.createImportedNamespace (namespaceOf orb)) := by
      intro c hc hn
      rcases List.mem_append.1 hc with hc | hc
      · exact n4 c hc
      · rcases (f5 c hc).2 with h | h <;> subst h <;> cases hn
    have c12fam : ∀ c ∈ a1 ++ a2, c.isFamily = true → s.orbIDs.get? orb.Name = none ∧
        (c = Call.orbId orb.Name ∨
          c = Call.createImportedOrb (namespaceOf orb) (shortnameOf orb)) := by
      intro c hc hf
      rcases List.mem_append.1 hc with hc | hc
      · exact (nsNotFamily c hc hf).elim
      · exact f5 c hc
    have ext : ∀ (more : List Call), (∀ c ∈ more, c.isNamespace = false ∧ c.isFamily = false) →
        (∀ c ∈ (a1 ++ a2) ++ more, c.isNamespace = true →
          s.nsExists.get? (namespaceOf orb) = none ∧
          (c = Call.namespaceExists (namespaceOf orb) ∨
            c = Call.createImportedNamespace (namespaceOf orb))) ∧
        (∀ c ∈ (a1 ++ a2) ++ more, c.isFamily = true → s.orbIDs.get? orb.Name = none ∧
          (c = Call.orbId orb.Name ∨
            c = Call.createImportedOrb (namespaceOf orb) (shortnameOf orb))) := by
      intro more hm
      constructor
      · intro c hc hn
        rcases List.mem_append.1 hc with hc | hc
        · exact c12ns c hc hn
        · rw [(hm c hc).1] at hn; cases hn
      · intro c hc hf
        rcases List.mem_append.1 hc with hc | hc
        · exact c12fam c hc hf
        · rw [(hm c hc).2] at hf; cases hf
    cases r2 with
    | error lastErr =>
      dsimp only
      exact ⟨hns2, hid2, f3, a1 ++ a2, hcalls, c12ns, c12fam⟩
    | ok orbID =>
      dsimp only
      rcases reg.orbInfo orb.Ref s2.remote with ⟨r3, remote3⟩
      have one : ∀ c ∈ [Call.orbInfo orb.Ref], c.isNamespace = false ∧ c.isFamily = false := by
        intro c hc
        rw [List.mem_singleton] at hc
        subst hc
        exact ⟨rfl, rfl⟩
      cases r3 with
      | found =>
        dsimp only
        exact ⟨hns2, hid2, f3, (a1 ++ a2) ++ [Call.orbInfo orb.Ref],
          by simp [hcalls], (ext _ one).1, (ext _ one).2⟩
      | failed err =>
        dsimp only
        exact ⟨hns2, hid2, f3, (a1 ++ a2) ++ [Call.orbInfo orb.Ref],
          by simp [hcalls], (ext _ one).1, (ext _ one).2⟩
      | versionNotExists =>
        dsimp only
        have two : ∀ c ∈ [Call.orbInfo orb.Ref,
            Call.orbImportVersion orb.Source orbID orb.Version],
            c.isNamespace = false ∧ c.isFamily = false := by
          intro c hc
          simp only [List.mem_cons, List.mem_singleton, List.mem_nil_iff, or_false] at hc
          rcases hc with hc | hc <;> subst hc <;> exact ⟨rfl, rfl⟩
        rcases reg.orbImportVersion orb.Source orbID orb.Version remote3 with ⟨r4, remote4⟩
        cases r4 with
        | error err =>
          dsimp only
          exact ⟨hns2, hid2, f3, (a1 ++ a2) ++ [Call.orbInfo orb.Ref,
            Call.orbImportVersion orb.Source orbID orb.Version],
            by simp [hcalls], (ext _ two).1, (ext _ two).2⟩
        | ok _ =>
          dsimp only
          exact ⟨hns2, hid2, f3, (a1 ++ a2) ++ [Call.orbInfo orb.Ref,
            Call.orbImportVersion orb.Source orbID orb.Version],
            by simp [hcalls], (ext _ two).1, (ext _ two).2⟩

end BulkImporter
namespace BulkImporter

theorem namespaceEnsured_snoc {σ : Type} (reg : Registry σ) (k : Str)
    (hist : List (VersionedOrb × Session σ)) (p : VersionedOrb × Session σ) :
    NamespaceEnsured reg k (hist ++ [p]) ↔
      (NamespaceEnsured reg k hist ∨
        (k = namespaceOf p.1 ∧ (ensureNamespace reg (namespaceOf p.1) p.2).1 = none)) := by
  unfold NamespaceEnsured
  constructor
  · rintro ⟨q, hq, h1, h2⟩
    rcases List.mem_append.1 hq with hq | hq
    · exact Or.inl ⟨q, hq, h1, h2⟩
    · rw [List.mem_singleton] at hq
      subst hq
      subst h1
      exact Or.inr ⟨rfl, h2⟩
  · rintro (⟨q, hq, h1, h2⟩ | ⟨h1, h2⟩)
    · exact ⟨q, List.mem_append_left _ hq, h1, h2⟩
    · subst h1
      exact ⟨p, List.mem_append_right _ (List.mem_singleton.2 rfl), rfl, h2⟩

theorem familyEnsured_snoc {σ : Type} (reg : Registry σ) (k : Str)
    (hist : List (VersionedOrb × Session σ)) (p : VersionedOrb × Session σ) :
    FamilyEnsured reg k (hist ++ [p]) ↔
      (FamilyEnsured reg k hist ∨
        (k = p.1.Name ∧ ∃ s1 id s2, ensureNamespace reg (namespaceOf p.1) p.2 = (none, s1) ∧
          ensureFamily reg p.1 (namespaceOf p.1) (shortnameOf p.1) s1 = (.ok id, s2))) := by
  unfold FamilyEnsured
  constructor
  · rintro ⟨q, hq, h1, h2⟩
    rcases List.mem_append.1 hq with hq | hq
    · exact Or.inl ⟨q, hq, h1, h2⟩
    · rw [List.mem_singleton] at hq
      subst hq
      exact Or.inr ⟨h1.symm, h2⟩
  · rintro (⟨q, hq, h1, h2⟩ | ⟨h1, h2⟩)
    · exact ⟨q, List.mem_append_left _ hq, h1, h2⟩
    · exact ⟨p, List.mem_append_right _ (List.mem_singleton.2 rfl), h1.symm, h2⟩

/-- The caches at a point of a run hold the keys they held at its start and
the keys whose ensure step has completed since. -/
theorem Run.caches {σ : Type} {reg : Registry σ} {s0 s : Session σ}
    {hist : List (VersionedOrb × Session σ)} (h : Run reg s0 hist s) :
    (∀ k, s.nsExists.get? k ≠ none ↔
      (s0.nsExists.get? k ≠ none ∨ NamespaceEnsured reg k hist)) ∧
    (∀ k, s.orbIDs.get? k ≠ none ↔
      (s0.orbIDs.get? k ≠ none ∨ FamilyEnsured reg k hist)) := by
  induction h with
  | start =>
    constructor
    · intro k
      constructor
      · exact fun h => Or.inl h
      · rintro (h | ⟨_, hq, _⟩)
        · exact h
        · cases hq
    · intro k
      constructor
      · exact fun h => Or.inl h
      · rintro (h | ⟨_, hq, _⟩)
        · exact h
        · cases hq
  | next orb a d hrun ih =>
    rename_i hist s
    obtain ⟨c1, c2, _, _⟩ := attempt_cache reg orb s
    constructor
    · intro k
      show (attempt reg orb s).2.nsExists.get? k ≠ none ↔ _
      rw [c1 k, ih.1 k, namespaceEnsured_snoc, or_assoc]
    · intro k
      show (attempt reg orb s).2.orbIDs.get? k ≠ none ↔ _
      rw [c2 k, ih.2 k, familyEnsured_snoc, or_assoc]

/-- What is cached at a point of a run stays cached, with the same family id,
at the start of every later attempt and at every later point, and the calls
made in between contain no namespace call for a cached namespace and no
family-id query for a cached family; a later attempt for a package of a
cached namespace makes no namespace call at all, and one for a cached family
makes no family call at all. -/
theorem Run.later {σ : Type} {reg : Registry σ} {s s' : Session σ}
    {hist : List (VersionedOrb × Session σ)} (h : Run reg s hist s') :
    ∃ added, s'.calls = s.calls ++ added ∧
      (∀ ns, s.nsExists.get? ns ≠ none →
        s'.nsExists.get? ns ≠ none ∧
        Call.namespaceExists ns ∉ added ∧ Call.createImportedNamespace ns ∉ added ∧
        ∀ p ∈ hist, p.2.nsExists.get? ns ≠ none ∧ (namespaceOf p.1 = ns →
          ∃ more, (attempt reg p.1 p.2).2.calls = p.2.calls ++ more ∧
            ∀ c ∈ more, c.isNamespace = false)) ∧
      (∀ name id, s.orbIDs.get? name = some id →
        s'.orbIDs.get? name = some id ∧ Call.orbId name ∉ added ∧
        ∀ p ∈ hist, p.2.orbIDs.get? name = some id ∧ (p.1.Name = name →
          ∃ more, (attempt reg p.1 p.2).2.calls = p.2.calls ++ more ∧
            ∀ c ∈ more, c.isFamily = false)) := by
  induction h with
  | start =>
    refine ⟨[], (List.append_nil _).symm, ?_, ?_⟩
    · intro ns h
      exact ⟨h, List.not_mem_nil _, List.not_mem_nil _,
        (fun p hp => absurd hp (List.not_mem_nil p))⟩
    · intro name id h
      exact ⟨h, List.not_mem_nil _, (fun p hp => absurd hp (List.not_mem_nil p))⟩
  | next orb a d hrun ih =>
    rename_i hist t
    obtain ⟨added, hc, ihn, ihf⟩ := ih
    obtain ⟨c1, c2, c3, more, hm, mns, mfam⟩ := attempt_cache reg orb t
    refine ⟨added ++ more, ?_, ?_, ?_⟩
    · show (attempt reg orb t).2.calls = _
      rw [hm, hc, List.append_assoc]
    · intro ns h
      obtain ⟨i1, i2, i3, i4⟩ := ihn ns h
      have free : ∀ c ∈ more, c.isNamespace = true →
          (c = Call.namespaceExists ns ∨ c = Call.createImportedNamespace ns) → False := by
        intro c hmem hn hc
        obtain ⟨hnone, hform⟩ := mns c hmem hn
        have : namespaceOf orb = ns := by
          rcases hc with hc | hc <;> rcases hform with hf | hf <;> rw [hc] at hf <;>
            first
            | exact (Call.namespaceExists.inj hf).symm
            | exact (Call.createImportedNamespace.inj hf).symm
            | cases hf
        rw [this] at hnone
        exact i1 hnone
      refine ⟨?_, ?_, ?_, ?_⟩
      · show (attempt reg orb t).2.nsExists.get? ns ≠ none
        exact (c1 ns).2 (Or.inl i1)
      · intro hmem
        rcases List.mem_append.1 hmem with hmem | hmem
        · exact i2 hmem
        · exact free _ hmem rfl (Or.inl rfl)
      · intro hmem
        rcases List.mem_append.1 hmem with hmem | hmem
        · exact i3 hmem
        · exact free _ hmem rfl (Or.inr rfl)
      · intro p hp
        rcases List.mem_append.1 hp with hp | hp
        · exact i4 p hp
        · rw [List.mem_singleton] at hp
          subst hp
          refine ⟨i1, fun hns => ⟨more, hm, ?_⟩⟩
          intro c hmem
          cases hn : c.isNamespace with
          | false => rfl
          | true =>
            have := (mns c hmem hn).1
            rw [hns] at this
            exact absurd this i1
    · intro name id h
      obtain ⟨i1, i2, i4⟩ := ihf name id h
      refine ⟨?_, ?_, ?_⟩
      · show (attempt reg orb t).2.orbIDs.get? name = some id
        exact c3 name id i1
      · intro hmem
        rcases List.mem_append.1 hmem with hmem | hmem
        · exact i2 hmem
        · obtain ⟨hnone, hform⟩ := mfam _ hmem rfl
          rcases hform with hf | hf
          · rw [← Call.orbId.inj hf, i1] at hnone
            cases hnone
          · cases hf
      · intro p hp
        rcases List.mem_append.1 hp with hp | hp
        · exact i4 p hp
        · rw [List.mem_singleton] at hp
          subst hp
          refine ⟨i1, fun hname => ⟨more, hm, ?_⟩⟩
          intro c hmem
          cases hn : c.isFamily with
          | false => rfl
          | true =>
            have := (mfam c hmem hn).1
            rw [hname, i1] at this
            cases this

/-- A run through the attempt `p` passes a point right after that attempt. -/
theorem Run.split {σ : Type} {reg : Registry σ} {s0 s : Session σ}
    {hist : List (VersionedOrb × Session σ)} (h : Run reg s0 hist s) :
    ∀ h1 p h2, hist = h1 ++ p :: h2 →
      ∃ t, Run reg s0 (h1 ++ [p]) t ∧ Run reg t h2 s := by
  induction h with
  | start =>
    intro h1 p h2 he
    cases h1 <;> cases he
  | next orb a d hrun ih =>
    rename_i hist u
    intro h1 p h2 he
    rcases List.eq_nil_or_concat h2 with hnil | ⟨h2', x, hcons⟩
    · subst hnil
      have := List.append_inj' he (by simp)
      obtain ⟨e1, e2⟩ := this
      subst e1
      have e3 : p = (orb, u) := (List.cons.inj e2).1.symm
      subst e3
      exact ⟨_, Run.next orb a d hrun, Run.start⟩
    · subst hcons
      have he' : hist ++ [(orb, u)] = (h1 ++ p :: h2') ++ [x] := by
        rw [he]; simp
      obtain ⟨e1, e2⟩ := List.append_inj' he' (by simp)
      have e3 : x = (orb, u) := (List.cons.inj e2).1.symm
      subst e3
      obtain ⟨t, r1, r2⟩ := ih h1 p h2' e1
      exact ⟨t, r1, by simpa using Run.next orb a d r2⟩

end BulkImporter
namespace BulkImporter

theorem retryLoop_run {σ : Type} (reg : Registry σ) (orb : VersionedOrb) (s0 : Session σ)
    (left iter : Nat) (lastErr : Option ImportError)
    (hist : List (VersionedOrb × Session σ)) (s : Session σ) (h : Run reg s0 hist s) :
    ∃ more, Run reg s0 (hist ++ more) (retryLoop reg orb left iter lastErr s).2 ∧
      ∀ p ∈ more, p.1 = orb := by
  induction left generalizing iter lastErr hist s with
  | zero =>
    refine ⟨[], ?_, fun _ hp => absurd hp (List.not_mem_nil _)⟩
    rw [List.append_nil]
    exact h
  | succ n ih =>
    have glue : ∀ (t : Session σ),
        (∃ more, Run reg s0 ((hist ++ [(orb, s)]) ++ more) t ∧ ∀ p ∈ more, p.1 = orb) →
        ∃ more, Run reg s0 (hist ++ more) t ∧ ∀ p ∈ more, p.1 = orb := by
      rintro t ⟨more, hr, hp⟩
      refine ⟨(orb, s) :: more, by simpa using hr, ?_⟩
      intro p hmem
      rcases List.mem_cons.1 hmem with hmem | hmem
      · rw [hmem]
      · exact hp p hmem
    have here : ∀ a d, ∃ more, Run reg s0 ((hist ++ [(orb, s)]) ++ more)
        { (attempt reg orb s).2 with availableOrbRefs := a, droppedOrbRefs := d } ∧
        ∀ p ∈ more, p.1 = orb := by
      intro a d
      refine ⟨[], ?_, fun _ hp => absurd hp (List.not_mem_nil _)⟩
      rw [List.append_nil]
      exact Run.next orb a d h
    have again : ∀ iter lastErr, ∃ more,
        Run reg s0 ((hist ++ [(orb, s)]) ++ more)
          (retryLoop reg orb n iter lastErr (attempt reg orb s).2).2 ∧
        ∀ p ∈ more, p.1 = orb := by
      intro iter lastErr
      exact ih iter lastErr _ _
        (Run.next orb (attempt reg orb s).2.availableOrbRefs
          (attempt reg orb s).2.droppedOrbRefs h)
    unfold retryLoop
    generalize attempt reg orb s = step at here again ⊢
    obtain ⟨ended, s1⟩ := step
    cases ended with
    | failed e => exact glue _ (again _ _)
    | publishFailed e =>
      dsimp only
      by_cases hlast : iter + 1 = maxImportRetries
      · rw [if_pos hlast]; exact glue _ (here _ _)
      · rw [if_neg hlast]; exact glue _ (again _ _)
    | published => exact glue _ (here _ _)
    | alreadyThere => exact glue _ (here _ _)

theorem importLoop_run {σ : Type} (reg : Registry σ) (s0 : Session σ)
    (orbs : List VersionedOrb) (hist : List (VersionedOrb × Session σ)) (s : Session σ)
    (h : Run reg s0 hist s) :
    ∃ more, Run reg s0 (hist ++ more) (importLoop reg orbs s).2 ∧
      ∀ p ∈ more, p.1 ∈ orbs := by
  induction orbs generalizing hist s with
  | nil =>
    refine ⟨[], ?_, fun _ hp => absurd hp (List.not_mem_nil _)⟩
    rw [List.append_nil]
    exact h
  | cons orb rest ih =>
    unfold importLoop
    obtain ⟨m1, r1, p1⟩ := retryLoop_run reg orb s0 maxImportRetries 0 none hist s h
    generalize retryLoop reg orb maxImportRetries 0 none s = step at r1 ⊢
    obtain ⟨lastErr, s1⟩ := step
    cases lastErr with
    | some e =>
      exact ⟨m1, r1, fun p hp => by rw [p1 p hp]; exact List.mem_cons_self _ _⟩
    | none =>
      dsimp only
      obtain ⟨m2, r2, p2⟩ := ih _ s1 r1
      refine ⟨m1 ++ m2, by rw [← List.append_assoc]; exact r2, ?_⟩
      intro p hp
      rcases List.mem_append.1 hp with hp | hp
      · rw [p1 p hp]; exact List.mem_cons_self _ _
      · exact List.mem_cons_of_mem _ (p2 p hp)

/-- C16 as stated is refuted: against a registry that knows no namespace and
whose first namespace creation fails, the run for one package makes two
namespace-existence queries for the same namespace, both answered without
error, and ends with a nil error. -/
theorem successful_query_is_repeated :
    (ImportOrbsWithRetries Examples.slowCreateRegistry 0
      [Examples.orb "ns/a@1.0.0" ""]).final.calls =
      [Call.namespaceExists "ns".toList, Call.createImportedNamespace "ns".toList,
        Call.namespaceExists "ns".toList, Call.createImportedNamespace "ns".toList,
        Call.orbId "ns/a".toList, Call.orbInfo "ns/a@1.0.0".toList] ∧
    (ImportOrbsWithRetries Examples.slowCreateRegistry 0
      [Examples.orb "ns/a@1.0.0" ""]).err = none ∧
    (∀ n, Examples.slowCreateRegistry.namespaceExists "ns".toList n = (.ok false, n)) ∧
    ((ImportOrbsWithRetries Examples.slowCreateRegistry 0
      [Examples.orb "ns/a@1.0.0" ""]).final.calls.filter
        (fun c => decide (c = Call.namespaceExists "ns".toList))).length = 2 :=
  ⟨by decide, by decide, fun _ => rfl, by decide⟩

/-- C16, amended.  Session cache invariant of `ImportOrbsWithRetries`, for any
way for the registry to respond.  The variables at the return of a run are a
point of a run whose attempts are attempts for packages of the input.  At every
point `s` of a run, `hist` being the attempts made so far:
(1) a namespace is in `nsExists` if and only if its ensure step has completed
without error in an attempt of `hist`, and a name is in `orbIDs` if and only if
its ensure step has completed without error in an attempt of `hist`;
(2) at every later point `s'` a cached namespace is still cached and its
ensure step returns at once without a call; a cached name still has the same
id and its ensure step returns that id at once without a call; the calls
made between `s` and `s'` contain no existence query and no creation for a
cached namespace and no family-id query for a cached name; an attempt in between
for a package of a cached namespace makes no namespace call, and one for a
package with a cached name makes no family call;
(3) so, once the ensure step of a namespace (of a family) has completed without
error in an attempt, no later attempt for a package of that namespace (of that
name) makes a namespace call (a namespace or family call): at most one ensure
step per key both makes a call and completes, hence at most one successful
creation per key. -/
theorem session_cache_invariant {σ : Type} (reg : Registry σ) (remote : σ) :
    (∀ orbs, ∃ hist,
      Run reg (Session.start remote) hist (ImportOrbsWithRetries reg remote orbs).final ∧
      ∀ p ∈ hist, p.1 ∈ orbs) ∧
    (∀ hist s, Run reg (Session.start remote) hist s →
      (∀ ns, s.nsExists.get? ns ≠ none ↔ NamespaceEnsured reg ns hist) ∧
      (∀ name, s.orbIDs.get? name ≠ none ↔ FamilyEnsured reg name hist) ∧
      (∀ later s', Run reg s later s' →
        ∃ added, s'.calls = s.calls ++ added ∧
          (∀ ns, s.nsExists.get? ns ≠ none →
            s'.nsExists.get? ns ≠ none ∧
            ensureNamespace reg ns s' = (none, s') ∧
            Call.namespaceExists ns ∉ added ∧ Call.createImportedNamespace ns ∉ added ∧
            ∀ p ∈ later, namespaceOf p.1 = ns →
              ensureNamespace reg ns p.2 = (none, p.2) ∧
              ∃ more, (attempt reg p.1 p.2).2.calls = p.2.calls ++ more ∧
                ∀ c ∈ more, c.isNamespace = false) ∧
          (∀ name id, s.orbIDs.get? name = some id →
            s'.orbIDs.get? name = some id ∧
            (∀ orb ns short, orb.Name = name →
              ensureFamily reg orb ns short s' = (.ok id, s')) ∧
            Call.orbId name ∉ added ∧
            ∀ p ∈ later, p.1.Name = name →
              (∀ ns short, ensureFamily reg p.1 ns short p.2 = (.ok id, p.2)) ∧
              ∃ more, (attempt reg p.1 p.2).2.calls = p.2.calls ++ more ∧
                ∀ c ∈ more, c.isFamily = false)) ∧
      (∀ h1 p h2, hist = h1 ++ p :: h2 →
        ((ensureNamespace reg (namespaceOf p.1) p.2).1 = none →
          ∀ q ∈ h2, namespaceOf q.1 = namespaceOf p.1 →
            ∃ more, (attempt reg q.1 q.2).2.calls = q.2.calls ++ more ∧
              ∀ c ∈ more, c.isNamespace = false) ∧
        ((∃ s1 id s2, ensureNamespace reg (namespaceOf p.1) p.2 = (none, s1) ∧
            ensureFamily reg p.1 (namespaceOf p.1) (shortnameOf p.1) s1 = (.ok id, s2)) →
          ∀ q ∈ h2, q.1.Name = p.1.Name →
            ∃ more, (attempt reg q.1 q.2).2.calls = q.2.calls ++ more ∧
              ∀ c ∈ more, c.isNamespace = false ∧ c.isFamily = false))) := by
  constructor
  · intro orbs
    obtain ⟨more, hr, hp⟩ := importLoop_run reg (Session.start remote) orbs []
      (Session.start remote) Run.start
    refine ⟨more, ?_, hp⟩
    rw [List.nil_append] at hr
    unfold ImportOrbsWithRetries
    generalize importLoop reg orbs (Session.start remote) = res at hr ⊢
    obtain ⟨failure, s⟩ := res
    cases failure <;> exact hr
  · intro hist s hrun
    have hc := Run.caches hrun
    have nsPart : ∀ h1 p h2, hist = h1 ++ p :: h2 →
        (ensureNamespace reg (namespaceOf p.1) p.2).1 = none →
        ∀ q ∈ h2, namespaceOf q.1 = namespaceOf p.1 →
          ∃ more, (attempt reg q.1 q.2).2.calls = q.2.calls ++ more ∧
            ∀ c ∈ more, c.isNamespace = false := by
      intro h1 p h2 he hdone q hq hns
      obtain ⟨t, r1, r2⟩ := Run.split hrun h1 p h2 he
      have hcached : t.nsExists.get? (namespaceOf p.1) ≠ none :=
        ((Run.caches r1).1 _).2 (Or.inr
          ⟨p, List.mem_append_right _ (List.mem_singleton.2 rfl), rfl, hdone⟩)
      obtain ⟨_, _, hl, _⟩ := Run.later r2
      exact ((hl _ hcached).2.2.2 q hq).2 hns
    refine ⟨?_, ?_, ?_, ?_⟩
    · intro ns
      rw [hc.1 ns]
      constructor
      · rintro (h | h)
        · exact absurd rfl h
        · exact h
      · exact fun h => Or.inr h
    · intro name
      rw [hc.2 name]
      constructor
      · rintro (h | h)
        · exact absurd rfl h
        · exact h
      · exact fun h => Or.inr h
    · intro later s' hlater
      obtain ⟨added, hcalls, hn, hf⟩ := Run.later hlater
      refine ⟨added, hcalls, ?_, ?_⟩
      · intro ns h
        obtain ⟨i1, i2, i3, i4⟩ := hn ns h
        refine ⟨i1, ensureNamespace_cached reg ns s' i1, i2, i3, ?_⟩
        intro p hp hns
        exact ⟨ensureNamespace_cached reg ns p.2 (i4 p hp).1, (i4 p hp).2 hns⟩
      · intro name id h
        obtain ⟨i1, i2, i4⟩ := hf name id h
        refine ⟨i1, ?_, i2, ?_⟩
        · intro orb ns short hname
          exact ensureFamily_cached reg orb ns short s' id (by rw [hname]; exact i1)
        · intro p hp hname
          refine ⟨?_, (i4 p hp).2 hname⟩
          intro ns short
          exact ensureFamily_cached reg p.1 ns short p.2 id (by rw [hname]; exact (i4 p hp).1)
    · intro h1 p h2 he
      refine ⟨nsPart h1 p h2 he, ?_⟩
      rintro ⟨s1, id, s2, e1, e2⟩ q hq hname
      have hns : namespaceOf q.1 = namespaceOf p.1 := by
        unfold namespaceOf
        rw [hname]
      obtain ⟨more, hm, hfree⟩ := nsPart h1 p h2 he (by rw [e1]) q hq hns
      obtain ⟨t, r1, r2⟩ := Run.split hrun h1 p h2 he
      have hcached : t.orbIDs.get? p.1.Name ≠ none :=
        ((Run.caches r1).2 _).2 (Or.inr
          ⟨p, List.mem_append_right _ (List.mem_singleton.2 rfl), rfl, s1, id, s2, e1, e2⟩)
      obtain ⟨id', hid'⟩ := Option.ne_none_iff_exists'.1 hcached
      obtain ⟨_, _, _, hl⟩ := Run.later r2
      obtain ⟨more', hm', hfree'⟩ := ((hl _ id' hid').2.2 q hq).2 hname
      have : more = more' := List.append_cancel_left (hm.symm.trans hm')
      subst this
      exact ⟨more, hm, fun c hc => ⟨hfree c hc, hfree' c hc⟩⟩

theorem session_cache_invariant_witness :
    NamespaceEnsured Examples.pickyRegistry "ns".toList
      [(Examples.orb "ns/a@1.0.0" "", Session.start ())] ∧
    FamilyEnsured Examples.pickyRegistry "ns/a".toList
      [(Examples.orb "ns/a@1.0.0" "", Session.start ())] ∧
    ensureNamespace Examples.pickyRegistry "ns".toList
      (attempt Examples.pickyRegistry (Examples.orb "ns/a@1.0.0" "") (Session.start ())).2 =
      (none,
        (attempt Examples.pickyRegistry (Examples.orb "ns/a@1.0.0" "") (Session.start ())).2) :=
  have hrun : Run Examples.pickyRegistry (Session.start ())
      ([] ++ [(Examples.orb "ns/a@1.0.0" "", Session.start ())])
      { (attempt Examples.pickyRegistry (Examples.orb "ns/a@1.0.0" "") (Session.start ())).2 with
        availableOrbRefs := [], droppedOrbRefs := [] } :=
    Run.next _ [] [] Run.start
  have h := (session_cache_invariant Examples.pickyRegistry ()).2 _ _ hrun
  have hn : ({ (attempt Examples.pickyRegistry (Examples.orb "ns/a@1.0.0" "")
      (Session.start ())).2 with availableOrbRefs := [], droppedOrbRefs := [] } :
      Session Unit).nsExists.get? "ns".toList ≠ none := by decide
  ⟨(h.1 "ns".toList).1 hn, (h.2.1 "ns/a".toList).1 (by decide),
    ((h.2.2.1 [] _ Run.start).choose_spec.2.1 "ns".toList hn).2.1⟩

end BulkImporter
namespace Cmd

theorem trimSpace_eq_self (s : Str)
    (hhead : ∀ c, s.head? = some c → isSpace c = false)
    (hlast : ∀ c, s.getLast? = some c → isSpace c = false) : trimSpace s = s := by
  have drop : ∀ (l : Str), (∀ c, l.head? = some c → isSpace c = false) →
      l.dropWhile isSpace = l := by
    intro l hl
    cases l with
    | nil => rfl
    | cons c t =>
      rw [List.dropWhile_cons, hl c rfl]
      simp
  unfold trimSpace
  rw [drop s hhead, drop s.reverse (by rw [List.head?_reverse]; exact hlast),
    List.reverse_reverse]

theorem intercalate_head_last (refs : List Str) (hne : refs ≠ [])
    (hall : ∀ r ∈ refs, r ≠ []) :
    (List.intercalate ['\n'] refs).head? = (refs.head hne).head? ∧
    (List.intercalate ['\n'] refs).getLast? = (refs.getLast hne).getLast? := by
  induction refs with
  | nil => exact absurd rfl hne
  | cons r rest ih =>
    cases rest with
    | nil => simp [List.intercalate]
    | cons r' rs =>
      have e : List.intercalate ['\n'] (r :: r' :: rs) =
          r ++ '\n' :: List.intercalate ['\n'] (r' :: rs) := by simp [List.intercalate]
      obtain ⟨_, i2⟩ := ih (List.cons_ne_nil _ _)
        (fun x hx => hall x (List.mem_cons_of_mem _ hx))
      have hr : r ≠ [] := hall r (List.mem_cons_self _ _)
      rw [e]
      constructor
      · cases r with
        | nil => exact absurd rfl hr
        | cons c t => rfl
      · have hl : (r' :: rs).getLast (List.cons_ne_nil _ _) ≠ [] :=
          hall _ (List.mem_cons_of_mem _ (List.getLast_mem _))
        rw [List.getLast?_append, List.getLast_cons (List.cons_ne_nil _ _)]
        cases hg : ((r' :: rs).getLast (List.cons_ne_nil _ _)).getLast? with
        | none => exact absurd (List.getLast?_eq_none_iff.1 hg) hl
        | some c =>
          rw [hg] at i2
          cases hx : List.intercalate ['\n'] (r' :: rs) with
          | nil => rw [hx] at i2; cases i2
          | cons y ys =>
            rw [hx] at i2
            rw [List.getLast?_cons_cons, i2]
            rfl

/-- C19, the failing input.  For the empty list of resolved packages
`dumpResolvedOrbs` writes the empty text, and `loadListedOrbs` splits the
empty text into one piece, the empty ref: the list read back has length 1 and
is not the empty list that was written. -/
theorem empty_list_is_not_read_back :
    dumpResolvedOrbs [] = [] ∧
    orderedList (dumpResolvedOrbs []) = [[]] ∧
    (orderedList (dumpResolvedOrbs [])).length = 1 ∧
    orderedList (dumpResolvedOrbs []) ≠ ([] : List VersionedOrb).map VersionedOrb.Ref :=
  ⟨rfl, by decide, by decide, by decide⟩

/-- Round trip of the file of the resolved order, for a list that is not
empty: when every ref is non-empty, contains no newline and neither starts
nor ends with white space, the list that `loadListedOrbs` reads back from the
text `dumpResolvedOrbs` writes is the list of the refs, in the same order. -/
theorem round_trip_of_nonempty_list (resolvedOrder : List VersionedOrb)
    (hne : resolvedOrder ≠ [])
    (hnonempty : ∀ o ∈ resolvedOrder, o.Ref ≠ [])
    (hline : ∀ o ∈ resolvedOrder, '\n' ∉ o.Ref)
    (hhead : ∀ o ∈ resolvedOrder, ∀ c, o.Ref.head? = some c → isSpace c = false)
    (hlast : ∀ o ∈ resolvedOrder, ∀ c, o.Ref.getLast? = some c → isSpace c = false) :
    orderedList (dumpResolvedOrbs resolvedOrder) = resolvedOrder.map VersionedOrb.Ref ∧
    (orderedList (dumpResolvedOrbs resolvedOrder)).length = resolvedOrder.length := by
  have hne' : resolvedOrder.map VersionedOrb.Ref ≠ [] := by
    intro h
    exact hne (List.map_eq_nil_iff.1 h)
  have hmem : ∀ r ∈ resolvedOrder.map VersionedOrb.Ref, ∃ o ∈ resolvedOrder, o.Ref = r := by
    intro r hr
    obtain ⟨o, ho, e⟩ := List.mem_map.1 hr
    exact ⟨o, ho, e⟩
  have hall : ∀ r ∈ resolvedOrder.map VersionedOrb.Ref, r ≠ [] := by
    intro r hr
    obtain ⟨o, ho, e⟩ := hmem r hr
    rw [← e]
    exact hnonempty o ho
  obtain ⟨h1, h2⟩ := intercalate_head_last (resolvedOrder.map VersionedOrb.Ref) hne' hall
  have htrim : trimSpace (dumpResolvedOrbs resolvedOrder) = dumpResolvedOrbs resolvedOrder := by
    apply trimSpace_eq_self
    · intro c hc
      unfold dumpResolvedOrbs at hc
      rw [h1] at hc
      obtain ⟨o, ho, e⟩ := hmem _ (List.head_mem hne')
      rw [← e] at hc
      exact hhead o ho c hc
    · intro c hc
      unfold dumpResolvedOrbs at hc
      rw [h2] at hc
      obtain ⟨o, ho, e⟩ := hmem _ (List.getLast_mem hne')
      rw [← e] at hc
      exact hlast o ho c hc
  have key : orderedList (dumpResolvedOrbs resolvedOrder) =
      resolvedOrder.map VersionedOrb.Ref := by
    unfold orderedList
    rw [htrim]
    unfold dumpResolvedOrbs
    apply List.splitOn_intercalate _ _ _ hne'
    intro r hr
    obtain ⟨o, ho, e⟩ := hmem r hr
    rw [← e]
    exact hline o ho
  exact ⟨key, by rw [key, List.length_map]⟩

theorem round_trip_of_nonempty_list_witness :
    orderedList (dumpResolvedOrbs Examples.cargo) = Examples.cargo.map VersionedOrb.Ref ∧
    (orderedList (dumpResolvedOrbs Examples.cargo)).length = Examples.cargo.length :=
  round_trip_of_nonempty_list Examples.cargo (by decide) (by decide) (by decide)
    (by decide) (by decide)

end Cmd
end OrbsSync
